import Mathlib

/-!
# parse_int: chunked decimal integer parsing

A shallow embedding of `parse_int.h` in its pure-C fallback mode (the mode that is
compiled unless `SIXTEEN_BYTES_AT_A_TIME` is requested): `_CHUNK` is `unsigned`, so a
chunk is 4 bytes, and `_WORD` is a 64 bit `size_t`.

* Memory is a map from addresses to bytes; pointers are natural numbers.
* Machine arithmetic is arithmetic on `Nat` with an explicit `% 2 ^ bits`.
* The `while (true)` loop of `_DEFINE` is a structurally recursive function on a
  counter that `_DEFINE` initialises with the number of aligned chunks between the first
  chunk and `end`, which bounds the number of iterations.
-/

namespace ParseInt

/-! ## Memory and integer types -/

/-- Byte addressed memory. A cell is read modulo 256. -/
abbrev Mem := Nat → Nat

/-- The byte stored at address `a`. -/
def byteAt (mem : Mem) (a : Nat) : Nat := mem a % 256

/-- The ASCII test `'0' <= c && c <= '9'`. -/
def isDigit (c : Nat) : Bool := decide (48 ≤ c) && decide (c ≤ 57)

/-- The integer widths of the `_SET` instantiations: 32 bit (`int`, `unsigned`, `int32`,
`uint32`), 64 bit (`long`, `long_long`, `int64`, `uint64` and the unsigned ones) and
128 bit (`int128`, `uint128`). -/
inductive Width
  | w32
  | w64
  | w128
  deriving DecidableEq, Repr

/-- The `sizeof(type)` of a width, in bytes. -/
def Width.sizeof : Width → Nat
  | .w32 => 4
  | .w64 => 8
  | .w128 => 16

/-- Number of bits of a width. -/
def Width.bits (w : Width) : Nat := 8 * w.sizeof

/-- The five compile time flags of `_DEFINE`. -/
structure Policy where
  is_null_terminated : Bool
  is_exact : Bool
  has_size : Bool
  check_overflow : Bool
  check_input : Bool
  deriving DecidableEq, Repr

/-- What a call leaves behind: the returned pointer (`null` for `NULL`) and the content
of `*result` after the call, as the bit pattern of the unsigned type. `timeout` is the
loop counter running out. -/
inductive Ret
  | timeout
  | null (result : Nat)
  | ok (endp : Nat) (result : Nat)
  deriving DecidableEq, Repr

/-- The value of a stored bit pattern, read as `type` (two's complement when signed). -/
def asValue (w : Width) (is_unsigned : Bool) (bits : Nat) : Int :=
  if is_unsigned then (bits : Int)
  else if bits < 2 ^ (w.bits - 1) then (bits : Int) else (bits : Int) - 2 ^ w.bits

/-! ## The chunk macros of the pure-C fallback mode -/

/-- The macro `_CHUNK_SIZE`, that is `sizeof(unsigned)`. -/
def _CHUNK_SIZE : Nat := 4

/-- Number of bits of a `_CHUNK`. -/
def chunkBits : Nat := 8 * _CHUNK_SIZE

/-- Number of bits of a `_WORD` (`size_t`). -/
def wordBits : Nat := 64

/-- The macro `_REPEAT(value)`: `((((unsigned)0) - 1) / 0xff) * (value)`. -/
def _REPEAT (value : Nat) : Nat := ((2 ^ chunkBits - 1) / 0xff * value) % 2 ^ chunkBits

/-- The macro `_REPEAT_16(value)`: `((((unsigned)0) - 1) / 0xffff) * (value)`. -/
def _REPEAT_16 (value : Nat) : Nat := ((2 ^ chunkBits - 1) / 0xffff * value) % 2 ^ chunkBits

/-- The macro `_REPEAT_32(value)`: `((((unsigned)0) - 1) / 0xffffffff) * (value)`. -/
def _REPEAT_32 (value : Nat) : Nat :=
  ((2 ^ chunkBits - 1) / 0xffffffff * value) % 2 ^ chunkBits

/-- The little endian `unsigned` stored at `p`. -/
def load32 (mem : Mem) (p : Nat) : Nat :=
  byteAt mem p + 256 * byteAt mem (p + 1) + 65536 * byteAt mem (p + 2)
    + 16777216 * byteAt mem (p + 3)

/-- The macro `_LOAD_FROM(p)`: `*((_CHUNK*)(p)) ^ _REPEAT('0')`. -/
def _LOAD_FROM (mem : Mem) (p : Nat) : Nat := load32 mem p ^^^ _REPEAT 48

/-- The macro `_ZERO_FIRST_N_BYTES(value, n)`:
`(value) & (_REPEAT(0xff) << ((n) * 8))`. -/
def _ZERO_FIRST_N_BYTES (value n : Nat) : Nat :=
  value &&& ((_REPEAT 0xff <<< (n * 8)) % 2 ^ chunkBits)

/-- The macro `_MAP_OF_NON_DIGITS(value)`:
`(((value) + _REPEAT(0x7f - 9)) | (value)) & _REPEAT(0x80)`. -/
def _MAP_OF_NON_DIGITS (value : Nat) : Nat :=
  (((value + _REPEAT (0x7f - 9)) % 2 ^ chunkBits) ||| value) &&& _REPEAT 0x80

/-- The macro `_MAP_HAS_NON_DIGITS(value)`: `(value) != 0`. -/
def _MAP_HAS_NON_DIGITS (value : Nat) : Bool := value != 0

/-- Number of trailing zero bits among the lowest `n` bits of `value`. -/
def ctz : Nat → Nat → Nat
  | 0, _ => 0
  | n + 1, value => if value % 2 = 1 then 0 else ctz n (value / 2) + 1

/-- The builtin `__builtin_ffsl(value)`: one plus the index of the least significant set
bit, and zero when there is none. -/
def ffsl (value : Nat) : Nat := if value = 0 then 0 else ctz wordBits value + 1

/-- The macro `_DIGITS_IN_MAP(value)`: `(__builtin_ffsl(value) - 1) >> 3`. The source
only evaluates it on a map that has a set bit, so the subtraction never goes below zero. -/
def _DIGITS_IN_MAP (value : Nat) : Nat := (ffsl value - 1) >>> 3

/-- The macro `_SHIFT_LEFT_N_BYTES(value, n)`:
`(value) << ((n * 8) & (_CHUNK_SIZE * 8 - 1))`. -/
def _SHIFT_LEFT_N_BYTES (value n : Nat) : Nat :=
  (value <<< ((n * 8) &&& (_CHUNK_SIZE * 8 - 1))) % 2 ^ chunkBits

/-- The function `_CALCULATE_BASE_10(bytes)`: treat the chunk as base 10 digits, one per
byte, and calculate the number they represent. `chunk_size` is `_CHUNK_SIZE` and the
arithmetic is that of a `_CHUNK` of `chunk_size` bytes; the parser uses `chunk_size = 4`.
The masks are the macros `_REPEAT_16` and `_REPEAT_32` as lines 251-252 write them: they
are computed from `(unsigned)0`, of 32 bits here as everywhere in this development,
whatever the size of the chunk is. -/
def _CALCULATE_BASE_10 (chunk_size : Nat) (bytes : Nat) : Nat :=
  let m := 2 ^ (8 * chunk_size)
  if chunk_size = 8 then
    let bytes := (bytes * 10 + (bytes >>> 8)) % m
    let hi := bytes &&& _REPEAT_32 0x00ff0000
    let bytes := ((bytes &&& _REPEAT_32 0x000000ff) * 100 + (hi >>> 16)) % m
    let bytes := (bytes * ((1 + 10000 * 0x10000 * 0x10000) % m)) % m
    let bytes := bytes >>> 16
    bytes >>> 16
  else
    let hi := bytes &&& _REPEAT_16 0xff00
    let bytes := ((bytes &&& _REPEAT_16 0xff) * 10 + (hi >>> 8)) % m
    let bytes := (bytes * (1 + (100 <<< 16))) % m
    bytes >>> 16

/-- The macro `_MAX_DIGITS(type, is_unsigned)`:
`sizeof(type) == 4 ? 10 : (sizeof(type) == 8 ? (is_unsigned ? 20 : 19) : 39)`. -/
def _MAX_DIGITS (w : Width) (is_unsigned : Bool) : Nat :=
  if w.sizeof = 4 then 10 else (if w.sizeof = 8 then (if is_unsigned then 20 else 19) else 39)

/-- The table `powers[17]` of `_POWERS_OF_10` on a platform with a 64 bit `size_t`. -/
def powers : List Nat :=
  [1, 10, 100, 1000, 10000, 100000, 1000000, 10000000, 100000000, 1000000000,
   10000000000, 100000000000, 1000000000000, 10000000000000, 100000000000000,
   1000000000000000, 10000000000000000]

/-- The function `_POWERS_OF_10(exponent)`: `powers[exponent]`. The source never indexes
past the table; such an index reads as zero here. -/
def _POWERS_OF_10 (exponent : Nat) : Nat := powers.getD exponent 0

/-! ## The body of `_DEFINE` -/

/-- Lines 366-374: the check for a non-number in the chunk. Gives the new `end`, or
`none` when the function returns `NULL` there. `p` is the pointer after `p += _CHUNK_SIZE`. -/
def scanChunk (pol : Policy) (mem : Mem) (p endp bytes : Nat) : Option Nat :=
  let end_map := _MAP_OF_NON_DIGITS bytes
  if pol.check_input && _MAP_HAS_NON_DIGITS end_map then
    let new_end := p - _CHUNK_SIZE + _DIGITS_IN_MAP end_map
    if pol.has_size && pol.is_exact && decide (new_end ≠ endp) then none
    else if pol.is_null_terminated && pol.is_exact && decide (byteAt mem new_end ≠ 0) then none
    else if new_end < endp then some new_end
    else some endp
  else some endp

/-- Lines 387-411: fold the value of a chunk into the accumulator `r`. Gives the new
`r`, or `none` when the function returns `NULL` for overflow. -/
def accumulate (w : Width) (pol : Policy) (r digits_added bytes : Nat) : Option Nat :=
  if digits_added ≠ 0 then
    if pol.check_overflow then
      let r1 := (r * _POWERS_OF_10 ((digits_added + 2 ^ wordBits - 1) % 2 ^ wordBits)) % 2 ^ w.bits
      if r1 > (2 ^ w.bits - 1) / 10 then none
      else
        let r2 := (r1 * 10) % 2 ^ w.bits
        let summed := _CALCULATE_BASE_10 _CHUNK_SIZE bytes
        if w.sizeof = 4 ∧ _CHUNK_SIZE = 16 then
          if (summed + r2) % 2 ^ wordBits > 2 ^ 32 - 1 then none
          else some ((r2 + summed) % 2 ^ w.bits)
        else
          let new_result := (r2 + summed) % 2 ^ w.bits
          if new_result < r2 then none else some new_result
    else
      let r1 := (r * _POWERS_OF_10 digits_added) % 2 ^ w.bits
      some ((r1 + _CALCULATE_BASE_10 _CHUNK_SIZE bytes) % 2 ^ w.bits)
  else some r

/-- Lines 419-421: `for (; digits_start < end; digits_start++) if (*digits_start != '0')
break;`, run for at most `n` steps; gives the final `digits_start`. -/
def skipZeros (mem : Mem) : Nat → Nat → Nat
  | 0, digits_start => digits_start
  | n + 1, digits_start =>
    if byteAt mem digits_start ≠ 48 then digits_start else skipZeros mem n (digits_start + 1)

/-- Lines 413-443: the last word has been folded in. The final check of the number of
digits, the application of the sign, the store to `*result` and the return of `end`. -/
def finish (w : Width) (is_unsigned : Bool) (pol : Policy) (mem : Mem)
    (digits_start : Nat) (negative : Bool) (result endp r : Nat) : Ret :=
  let too_long : Bool :=
    pol.check_overflow &&
      decide ((endp : Int) - digits_start > _MAX_DIGITS w is_unsigned) &&
      decide ((endp : Int) - skipZeros mem (endp - digits_start) digits_start
                > _MAX_DIGITS w is_unsigned)
  if too_long then Ret.null result
  else if is_unsigned then Ret.ok endp r
  else if !pol.check_overflow then
    Ret.ok endp (if negative then (2 ^ w.bits - r) % 2 ^ w.bits else r)
  else
    let max := ((0 + 2 ^ w.bits - 1) % 2 ^ w.bits) >>> 1
    if negative then
      if r > max + 1 then Ret.null result else Ret.ok endp ((2 ^ w.bits - r) % 2 ^ w.bits)
    else
      if r > max then Ret.null result else Ret.ok endp r

/-- Lines 363-448: the `while (true)` loop. `p` is the aligned address of the chunk in
`bytes`; the first argument counts the iterations that may still be run. -/
def parseLoop (w : Width) (is_unsigned : Bool) (pol : Policy) (mem : Mem)
    (digits_start : Nat) (negative : Bool) (result : Nat) :
    Nat → Nat → Nat → Nat → Nat → Nat → Ret
  | 0, _, _, _, _, _ => Ret.timeout
  | fuel + 1, p, endp, bytes, r, digits_added =>
    let p1 := p + _CHUNK_SIZE
    match scanChunk pol mem p1 endp bytes with
    | none => Ret.null result
    | some endp1 =>
      let chop_off := p1 - endp1
      let bytes1 := if p1 ≥ endp1 then _SHIFT_LEFT_N_BYTES bytes chop_off else bytes
      let digits_added1 :=
        if p1 ≥ endp1 then (digits_added + 2 ^ wordBits - chop_off) % 2 ^ wordBits
        else digits_added
      let p2 := if p1 ≥ endp1 then p1 - chop_off else p1
      match accumulate w pol r digits_added1 bytes1 with
      | none => Ret.null result
      | some r1 =>
        if p2 ≥ endp1 then finish w is_unsigned pol mem digits_start negative result endp1 r1
        else parseLoop w is_unsigned pol mem digits_start negative result
               fuel p2 endp1 (_LOAD_FROM mem p2) r1 _CHUNK_SIZE

/-- Lines 339-362 followed by the loop: everything in `_DEFINE` after the dispatch on
short sizes. `endp` is the local `end` of `declare_locals`. -/
def defineBody (w : Width) (is_unsigned : Bool) (pol : Policy) (mem : Mem)
    (result p endp : Nat) : Ret :=
  if pol.has_size && decide (endp ≤ p) then Ret.null result
  else if pol.is_null_terminated && decide (byteAt mem p = 0) then Ret.null result
  else
    let negative := !is_unsigned && decide (byteAt mem p = 45)
    let p1 := if negative then p + 1 else p
    if negative && pol.has_size && decide (endp ≤ p1) then Ret.null result
    else
      let digits_start := p1
      if pol.check_input && !(isDigit (byteAt mem p1)) then Ret.null result
      else
        let ignore := p1 &&& (_CHUNK_SIZE - 1)
        let p2 := p1 - ignore
        let bytes := _ZERO_FIRST_N_BYTES (_LOAD_FROM mem p2) ignore
        let r := if is_unsigned then result % 2 ^ w.bits else 0
        let digits_added := _CHUNK_SIZE - ignore
        parseLoop w is_unsigned pol mem digits_start negative result
          ((endp - p2) / _CHUNK_SIZE + 1) p2 endp bytes r digits_added

/-! ## The policies of `_SET` and the entry points -/

/-- The flags of `parse`. -/
def parsePolicy : Policy := ⟨false, false, false, true, true⟩
/-- The flags of `parse_all`. -/
def parseAllPolicy : Policy := ⟨true, true, false, true, true⟩
/-- The flags of `parse_n`. -/
def parseNPolicy : Policy := ⟨false, false, true, true, true⟩
/-- The flags of `parse_all_n`. -/
def parseAllNPolicy : Policy := ⟨false, true, true, true, true⟩
/-- The flags of `parse_overflow`. -/
def parseOverflowPolicy : Policy := ⟨false, false, false, false, true⟩
/-- The flags of `parse_nooverflow`. -/
def parseNooverflowPolicy : Policy := ⟨false, true, true, false, true⟩
/-- The flags of `parse_novalidate`. -/
def parseNovalidatePolicy : Policy := ⟨false, false, true, true, false⟩
/-- The flags of `parse_nocheck`. -/
def parseNocheckPolicy : Policy := ⟨false, false, true, false, false⟩

/-- The `end` of the entry points without a size: `(const char*)0 - 1`. -/
def ptrMax : Nat := 2 ^ 64 - 1

/-- The function `parse_nooverflow_<width>(result, p, size)`. Its flags have
`check_overflow` false, so the dispatch on short sizes at the top of `_DEFINE` is not
compiled in. -/
def parse_nooverflow (w : Width) (is_unsigned : Bool) (mem : Mem) (result p size : Nat) : Ret :=
  defineBody w is_unsigned parseNooverflowPolicy mem result p (p + size)

/-- The function `parse_nocheck_<width>(result, p, size)`. Its flags have
`check_overflow` false, so the dispatch on short sizes at the top of `_DEFINE` is not
compiled in. -/
def parse_nocheck (w : Width) (is_unsigned : Bool) (mem : Mem) (result p size : Nat) : Ret :=
  defineBody w is_unsigned parseNocheckPolicy mem result p (p + size)

/-- The function generated by `_DEFINE` for a width, a signedness and a policy: lines
333-338 hand short sized inputs to `parse_nooverflow` or `parse_nocheck`, everything
else runs the body with the policy's own flags. -/
def define (w : Width) (is_unsigned : Bool) (pol : Policy) (mem : Mem)
    (result p endp : Nat) : Ret :=
  if pol.check_overflow && pol.has_size
      && decide ((endp : Int) - p < _MAX_DIGITS w is_unsigned) then
    if pol.check_input then parse_nooverflow w is_unsigned mem result p (endp - p)
    else parse_nocheck w is_unsigned mem result p (endp - p)
  else defineBody w is_unsigned pol mem result p endp

/-- The function `parse_<width>(result, p)`. -/
def parse (w : Width) (is_unsigned : Bool) (mem : Mem) (result p : Nat) : Ret :=
  define w is_unsigned parsePolicy mem result p ptrMax

/-- The function `parse_all_<width>(result, p)`. -/
def parse_all (w : Width) (is_unsigned : Bool) (mem : Mem) (result p : Nat) : Ret :=
  define w is_unsigned parseAllPolicy mem result p ptrMax

/-- The function `parse_n_<width>(result, p, size)`. -/
def parse_n (w : Width) (is_unsigned : Bool) (mem : Mem) (result p size : Nat) : Ret :=
  define w is_unsigned parseNPolicy mem result p (p + size)

/-- The function `parse_all_n_<width>(result, p, size)`. -/
def parse_all_n (w : Width) (is_unsigned : Bool) (mem : Mem) (result p size : Nat) : Ret :=
  define w is_unsigned parseAllNPolicy mem result p (p + size)

/-- The function `parse_overflow_<width>(result, p)`. -/
def parse_overflow (w : Width) (is_unsigned : Bool) (mem : Mem) (result p : Nat) : Ret :=
  define w is_unsigned parseOverflowPolicy mem result p ptrMax

/-- The function `parse_novalidate_<width>(result, p, size)`. -/
def parse_novalidate (w : Width) (is_unsigned : Bool) (mem : Mem) (result p size : Nat) : Ret :=
  define w is_unsigned parseNovalidatePolicy mem result p (p + size)

/-! ## Buffers and decimal values -/

/-- A memory that holds the bytes `s` from address `base` on, followed by null bytes,
and `fill` below `base`. -/
def memOf (base : Nat) (s : List Nat) (fill : Nat) : Mem :=
  fun a => if a < base then fill else s.getD (a - base) 0

/-- The bytes of a string. -/
def bytesOf (s : String) : List Nat := s.toList.map Char.toNat

/-- The decimal value of the `n` digit characters stored from address `a` on. -/
def decVal (mem : Mem) (a : Nat) : Nat → Nat
  | 0 => 0
  | n + 1 => decVal mem a n * 10 + (byteAt mem (a + n) - 48)


/-! ## The printer of `tests/systematic.cc` -/

/-- The function `max_digits(size)` of `tests/systematic.cc`. -/
def max_digits (size : Nat) : Int :=
  if size = 4 then 10 else if size = 16 then 39 else if size = 8 then 20 else -1

/-- The `digit_value` of `dumb_print_number`: `UNSIGNED digit_value = 1;` multiplied `j`
times by 10 in the unsigned type. -/
def digit_value (w : Width) : Nat → Nat
  | 0 => 1
  | j + 1 => (digit_value w j * 10) % 2 ^ w.bits

/-- The first loop of `dumb_print_number`: starting from `i`, count down while `i > 0` and
`value_unsigned < digit_value`; gives the final `i`. -/
def topDigit (w : Width) (value_unsigned : Nat) : Nat → Nat
  | 0 => 0
  | i + 1 =>
    if value_unsigned ≥ digit_value w (i + 1) then i + 1 else topDigit w value_unsigned i

/-- The second loop of `dumb_print_number`, for `j` from `count - 1` down to 0: the
characters `'0' + digit` written, most significant first. -/
def printDigits (w : Width) : Nat → Nat → List Nat
  | 0, _ => []
  | j + 1, value_unsigned =>
    let digit := value_unsigned / digit_value w j
    ((48 + digit) % 256) ::
      printDigits w j
        ((value_unsigned + 2 ^ w.bits - (digit * digit_value w j) % 2 ^ w.bits) % 2 ^ w.bits)

/-- The function `dumb_print_number<T>(p, value)`: the characters written to `p` before
the final null byte; the function returns their number. -/
def dumb_print_number (w : Width) (value : Int) : List Nat :=
  let value_unsigned :=
    if value < 0 then ((-(value + 1)).toNat % 2 ^ w.bits + 1) % 2 ^ w.bits
    else value.toNat % 2 ^ w.bits
  let i := topDigit w value_unsigned (max_digits w.sizeof - 1).toNat
  (if value < 0 then [45] else []) ++ printDigits w (i + 1) value_unsigned

/-! ## Auxiliary notions used in the proofs -/

/-- Four bytes as a little endian word: `a` is the byte at the lowest address. -/
def mk4 (a b c d : Nat) : Nat := a + 256 * (b + 256 * (c + 256 * d))

/-- Byte lane `i` of a word. -/
def lane (x i : Nat) : Nat := x / 256 ^ i % 256

/-- The 0x80 bit of a lane of the map, from the lane `s` of the sum and `a` of the value. -/
def mapLane (s a : Nat) : Nat := if s / 128 % 2 = 1 ∨ a / 128 % 2 = 1 then 128 else 0

/-- Lane `i` of the chunk loaded at `c` after the first `ig` bytes were zeroed. -/
def xlane (mem : Mem) (c ig i : Nat) : Nat := if i < ig then 0 else byteAt mem (c + i) ^^^ 48

/-- The largest value of the type. -/
def typeMax (w : Width) (is_unsigned : Bool) : Int :=
  if is_unsigned then 2 ^ w.bits - 1 else 2 ^ (w.bits - 1) - 1

/-- The smallest value of the type. -/
def typeMin (w : Width) (is_unsigned : Bool) : Int :=
  if is_unsigned then 0 else -(2 ^ (w.bits - 1))

/-- The bit pattern that stores the value `v` (two's complement). -/
def encode (w : Width) (v : Int) : Nat := (v % 2 ^ w.bits).toNat

/-- The stop position `E` meets what an exact policy asks for: with a size, the stop is
`end` and the scan of the last chunk sees no non-digit elsewhere than at `end`; with a
null terminated input the stop holds the null byte. -/
def ExactOK (pol : Policy) (mem : Mem) (E endp : Nat) : Prop :=
  pol.is_exact = true → pol.check_input = true →
    (pol.has_size = true → E = endp ∧ (isDigit (byteAt mem E) = false ∨
        ∀ a, E ≤ a → a < 4 * ((E + 3) / 4) → isDigit (byteAt mem a) = true)) ∧
    (pol.is_null_terminated = true → byteAt mem E = 0)

/-- The stop position `E` is a non-digit before `end` that an exact policy rejects: any
with a size, and any but the null byte in a null terminated input. -/
def ExactFail (pol : Policy) (mem : Mem) (E endp : Nat) : Prop :=
  pol.is_exact = true ∧ pol.check_input = true ∧ isDigit (byteAt mem E) = false ∧ E < endp ∧
    (pol.has_size = true ∨ (pol.is_null_terminated = true ∧ byteAt mem E ≠ 0))

/-- What the loop leaves in the accumulator (`none` when it returned `NULL`) when the
exact value of seed and digits is `T`: `NULL` is only returned for a failed exactness
requirement or an overflow, and always when `exactFail` holds. -/
def LoopSpec (w : Width) (pol : Policy) (exactOK exactFail : Prop) (T : Nat)
    (o : Option Nat) : Prop :=
  (o = none → ¬ exactOK ∨ (pol.check_overflow = true ∧ 2 ^ w.bits ≤ T)) ∧
  (∀ r1, o = some r1 → ¬ exactFail ∧ r1 < 2 ^ w.bits ∧
     (pol.check_overflow = false → r1 = T % 2 ^ w.bits) ∧
     (pol.check_overflow = true → r1 = T ∨ 10 * 2 ^ w.bits ≤ T))

/-- The return of the function once the loop is left with the accumulator `o`. -/
def retOf (w : Width) (is_unsigned : Bool) (pol : Policy) (mem : Mem) (digits_start : Nat)
    (negative : Bool) (result E : Nat) (o : Option Nat) : Ret :=
  match o with
  | none => Ret.null result
  | some r => finish w is_unsigned pol mem digits_start negative result E r

/-- The value of a number with magnitude `D` and an optional minus sign. -/
def signedVal (neg : Bool) (D : Nat) : Int := if neg then -(D : Int) else (D : Int)

/-- Number of characters taken by the optional minus sign. -/
def signLen (neg : Bool) : Nat := if neg then 1 else 0

/-- The first fold of `_CALCULATE_BASE_10` for a 4 byte chunk (lines 284-285): adjacent
digits are combined into two 16 bit fields. -/
def foldPairs (bytes : Nat) : Nat :=
  ((bytes &&& 0x00ff00ff) * 10 + ((bytes &&& 0xff00ff00) >>> 8)) % 2 ^ 32

/-- The second fold of `_CALCULATE_BASE_10` for a 4 byte chunk (lines 287-288): the two
16 bit fields are combined into one number. -/
def foldQuads (bytes : Nat) : Nat := ((bytes * (1 + (100 <<< 16))) % 2 ^ 32) >>> 16

/-- The loop of `parseLoop` (lines 363-448) with a record of the accumulator: for every
iteration whose fold (lines 387-411) goes through, the pair of the cursor `p` after the
chop and the accumulator `r` after the fold. An iteration that returns `NULL` adds nothing
and ends the record. -/
def foldTrace (w : Width) (pol : Policy) (mem : Mem) :
    Nat → Nat → Nat → Nat → Nat → Nat → List (Nat × Nat)
  | 0, _, _, _, _, _ => []
  | fuel + 1, p, endp, bytes, r, digits_added =>
    let p1 := p + _CHUNK_SIZE
    match scanChunk pol mem p1 endp bytes with
    | none => []
    | some endp1 =>
      let chop_off := p1 - endp1
      let bytes1 := if p1 ≥ endp1 then _SHIFT_LEFT_N_BYTES bytes chop_off else bytes
      let digits_added1 :=
        if p1 ≥ endp1 then (digits_added + 2 ^ wordBits - chop_off) % 2 ^ wordBits
        else digits_added
      let p2 := if p1 ≥ endp1 then p1 - chop_off else p1
      match accumulate w pol r digits_added1 bytes1 with
      | none => []
      | some r1 =>
        (p2, r1) ::
          (if p2 ≥ endp1 then []
           else foldTrace w pol mem fuel p2 endp1 (_LOAD_FROM mem p2) r1 _CHUNK_SIZE)

/-- The record of the accumulator for a call of the body of `_DEFINE`: lines 339-362 as
in `defineBody`, then the loop. A call that returns before the loop has an empty record. -/
def defineTrace (w : Width) (is_unsigned : Bool) (pol : Policy) (mem : Mem)
    (result p endp : Nat) : List (Nat × Nat) :=
  if pol.has_size && decide (endp ≤ p) then []
  else if pol.is_null_terminated && decide (byteAt mem p = 0) then []
  else
    let negative := !is_unsigned && decide (byteAt mem p = 45)
    let p1 := if negative then p + 1 else p
    if negative && pol.has_size && decide (endp ≤ p1) then []
    else
      if pol.check_input && !(isDigit (byteAt mem p1)) then []
      else
        let ignore := p1 &&& (_CHUNK_SIZE - 1)
        let p2 := p1 - ignore
        let bytes := _ZERO_FIRST_N_BYTES (_LOAD_FROM mem p2) ignore
        let r := if is_unsigned then result % 2 ^ w.bits else 0
        let digits_added := _CHUNK_SIZE - ignore
        foldTrace w pol mem ((endp - p2) / _CHUNK_SIZE + 1) p2 endp bytes r digits_added

/-- The loop of `parseLoop` (lines 363-448) with a record of its chunk loads: the address
of every chunk that line 445 loads for a further iteration. An iteration that returns, with
`NULL` or through the end of the function, loads nothing. -/
def loadTrace (w : Width) (pol : Policy) (mem : Mem) :
    Nat → Nat → Nat → Nat → Nat → Nat → List Nat
  | 0, _, _, _, _, _ => []
  | fuel + 1, p, endp, bytes, r, digits_added =>
    let p1 := p + _CHUNK_SIZE
    match scanChunk pol mem p1 endp bytes with
    | none => []
    | some endp1 =>
      let chop_off := p1 - endp1
      let bytes1 := if p1 ≥ endp1 then _SHIFT_LEFT_N_BYTES bytes chop_off else bytes
      let digits_added1 :=
        if p1 ≥ endp1 then (digits_added + 2 ^ wordBits - chop_off) % 2 ^ wordBits
        else digits_added
      let p2 := if p1 ≥ endp1 then p1 - chop_off else p1
      match accumulate w pol r digits_added1 bytes1 with
      | none => []
      | some r1 =>
        if p2 ≥ endp1 then []
        else p2 :: loadTrace w pol mem fuel p2 endp1 (_LOAD_FROM mem p2) r1 _CHUNK_SIZE

/-- The chunk loads of a call of the body of `_DEFINE`: lines 339-362 as in `defineBody`,
with the address of the chunk loaded at line 354, then the loads of the loop. A call that
returns before line 354 loads nothing. -/
def defineLoads (w : Width) (is_unsigned : Bool) (pol : Policy) (mem : Mem)
    (result p endp : Nat) : List Nat :=
  if pol.has_size && decide (endp ≤ p) then []
  else if pol.is_null_terminated && decide (byteAt mem p = 0) then []
  else
    let negative := !is_unsigned && decide (byteAt mem p = 45)
    let p1 := if negative then p + 1 else p
    if negative && pol.has_size && decide (endp ≤ p1) then []
    else
      if pol.check_input && !(isDigit (byteAt mem p1)) then []
      else
        let ignore := p1 &&& (_CHUNK_SIZE - 1)
        let p2 := p1 - ignore
        let bytes := _ZERO_FIRST_N_BYTES (_LOAD_FROM mem p2) ignore
        let r := if is_unsigned then result % 2 ^ w.bits else 0
        let digits_added := _CHUNK_SIZE - ignore
        p2 :: loadTrace w pol mem ((endp - p2) / _CHUNK_SIZE + 1) p2 endp bytes r digits_added

/-- The return of a call that either fails or returns the pointer `E` with a stored
value. -/
def retAt (result E : Nat) (o : Option Nat) : Ret :=
  match o with
  | none => Ret.null result
  | some v => Ret.ok E v

/-! ## Words as four byte lanes -/

theorem and_split (k a b c d : Nat) (ha : a < 2 ^ k) (hc : c < 2 ^ k) :
    (2 ^ k * b + a) &&& (2 ^ k * d + c) = 2 ^ k * (b &&& d) + (a &&& c) := by
  apply Nat.eq_of_testBit_eq
  intro j
  rw [Nat.testBit_and, Nat.testBit_mul_pow_two_add _ ha, Nat.testBit_mul_pow_two_add _ hc,
    Nat.testBit_mul_pow_two_add _ (Nat.and_lt_two_pow a hc)]
  split <;> simp [Nat.testBit_and]

theorem or_split (k a b c d : Nat) (ha : a < 2 ^ k) (hc : c < 2 ^ k) :
    (2 ^ k * b + a) ||| (2 ^ k * d + c) = 2 ^ k * (b ||| d) + (a ||| c) := by
  apply Nat.eq_of_testBit_eq
  intro j
  rw [Nat.testBit_or, Nat.testBit_mul_pow_two_add _ ha, Nat.testBit_mul_pow_two_add _ hc,
    Nat.testBit_mul_pow_two_add _ (Nat.or_lt_two_pow ha hc)]
  split <;> simp [Nat.testBit_or]

theorem xor_split (k a b c d : Nat) (ha : a < 2 ^ k) (hc : c < 2 ^ k) :
    (2 ^ k * b + a) ^^^ (2 ^ k * d + c) = 2 ^ k * (b ^^^ d) + (a ^^^ c) := by
  apply Nat.eq_of_testBit_eq
  intro j
  rw [Nat.testBit_xor, Nat.testBit_mul_pow_two_add _ ha, Nat.testBit_mul_pow_two_add _ hc,
    Nat.testBit_mul_pow_two_add _ (Nat.xor_lt_two_pow ha hc)]
  split <;> simp [Nat.testBit_xor]

theorem mk4_lanes (x : Nat) (hx : x < 2 ^ 32) :
    x = mk4 (lane x 0) (lane x 1) (lane x 2) (lane x 3) := by
  simp only [mk4, lane]
  norm_num at hx ⊢
  omega

theorem lane_lt (x i : Nat) : lane x i < 256 := Nat.mod_lt _ (by norm_num)

theorem mk4_and (a b c d a' b' c' d' : Nat) (ha : a < 256) (hb : b < 256) (hc : c < 256)
    (ha' : a' < 256) (hb' : b' < 256) (hc' : c' < 256) :
    mk4 a b c d &&& mk4 a' b' c' d' = mk4 (a &&& a') (b &&& b') (c &&& c') (d &&& d') := by
  have h := and_split 8
  simp only [show (2:Nat) ^ 8 = 256 from rfl] at h
  unfold mk4
  rw [Nat.add_comm a, Nat.add_comm a', h _ _ _ _ ha ha', Nat.add_comm b, Nat.add_comm b',
    h _ _ _ _ hb hb', Nat.add_comm c, Nat.add_comm c', h _ _ _ _ hc hc']
  omega

theorem mk4_or (a b c d a' b' c' d' : Nat) (ha : a < 256) (hb : b < 256) (hc : c < 256)
    (ha' : a' < 256) (hb' : b' < 256) (hc' : c' < 256) :
    mk4 a b c d ||| mk4 a' b' c' d' = mk4 (a ||| a') (b ||| b') (c ||| c') (d ||| d') := by
  have h := or_split 8
  simp only [show (2:Nat) ^ 8 = 256 from rfl] at h
  unfold mk4
  rw [Nat.add_comm a, Nat.add_comm a', h _ _ _ _ ha ha', Nat.add_comm b, Nat.add_comm b',
    h _ _ _ _ hb hb', Nat.add_comm c, Nat.add_comm c', h _ _ _ _ hc hc']
  omega

theorem mk4_xor (a b c d a' b' c' d' : Nat) (ha : a < 256) (hb : b < 256) (hc : c < 256)
    (ha' : a' < 256) (hb' : b' < 256) (hc' : c' < 256) :
    mk4 a b c d ^^^ mk4 a' b' c' d' = mk4 (a ^^^ a') (b ^^^ b') (c ^^^ c') (d ^^^ d') := by
  have h := xor_split 8
  simp only [show (2:Nat) ^ 8 = 256 from rfl] at h
  unfold mk4
  rw [Nat.add_comm a, Nat.add_comm a', h _ _ _ _ ha ha', Nat.add_comm b, Nat.add_comm b',
    h _ _ _ _ hb hb', Nat.add_comm c, Nat.add_comm c', h _ _ _ _ hc hc']
  omega

theorem byte_and_255 (a : Nat) (ha : a < 256) : a &&& 255 = a := by
  have := Nat.and_pow_two_sub_one_eq_mod a 8
  norm_num at this
  rw [this]; omega

theorem byte_and_128 (a : Nat) (ha : a < 256) : a &&& 128 = 128 * (a / 128) := by
  interval_cases a <;> rfl

theorem byte_xor_48_lt (a : Nat) (ha : a < 256) : a ^^^ 48 < 256 :=
  Nat.xor_lt_two_pow (n := 8) ha (by norm_num)

theorem byte_xor_48_digit (a : Nat) (ha : a < 256) : a ^^^ 48 ≤ 9 ↔ (48 ≤ a ∧ a ≤ 57) := by
  interval_cases a <;> decide

theorem digit_xor_48 (a : Nat) (h1 : 48 ≤ a) (h2 : a ≤ 57) : a ^^^ 48 = a - 48 := by
  interval_cases a <;> rfl

theorem byteAt_lt (mem : Mem) (a : Nat) : byteAt mem a < 256 := Nat.mod_lt _ (by norm_num)

theorem REPEAT_eq (v : Nat) (hv : v < 256) : _REPEAT v = mk4 v v v v := by
  simp only [_REPEAT, chunkBits, _CHUNK_SIZE, mk4]
  norm_num
  omega

theorem LOAD_FROM_eq (mem : Mem) (c : Nat) :
    _LOAD_FROM mem c = mk4 (byteAt mem c ^^^ 48) (byteAt mem (c + 1) ^^^ 48)
      (byteAt mem (c + 2) ^^^ 48) (byteAt mem (c + 3) ^^^ 48) := by
  have h : load32 mem c = mk4 (byteAt mem c) (byteAt mem (c + 1)) (byteAt mem (c + 2))
      (byteAt mem (c + 3)) := by
    simp only [load32, mk4]; omega
  rw [_LOAD_FROM, h, REPEAT_eq 48 (by norm_num)]
  exact mk4_xor _ _ _ _ _ _ _ _ (byteAt_lt _ _) (byteAt_lt _ _) (byteAt_lt _ _)
    (by norm_num) (by norm_num) (by norm_num)

theorem ZERO_FIRST_N_BYTES_eq (a b c d n : Nat) (ha : a < 256) (hb : b < 256) (hc : c < 256)
    (hd : d < 256) (hn : n < 4) :
    _ZERO_FIRST_N_BYTES (mk4 a b c d) n =
      mk4 (if 0 < n then 0 else a) (if 1 < n then 0 else b) (if 2 < n then 0 else c) d := by
  have hm : (_REPEAT 0xff <<< (n * 8)) % 2 ^ chunkBits =
      mk4 (if 0 < n then 0 else 255) (if 1 < n then 0 else 255) (if 2 < n then 0 else 255) 255 := by
    interval_cases n <;> rfl
  rw [_ZERO_FIRST_N_BYTES, hm, mk4_and _ _ _ _ _ _ _ _ ha hb hc (by split <;> norm_num)
    (by split <;> norm_num) (by split <;> norm_num)]
  interval_cases n <;> simp [byte_and_255, ha, hb, hc, hd]

theorem SHIFT_LEFT_N_BYTES_eq (a b c d n : Nat) (ha : a < 256) (hb : b < 256) (hc : c < 256)
    (hd : d < 256) (hn : n < 4) :
    _SHIFT_LEFT_N_BYTES (mk4 a b c d) n =
      mk4 (if 0 < n then 0 else a) (if n = 0 then b else if n = 1 then a else 0)
        (if n = 0 then c else if n = 1 then b else if n = 2 then a else 0)
        (if n = 0 then d else if n = 1 then c else if n = 2 then b else a) := by
  have h0 : (0 * 8) &&& (4 * 8 - 1) = 0 := by decide
  have h1 : (1 * 8) &&& (4 * 8 - 1) = 8 := by decide
  have h2 : (2 * 8) &&& (4 * 8 - 1) = 16 := by decide
  have h3 : (3 * 8) &&& (4 * 8 - 1) = 24 := by decide
  simp only [_SHIFT_LEFT_N_BYTES, Nat.shiftLeft_eq, chunkBits, _CHUNK_SIZE, mk4]
  interval_cases n
  · rw [h0]; norm_num; omega
  · rw [h1]; norm_num; omega
  · rw [h2]; norm_num; omega
  · rw [h3]; norm_num; omega

theorem CALCULATE_BASE_10_eq (a b c d : Nat) (ha : a ≤ 9) (hb : b ≤ 9) (hc : c ≤ 9)
    (hd : d ≤ 9) :
    _CALCULATE_BASE_10 _CHUNK_SIZE (mk4 a b c d) = 1000 * a + 100 * b + 10 * c + d := by
  have h1 : _REPEAT_16 0xff00 = mk4 0 255 0 255 := by rfl
  have h2 : _REPEAT_16 0xff = mk4 255 0 255 0 := by rfl
  simp only [_CALCULATE_BASE_10, _CHUNK_SIZE, show (4 : Nat) ≠ 8 by norm_num, if_false, h1, h2]
  rw [mk4_and _ _ _ _ _ _ _ _ (by omega) (by omega) (by omega) (by norm_num) (by norm_num)
    (by norm_num), mk4_and _ _ _ _ _ _ _ _ (by omega) (by omega) (by omega) (by norm_num)
    (by norm_num) (by norm_num)]
  rw [byte_and_255 a (by omega), byte_and_255 b (by omega), byte_and_255 c (by omega),
    byte_and_255 d (by omega)]
  simp only [Nat.and_zero, Nat.shiftRight_eq_div_pow, Nat.shiftLeft_eq, mk4]
  norm_num
  have e3 : ((a + 256 * (256 * c)) * 10 + (b + 256 * (256 * d))) * 6553601
      = ((10 * a + b) + 65536 * ((10 * c + d) + 100 * (10 * a + b)))
        + 4294967296 * (100 * (10 * c + d)) := by ring
  rw [e3, Nat.add_mul_mod_self_left, Nat.mod_eq_of_lt (by omega),
    Nat.add_mul_div_left _ _ (by norm_num : 0 < 65536), Nat.div_eq_of_lt (by omega)]
  omega

/-! ## The map of non-digits -/

theorem or_and_128 (s a : Nat) : (s ||| a) &&& 128 = mapLane s a := by
  have h := Nat.and_two_pow (s ||| a) 7
  rw [Nat.testBit_or, Nat.testBit_to_div_mod, Nat.testBit_to_div_mod] at h
  norm_num at h
  rw [h, mapLane]
  by_cases h1 : s / 128 % 2 = 1 <;> by_cases h2 : a / 128 % 2 = 1 <;> simp [h1, h2]

theorem mapLane_cases (s a : Nat) : mapLane s a = 0 ∨ mapLane s a = 128 := by
  unfold mapLane; split <;> simp

theorem MAP_OF_NON_DIGITS_eq (a b c d : Nat) (ha : a < 256) (hb : b < 256) (hc : c < 256) :
    _MAP_OF_NON_DIGITS (mk4 a b c d) =
      mk4 (mapLane (lane ((mk4 a b c d + mk4 118 118 118 118) % 2 ^ 32) 0) a)
          (mapLane (lane ((mk4 a b c d + mk4 118 118 118 118) % 2 ^ 32) 1) b)
          (mapLane (lane ((mk4 a b c d + mk4 118 118 118 118) % 2 ^ 32) 2) c)
          (mapLane (lane ((mk4 a b c d + mk4 118 118 118 118) % 2 ^ 32) 3) d) := by
  have hS := mk4_lanes ((mk4 a b c d + mk4 118 118 118 118) % 2 ^ 32)
    (Nat.mod_lt _ (by norm_num))
  rw [_MAP_OF_NON_DIGITS, show (0x7f - 9 : Nat) = 118 from rfl, REPEAT_eq 118 (by norm_num),
    REPEAT_eq 0x80 (by norm_num), show chunkBits = 32 from rfl]
  generalize (mk4 a b c d + mk4 118 118 118 118) % 2 ^ 32 = S at hS ⊢
  rw [show (S ||| mk4 a b c d) = (mk4 (lane S 0) (lane S 1) (lane S 2) (lane S 3) ||| mk4 a b c d)
    by rw [← hS]]
  rw [mk4_or _ _ _ _ _ _ _ _ (lane_lt _ _) (lane_lt _ _) (lane_lt _ _) ha hb hc,
    mk4_and _ _ _ _ _ _ _ _ (Nat.or_lt_two_pow (n := 8) (lane_lt _ _) ha)
      (Nat.or_lt_two_pow (n := 8) (lane_lt _ _) hb) (Nat.or_lt_two_pow (n := 8) (lane_lt _ _) hc)
      (by norm_num) (by norm_num) (by norm_num)]
  simp only [or_and_128]

theorem ctz_eq (i : Nat) : ∀ (n v : Nat), v % 2 ^ i = 0 → v / 2 ^ i % 2 = 1 → i < n →
    ctz n v = i := by
  induction i with
  | zero =>
    intro n v _ h1 hn
    obtain ⟨m, rfl⟩ : ∃ m, n = m + 1 := ⟨n - 1, by omega⟩
    simp at h1
    simp [ctz, h1]
  | succ i ih =>
    intro n v h0 h1 hn
    obtain ⟨m, rfl⟩ : ∃ m, n = m + 1 := ⟨n - 1, by omega⟩
    have hv : v % 2 = 0 := by
      have : v % 2 ^ (i + 1) % 2 = v % 2 :=
        Nat.mod_mod_of_dvd _ (Dvd.intro_left (2 ^ i) (by ring))
      omega
    have h0' : v / 2 % 2 ^ i = 0 := by
      have h2 : v % (2 * 2 ^ i) = 0 := by rw [← h0]; ring_nf
      rw [Nat.mod_mul] at h2
      omega
    have h1' : v / 2 / 2 ^ i % 2 = 1 := by
      rw [Nat.div_div_eq_div_mul, ← h1]; ring_nf
    simp [ctz, hv, ih m (v / 2) h0' h1' (by omega)]

theorem lane_zero (x : Nat) : lane x 0 = x % 256 := by simp [lane]
theorem lane_one (x : Nat) : lane x 1 = x / 256 % 256 := by simp [lane]
theorem lane_two (x : Nat) : lane x 2 = x / 65536 % 256 := by simp [lane]
theorem lane_three (x : Nat) : lane x 3 = x / 16777216 % 256 := by simp [lane]

theorem MAP_zero (a b c d : Nat) (ha : a ≤ 9) (hb : b ≤ 9) (hc : c ≤ 9) (hd : d ≤ 9) :
    _MAP_OF_NON_DIGITS (mk4 a b c d) = 0 := by
  rw [MAP_OF_NON_DIGITS_eq a b c d (by omega) (by omega) (by omega)]
  simp only [mapLane, lane_zero, lane_one, lane_two, lane_three,
    show (2 : Nat) ^ 32 = 4294967296 from rfl]
  simp only [mk4]
  rw [if_neg (by omega), if_neg (by omega), if_neg (by omega), if_neg (by omega)]

theorem MAP_first (a b c d k : Nat) (ha : a < 256) (hb : b < 256) (hc : c < 256)
    (hd : d < 256) (hk : k < 4)
    (h0 : if 0 < k then a ≤ 9 else 9 < a)
    (h1 : if 1 < k then b ≤ 9 else (k = 1 → 9 < b))
    (h2 : if 2 < k then c ≤ 9 else (k = 2 → 9 < c))
    (h3 : k = 3 → 9 < d) :
    _MAP_HAS_NON_DIGITS (_MAP_OF_NON_DIGITS (mk4 a b c d)) = true ∧
      _DIGITS_IN_MAP (_MAP_OF_NON_DIGITS (mk4 a b c d)) = k := by
  rw [MAP_OF_NON_DIGITS_eq a b c d ha hb hc]
  simp only [lane_zero, lane_one, lane_two, lane_three,
    show (2 : Nat) ^ 32 = 4294967296 from rfl]
  generalize hS : (mk4 a b c d + mk4 118 118 118 118) % 4294967296 = S
  simp only [mk4] at hS
  have c0 := mapLane_cases (S % 256) a
  have c1 := mapLane_cases (S / 256 % 256) b
  have c2 := mapLane_cases (S / 65536 % 256) c
  have c3 := mapLane_cases (S / 16777216 % 256) d
  have key : ∀ m0 m1 m2 m3 : Nat, (m1 = 0 ∨ m1 = 128) → (m2 = 0 ∨ m2 = 128) →
      (m3 = 0 ∨ m3 = 128) →
      (if 0 < k then m0 = 0 else m0 = 128) →
      (if 1 < k then m1 = 0 else (k = 1 → m1 = 128)) →
      (if 2 < k then m2 = 0 else (k = 2 → m2 = 128)) →
      (k = 3 → m3 = 128) →
      _MAP_HAS_NON_DIGITS (mk4 m0 m1 m2 m3) = true ∧ _DIGITS_IN_MAP (mk4 m0 m1 m2 m3) = k := by
    intro m0 m1 m2 m3 d1 d2 d3 e0 e1 e2 e3
    have hne : mk4 m0 m1 m2 m3 ≠ 0 := by
      simp only [mk4]; interval_cases k <;> simp at e0 e1 e2 e3 <;> omega
    have hctz : ctz wordBits (mk4 m0 m1 m2 m3) = 8 * k + 7 := by
      apply ctz_eq
      · simp only [mk4]
        interval_cases k <;> simp at e0 e1 e2 e3 <;> norm_num <;> omega
      · simp only [mk4]
        interval_cases k <;> simp at e0 e1 e2 e3 <;> norm_num <;> omega
      · simp only [wordBits]; omega
    refine ⟨by simp [_MAP_HAS_NON_DIGITS, hne], ?_⟩
    simp only [_DIGITS_IN_MAP, ffsl, hne, if_false, hctz, Nat.shiftRight_eq_div_pow]
    omega
  have hk' : k = 0 ∨ k = 1 ∨ k = 2 ∨ k = 3 := by omega
  apply key _ _ _ _ c1 c2 c3
  · simp only [mapLane]
    rcases hk' with rfl | rfl | rfl | rfl <;> simp at h0 h1 h2 h3 ⊢ <;> omega
  · simp only [mapLane]
    rcases hk' with rfl | rfl | rfl | rfl <;> simp at h0 h1 h2 h3 ⊢ <;> omega
  · simp only [mapLane]
    rcases hk' with rfl | rfl | rfl | rfl <;> simp at h0 h1 h2 h3 ⊢ <;> omega
  · intro hk3
    subst hk3
    simp only [mapLane]
    simp at h0 h1 h2 h3 ⊢
    omega

/-! ## A chunk of memory as seen by the loop -/

theorem xlane_lt (mem : Mem) (c ig i : Nat) : xlane mem c ig i < 256 := by
  unfold xlane; split
  · norm_num
  · exact byte_xor_48_lt _ (byteAt_lt _ _)

theorem chunk_eq (mem : Mem) (c ig : Nat) (hig : ig < 4) :
    _ZERO_FIRST_N_BYTES (_LOAD_FROM mem c) ig =
      mk4 (xlane mem c ig 0) (xlane mem c ig 1) (xlane mem c ig 2) (xlane mem c ig 3) := by
  rw [LOAD_FROM_eq, ZERO_FIRST_N_BYTES_eq _ _ _ _ _ (byte_xor_48_lt _ (byteAt_lt _ _))
    (byte_xor_48_lt _ (byteAt_lt _ _)) (byte_xor_48_lt _ (byteAt_lt _ _))
    (byte_xor_48_lt _ (byteAt_lt _ _)) hig]
  simp only [xlane, Nat.add_zero]
  rw [if_neg (show ¬ 3 < ig by omega)]

theorem chunk_zero (mem : Mem) (c : Nat) :
    _LOAD_FROM mem c = _ZERO_FIRST_N_BYTES (_LOAD_FROM mem c) 0 := by
  rw [chunk_eq mem c 0 (by norm_num), LOAD_FROM_eq]
  simp [xlane]

theorem xlane_digit (mem : Mem) (c ig i : Nat) (h : ig ≤ i)
    (hd : isDigit (byteAt mem (c + i)) = true) :
    xlane mem c ig i = byteAt mem (c + i) - 48 ∧ byteAt mem (c + i) - 48 ≤ 9 := by
  simp only [isDigit, Bool.and_eq_true, decide_eq_true_eq] at hd
  rw [xlane, if_neg (by omega), digit_xor_48 _ hd.1 hd.2]
  omega

theorem xlane_nondigit (mem : Mem) (c ig i : Nat) (h : ig ≤ i)
    (hd : isDigit (byteAt mem (c + i)) = false) : 9 < xlane mem c ig i := by
  rw [xlane, if_neg (by omega)]
  by_contra hc
  have := (byte_xor_48_digit _ (byteAt_lt mem (c + i))).1 (by omega)
  simp [isDigit] at hd
  omega

theorem xlane_ignored (mem : Mem) (c ig i : Nat) (h : i < ig) : xlane mem c ig i = 0 := by
  rw [xlane, if_pos h]

/-- A lane that is either ignored or holds a digit is at most 9. -/
theorem xlane_le (mem : Mem) (c ig i : Nat)
    (hd : ig ≤ i → isDigit (byteAt mem (c + i)) = true) : xlane mem c ig i ≤ 9 := by
  by_cases h : i < ig
  · rw [xlane_ignored _ _ _ _ h]; omega
  · rw [(xlane_digit mem c ig i (by omega) (hd (by omega))).1]
    exact (xlane_digit mem c ig i (by omega) (hd (by omega))).2

theorem chunk_map_zero (mem : Mem) (c ig : Nat) (hig : ig < 4)
    (hd : ∀ i, ig ≤ i → i < 4 → isDigit (byteAt mem (c + i)) = true) :
    _MAP_OF_NON_DIGITS (_ZERO_FIRST_N_BYTES (_LOAD_FROM mem c) ig) = 0 := by
  rw [chunk_eq mem c ig hig]
  exact MAP_zero _ _ _ _ (xlane_le _ _ _ _ (fun h => hd 0 h (by norm_num)))
    (xlane_le _ _ _ _ (fun h => hd 1 h (by norm_num)))
    (xlane_le _ _ _ _ (fun h => hd 2 h (by norm_num)))
    (xlane_le _ _ _ _ (fun h => hd 3 h (by norm_num)))

theorem chunk_map_first (mem : Mem) (c ig k : Nat) (hk : k < 4) (hik : ig ≤ k)
    (hd : ∀ i, ig ≤ i → i < k → isDigit (byteAt mem (c + i)) = true)
    (hn : isDigit (byteAt mem (c + k)) = false) :
    _MAP_HAS_NON_DIGITS (_MAP_OF_NON_DIGITS (_ZERO_FIRST_N_BYTES (_LOAD_FROM mem c) ig)) = true ∧
      _DIGITS_IN_MAP (_MAP_OF_NON_DIGITS (_ZERO_FIRST_N_BYTES (_LOAD_FROM mem c) ig)) = k := by
  rw [chunk_eq mem c ig (by omega)]
  have hle : ∀ i, i < k → xlane mem c ig i ≤ 9 :=
    fun i hi => xlane_le _ _ _ _ (fun h => hd i h hi)
  have hgt := xlane_nondigit mem c ig k hik hn
  apply MAP_first _ _ _ _ k (xlane_lt _ _ _ _) (xlane_lt _ _ _ _) (xlane_lt _ _ _ _)
    (xlane_lt _ _ _ _) hk
  · split
    · exact hle 0 (by omega)
    · have : k = 0 := by omega
      subst this; exact hgt
  · split
    · exact hle 1 (by omega)
    · intro h; subst h; exact hgt
  · split
    · exact hle 2 (by omega)
    · intro h; subst h; exact hgt
  · intro h; subst h; exact hgt

theorem decVal_add (mem : Mem) (a n m : Nat) :
    decVal mem a (n + m) = decVal mem a n * 10 ^ m + decVal mem (a + n) m := by
  induction m with
  | zero => simp [decVal]
  | succ m ih =>
    rw [← Nat.add_assoc, decVal, ih, decVal, Nat.add_assoc a n m]
    ring

theorem chunk_value (mem : Mem) (c ig chop : Nat) (hig : ig < 4) (hchop : chop < 4)
    (hsum : ig + chop ≤ 4)
    (hd : ∀ i, ig ≤ i → i + chop < 4 → isDigit (byteAt mem (c + i)) = true) :
    _CALCULATE_BASE_10 _CHUNK_SIZE
        (_SHIFT_LEFT_N_BYTES (_ZERO_FIRST_N_BYTES (_LOAD_FROM mem c) ig) chop)
      = decVal mem (c + ig) (4 - ig - chop) := by
  rw [chunk_eq mem c ig hig, SHIFT_LEFT_N_BYTES_eq _ _ _ _ _ (xlane_lt _ _ _ _)
    (xlane_lt _ _ _ _) (xlane_lt _ _ _ _) (xlane_lt _ _ _ _) hchop]
  have x0 : 0 + chop < 4 → xlane mem c ig 0 ≤ 9 ∧
      (ig ≤ 0 → xlane mem c ig 0 = byteAt mem (c + 0) - 48) :=
    fun h => ⟨xlane_le _ _ _ _ (fun h' => hd 0 h' h),
      fun h' => (xlane_digit _ _ _ _ h' (hd 0 h' h)).1⟩
  have x1 : 1 + chop < 4 → xlane mem c ig 1 ≤ 9 ∧
      (ig ≤ 1 → xlane mem c ig 1 = byteAt mem (c + 1) - 48) :=
    fun h => ⟨xlane_le _ _ _ _ (fun h' => hd 1 h' h),
      fun h' => (xlane_digit _ _ _ _ h' (hd 1 h' h)).1⟩
  have x2 : 2 + chop < 4 → xlane mem c ig 2 ≤ 9 ∧
      (ig ≤ 2 → xlane mem c ig 2 = byteAt mem (c + 2) - 48) :=
    fun h => ⟨xlane_le _ _ _ _ (fun h' => hd 2 h' h),
      fun h' => (xlane_digit _ _ _ _ h' (hd 2 h' h)).1⟩
  have x3 : 3 + chop < 4 → xlane mem c ig 3 ≤ 9 ∧
      (ig ≤ 3 → xlane mem c ig 3 = byteAt mem (c + 3) - 48) :=
    fun h => ⟨xlane_le _ _ _ _ (fun h' => hd 3 h' h),
      fun h' => (xlane_digit _ _ _ _ h' (hd 3 h' h)).1⟩
  have z0 : 0 < ig → xlane mem c ig 0 = 0 := xlane_ignored _ _ _ _
  have z1 : 1 < ig → xlane mem c ig 1 = 0 := xlane_ignored _ _ _ _
  have z2 : 2 < ig → xlane mem c ig 2 = 0 := xlane_ignored _ _ _ _
  generalize xlane mem c ig 0 = y0 at *
  generalize xlane mem c ig 1 = y1 at *
  generalize xlane mem c ig 2 = y2 at *
  generalize xlane mem c ig 3 = y3 at *
  interval_cases ig <;> interval_cases chop <;>
    simp only [Nat.lt_irrefl, Nat.zero_lt_succ, if_true, if_false, Nat.succ_ne_zero,
      OfNat.ofNat_ne_zero, OfNat.ofNat_ne_one, OfNat.one_ne_ofNat, one_ne_zero, zero_ne_one,
      Nat.reduceEqDiff, Nat.reduceAdd, Nat.reduceSub, Nat.reduceLT, Nat.reduceLeDiff,
      forall_true_left, true_implies, false_implies, le_refl, Nat.zero_le,
      Nat.not_succ_le_zero, zero_add, add_zero, Nat.lt_add_one, Nat.ofNat_pos] at * <;>
    first
      | omega
      | (rw [CALCULATE_BASE_10_eq _ _ _ _ (by omega) (by omega) (by omega) (by omega)]
         simp only [decVal, Nat.add_zero, Nat.add_assoc, Nat.reduceAdd]
         omega)

/-! ## Folding a chunk into the accumulator -/

theorem POWERS_OF_10_eq (d : Nat) (hd : d ≤ 16) : _POWERS_OF_10 d = 10 ^ d := by
  interval_cases d <;> rfl

theorem Width.two_pow_bits_ge (w : Width) : 2 ^ 32 ≤ 2 ^ w.bits := by
  cases w <;> decide

/-- What `accumulate` does to an accumulator `r` when the chunk contributes `d` digits of
value `s`: without overflow checking the sum is taken modulo the width; with it the sum is
exact, or `NULL` is returned, and a wrong sum only passes when already `r * 10 ^ (d - 1)`
does not fit. -/
theorem accumulate_spec (w : Width) (pol : Policy) (r d bytes s : Nat)
    (hr : r < 2 ^ w.bits) (hd : d ≤ 4) (hs : s < 10000)
    (hs0 : d = 0 → s = 0) (hs1 : d ≠ 0 → _CALCULATE_BASE_10 _CHUNK_SIZE bytes = s) :
    (accumulate w pol r d bytes = none →
        pol.check_overflow = true ∧ 2 ^ w.bits ≤ r * 10 ^ d + s) ∧
    (∀ r1, accumulate w pol r d bytes = some r1 →
        r1 < 2 ^ w.bits ∧
        (pol.check_overflow = false → r1 = (r * 10 ^ d + s) % 2 ^ w.bits) ∧
        (pol.check_overflow = true → r1 = r * 10 ^ d + s ∨ 10 * 2 ^ w.bits ≤ r * 10 ^ d + s)) := by
  have hM := w.two_pow_bits_ge
  by_cases h0 : d = 0
  · subst h0
    simp only [accumulate, ne_eq, not_true_eq_false, if_false, hs0 rfl, pow_zero, mul_one,
      add_zero]
    refine ⟨by simp, ?_⟩
    intro r1 h
    simp only [Option.some.injEq] at h
    subst h
    exact ⟨hr, fun _ => (Nat.mod_eq_of_lt hr).symm, fun _ => Or.inl rfl⟩
  · have hcs := hs1 h0
    have hpow : r * 10 ^ d = 10 * (r * 10 ^ (d - 1)) := by
      obtain ⟨e, rfl⟩ : ∃ e, d = e + 1 := ⟨d - 1, by omega⟩
      simp only [pow_succ, Nat.add_sub_cancel]; ring
    have hidx : (d + 2 ^ wordBits - 1) % 2 ^ wordBits = d - 1 := by
      simp only [wordBits]; omega
    cases hco : pol.check_overflow
    · simp only [accumulate, ne_eq, h0, not_false_eq_true, if_true, hco, Bool.false_eq_true,
        if_false, POWERS_OF_10_eq d (by omega), hcs]
      refine ⟨by simp, ?_⟩
      intro r1 h
      simp only [Option.some.injEq] at h
      subst h
      refine ⟨Nat.mod_lt _ (by omega), fun _ => by simp [Nat.add_mod], fun h => by simp at h⟩
    · simp only [accumulate, ne_eq, h0, not_false_eq_true, if_true, hco, hidx,
        POWERS_OF_10_eq (d - 1) (by omega), hcs,
        show ¬ (w.sizeof = 4 ∧ _CHUNK_SIZE = 16) by simp [_CHUNK_SIZE], if_false, hpow]
      generalize r * 10 ^ (d - 1) = X
      generalize 2 ^ w.bits = M at hr hM ⊢
      norm_num at hM
      by_cases hX : X < M
      · rw [Nat.mod_eq_of_lt hX]
        by_cases hX1 : X > (M - 1) / 10
        · simp only [hX1, if_true, true_and, reduceCtorEq, false_implies, implies_true, and_true]
          intro _; omega
        · simp only [hX1, if_false]
          rw [Nat.mod_eq_of_lt (by omega : X * 10 < M)]
          by_cases hw : M ≤ X * 10 + s
          · have : (X * 10 + s) % M = X * 10 + s - M := by
              rw [Nat.mod_eq_sub_mod hw, Nat.mod_eq_of_lt (by omega)]
            rw [this, if_pos (by omega)]
            simp only [true_and, reduceCtorEq, false_implies, implies_true, and_true]
            intro _; omega
          · rw [Nat.mod_eq_of_lt (by omega), if_neg (by omega)]
            refine ⟨by simp, ?_⟩
            intro r1 h
            simp only [Option.some.injEq] at h
            subst h
            exact ⟨by omega, fun h => by simp at h, fun _ => Or.inl (by omega)⟩
      · refine ⟨fun _ => ⟨trivial, by omega⟩, ?_⟩
        intro r1 h
        refine ⟨?_, fun h => by simp at h, fun _ => Or.inr (by omega)⟩
        split at h
        · simp at h
        · split at h
          · simp at h
          · simp only [Option.some.injEq] at h
            subst h
            exact Nat.mod_lt _ (by omega)

/-! ## Decimal values and the final checks -/

theorem decVal_cons (mem : Mem) (a n : Nat) :
    decVal mem a (n + 1) = (byteAt mem a - 48) * 10 ^ n + decVal mem (a + 1) n := by
  have h := decVal_add mem a 1 n
  rw [Nat.add_comm 1 n] at h
  rw [h]
  simp [decVal]

theorem decVal_lt (mem : Mem) (a n : Nat)
    (hd : ∀ i, i < n → isDigit (byteAt mem (a + i)) = true) : decVal mem a n < 10 ^ n := by
  induction n with
  | zero => simp [decVal]
  | succ n ih =>
    have h1 := ih (fun i hi => hd i (by omega))
    have h2 := hd n (by omega)
    simp only [isDigit, Bool.and_eq_true, decide_eq_true_eq] at h2
    rw [decVal, pow_succ]
    omega

theorem decVal_ge (mem : Mem) (a n : Nat) (h1 : 49 ≤ byteAt mem a) :
    10 ^ n ≤ decVal mem a (n + 1) := by
  rw [decVal_cons]
  have : 1 ≤ byteAt mem a - 48 := by omega
  calc 10 ^ n = 1 * 10 ^ n := by ring
    _ ≤ (byteAt mem a - 48) * 10 ^ n := Nat.mul_le_mul_right _ this
    _ ≤ _ := Nat.le_add_right _ _

theorem skipZeros_spec (mem : Mem) (n : Nat) : ∀ ds,
    ds ≤ skipZeros mem n ds ∧ skipZeros mem n ds ≤ ds + n ∧
    decVal mem ds n = decVal mem (skipZeros mem n ds) (ds + n - skipZeros mem n ds) ∧
    (skipZeros mem n ds < ds + n → byteAt mem (skipZeros mem n ds) ≠ 48) := by
  induction n with
  | zero => intro ds; simp [skipZeros]
  | succ n ih =>
    intro ds
    by_cases h : byteAt mem ds = 48
    · obtain ⟨i1, i2, i3, i4⟩ := ih (ds + 1)
      have e : skipZeros mem (n + 1) ds = skipZeros mem n (ds + 1) := by
        simp [skipZeros, h]
      rw [e]
      refine ⟨by omega, by omega, ?_, fun hlt => i4 (by omega)⟩
      rw [decVal_cons, h, i3]
      have : ds + (n + 1) - skipZeros mem n (ds + 1) = ds + 1 + n - skipZeros mem n (ds + 1) := by
        omega
      rw [this]; simp
    · have e : skipZeros mem (n + 1) ds = ds := by simp [skipZeros, h]
      rw [e]
      exact ⟨le_refl _, by omega, by simp, fun _ => h⟩

theorem maxDigits_lower (w : Width) (u : Bool) :
    (if u then 2 ^ w.bits else 2 ^ (w.bits - 1) + 1) ≤ 10 ^ _MAX_DIGITS w u := by
  cases w <;> cases u <;> decide

theorem maxDigits_upper (w : Width) (u : Bool) : 10 ^ _MAX_DIGITS w u ≤ 10 * 2 ^ w.bits := by
  cases w <;> cases u <;> decide

/-- The digit count test at the end of `_DEFINE` is passed by a value below
`10 ^ _MAX_DIGITS`, and failed by every other. -/
theorem tooLong_iff (w : Width) (u : Bool) (mem : Mem) (ds E : Nat) (hle : ds ≤ E)
    (hd : ∀ a, ds ≤ a → a < E → isDigit (byteAt mem a) = true) :
    (decide ((E : Int) - ds > _MAX_DIGITS w u) &&
      decide ((E : Int) - skipZeros mem (E - ds) ds > _MAX_DIGITS w u)) = true
    ↔ 10 ^ _MAX_DIGITS w u ≤ decVal mem ds (E - ds) := by
  obtain ⟨i1, i2, i3, i4⟩ := skipZeros_spec mem (E - ds) ds
  generalize skipZeros mem (E - ds) ds = z at i1 i2 i3 i4
  have hz : ds + (E - ds) - z = E - z := by omega
  rw [hz] at i3
  simp only [Bool.and_eq_true, decide_eq_true_eq]
  constructor
  · rintro ⟨_, h2⟩
    have hlt : z < E := by omega
    have hzd := hd z i1 hlt
    simp only [isDigit, Bool.and_eq_true, decide_eq_true_eq] at hzd
    have h49 : 49 ≤ byteAt mem z := by
      have := i4 (by omega)
      omega
    obtain ⟨m, hm⟩ : ∃ m, E - z = m + 1 := ⟨E - z - 1, by omega⟩
    rw [i3, hm]
    calc 10 ^ _MAX_DIGITS w u ≤ 10 ^ m := Nat.pow_le_pow_right (by norm_num) (by omega)
      _ ≤ _ := decVal_ge mem z m h49
  · intro h
    have hlt : decVal mem z (E - z) < 10 ^ (E - z) :=
      decVal_lt mem z (E - z) (fun i hi => hd (z + i) (by omega) (by omega))
    rw [← i3] at hlt
    have : _MAX_DIGITS w u < E - z := by
      by_contra hc
      have := Nat.pow_le_pow_right (by norm_num : 0 < 10) (not_lt.mp hc)
      omega
    omega

theorem asValue_encode (w : Width) (u : Bool) (v : Int)
    (h1 : typeMin w u ≤ v) (h2 : v ≤ typeMax w u) : asValue w u (encode w v) = v := by
  cases w <;> cases u <;>
    simp [asValue, encode, typeMin, typeMax, Width.bits, Width.sizeof] at * <;> omega

/-! ## One iteration of the loop -/

theorem parseLoop_step_null (w : Width) (u : Bool) (pol : Policy) (mem : Mem) (ds : Nat)
    (neg : Bool) (result fuel p endp bytes r d : Nat)
    (hs : scanChunk pol mem (p + 4) endp bytes = none) :
    parseLoop w u pol mem ds neg result (fuel + 1) p endp bytes r d = Ret.null result := by
  simp [parseLoop, _CHUNK_SIZE, hs]

theorem parseLoop_step_continue (w : Width) (u : Bool) (pol : Policy) (mem : Mem) (ds : Nat)
    (neg : Bool) (result fuel p endp endp1 bytes r d : Nat)
    (hs : scanChunk pol mem (p + 4) endp bytes = some endp1) (hlt : p + 4 < endp1) :
    parseLoop w u pol mem ds neg result (fuel + 1) p endp bytes r d =
      match accumulate w pol r d bytes with
      | none => Ret.null result
      | some r1 => parseLoop w u pol mem ds neg result fuel (p + 4) endp1
          (_LOAD_FROM mem (p + 4)) r1 4 := by
  have h1 : ¬ (p + 4 ≥ endp1) := by omega
  simp only [parseLoop, _CHUNK_SIZE, hs, h1, if_false]

theorem parseLoop_step_last (w : Width) (u : Bool) (pol : Policy) (mem : Mem) (ds : Nat)
    (neg : Bool) (result fuel p endp endp1 bytes r d : Nat)
    (hs : scanChunk pol mem (p + 4) endp bytes = some endp1) (hge : endp1 ≤ p + 4) :
    parseLoop w u pol mem ds neg result (fuel + 1) p endp bytes r d =
      match accumulate w pol r ((d + 2 ^ wordBits - (p + 4 - endp1)) % 2 ^ wordBits)
          (_SHIFT_LEFT_N_BYTES bytes (p + 4 - endp1)) with
      | none => Ret.null result
      | some r1 => finish w u pol mem ds neg result endp1 r1 := by
  have h1 : p + 4 ≥ endp1 := hge
  have h2 : p + 4 - (p + 4 - endp1) ≥ endp1 := by omega
  simp only [parseLoop, _CHUNK_SIZE, hs, h1, h2, if_true]

theorem first_non_digit (P : Nat → Prop) (ig : Nat)
    (h : ¬ ∀ i, ig ≤ i → i < 4 → P i) :
    ∃ k, ig ≤ k ∧ k < 4 ∧ ¬ P k ∧ ∀ i, ig ≤ i → i < k → P i := by
  classical
  have hex : ∃ k, ig ≤ k ∧ k < 4 ∧ ¬ P k := by
    by_contra hc
    apply h
    intro i h1 h2
    by_contra h3
    exact hc ⟨i, h1, h2, h3⟩
  refine ⟨Nat.find hex, (Nat.find_spec hex).1, (Nat.find_spec hex).2.1,
    (Nat.find_spec hex).2.2, ?_⟩
  intro i h1 h2
  by_contra h3
  exact Nat.find_min hex h2 ⟨h1, by have := (Nat.find_spec hex).2.1; omega, h3⟩

theorem scan_full (pol : Policy) (mem : Mem) (c ig endp : Nat) (hig : ig < 4)
    (hd : ∀ i, ig ≤ i → i < 4 → isDigit (byteAt mem (c + i)) = true) :
    scanChunk pol mem (c + 4) endp (_ZERO_FIRST_N_BYTES (_LOAD_FROM mem c) ig) = some endp := by
  simp [scanChunk, chunk_map_zero mem c ig hig hd, _MAP_HAS_NON_DIGITS]

theorem scan_last (pol : Policy) (mem : Mem) (c ig E endp : Nat) (hc : c % 4 = 0)
    (hig : ig < 4) (hcE : c + ig ≤ E) (hE4 : E ≤ c + 4) (hEe : E ≤ endp) (hce : c < endp)
    (hd : ∀ a, c + ig ≤ a → a < E → isDigit (byteAt mem a) = true)
    (hstop : E = endp ∨
      (pol.check_input = true ∧ isDigit (byteAt mem E) = false ∧ E < c + 4)) :
    (scanChunk pol mem (c + 4) endp (_ZERO_FIRST_N_BYTES (_LOAD_FROM mem c) ig) = some E ∧
      ¬ ExactFail pol mem E endp) ∨
    (scanChunk pol mem (c + 4) endp (_ZERO_FIRST_N_BYTES (_LOAD_FROM mem c) ig) = none ∧
      ¬ ExactOK pol mem E endp) := by
  cases hci : pol.check_input
  · left
    refine ⟨?_, fun hf => by have := hf.2.1; rw [hci] at this; simp at this⟩
    rcases hstop with h | h
    · simp [scanChunk, hci, h]
    · rw [hci] at h; simp at h
  · by_cases hall : ∀ i, ig ≤ i → i < 4 → isDigit (byteAt mem (c + i)) = true
    · left
      rw [scan_full pol mem c ig endp hig hall]
      rcases hstop with h | h
      · rw [h]
        exact ⟨rfl, fun hf => by have := hf.2.2.2.1; omega⟩
      · have := hall (E - c) (by omega) (by omega)
        rw [show c + (E - c) = E by omega] at this
        rw [this] at h; simp at h
    · obtain ⟨k, hk1, hk2, hk3, hk4⟩ := first_non_digit _ ig hall
      simp only [Bool.not_eq_true] at hk3
      obtain ⟨m1, m2⟩ := chunk_map_first mem c ig k hk2 hk1 hk4 hk3
      have hkE : E ≤ c + k := by
        by_contra hlt
        have := hd (c + k) (by omega) (by omega)
        rw [this] at hk3; simp at hk3
      have hkE' : isDigit (byteAt mem E) = false → E < c + 4 → c + k = E := by
        intro hnd hlt
        by_contra hne
        have := hk4 (E - c) (by omega) (by omega)
        rw [show c + (E - c) = E by omega, hnd] at this
        simp at this
      simp only [scanChunk, hci, m1, m2, Bool.and_self, if_true, _CHUNK_SIZE,
        Nat.add_sub_cancel]
      by_cases heq : c + k = E
      · rw [heq]
        by_cases h1 : (pol.has_size && pol.is_exact && decide (E ≠ endp)) = true
        · right
          refine ⟨by rw [if_pos h1], ?_⟩
          simp only [Bool.and_eq_true, decide_eq_true_eq] at h1
          intro hx
          exact h1.2 ((hx h1.1.2 hci).1 h1.1.1).1
        · by_cases h2 : (pol.is_null_terminated && pol.is_exact &&
              decide (byteAt mem E ≠ 0)) = true
          · right
            refine ⟨by rw [if_neg h1, if_pos h2], ?_⟩
            simp only [Bool.and_eq_true, decide_eq_true_eq] at h2
            intro hx
            exact h2.2 ((hx h2.1.2 hci).2 h2.1.1)
          · left
            rw [if_neg h1, if_neg h2]
            constructor
            · by_cases h3 : E < endp
              · rw [if_pos h3]
              · rw [if_neg h3]
                congr 1; omega
            · rintro ⟨f1, _, _, f4, f5⟩
              rcases f5 with f5 | ⟨f5, f6⟩
              · apply h1
                simp only [Bool.and_eq_true, decide_eq_true_eq]
                exact ⟨⟨f5, f1⟩, by omega⟩
              · apply h2
                simp only [Bool.and_eq_true, decide_eq_true_eq]
                exact ⟨⟨f5, f1⟩, f6⟩
      · have hEend : E = endp := by
          rcases hstop with h | h
          · exact h
          · exact absurd (hkE' h.2.1 h.2.2) heq
        have hnot : ¬ (isDigit (byteAt mem E) = false) := by
          intro hnd
          exact heq (hkE' hnd (by omega))
        by_cases h1 : (pol.has_size && pol.is_exact && decide (c + k ≠ endp)) = true
        · right
          refine ⟨by rw [if_pos h1], ?_⟩
          simp only [Bool.and_eq_true, decide_eq_true_eq] at h1
          intro hx
          rcases ((hx h1.1.2 hci).1 h1.1.1).2 with h | h
          · exact hnot h
          · have := h (c + k) hkE (by omega)
            rw [this] at hk3; simp at hk3
        · by_cases h2 : (pol.is_null_terminated && pol.is_exact &&
              decide (byteAt mem (c + k) ≠ 0)) = true
          · right
            refine ⟨by rw [if_neg h1, if_pos h2], ?_⟩
            simp only [Bool.and_eq_true, decide_eq_true_eq] at h2
            intro hx
            apply hnot
            have := (hx h2.1.2 hci).2 h2.1.1
            simp [isDigit, this]
          · left
            rw [if_neg h1, if_neg h2, if_neg (by omega), hEend]
            exact ⟨rfl, fun hf => by have := hf.2.2.2.1; omega⟩

/-! ## The loop on a run of digits -/

theorem chunk_value_full (mem : Mem) (c ig : Nat) (hig : ig < 4)
    (hd : ∀ i, ig ≤ i → i < 4 → isDigit (byteAt mem (c + i)) = true) :
    _CALCULATE_BASE_10 _CHUNK_SIZE (_ZERO_FIRST_N_BYTES (_LOAD_FROM mem c) ig)
      = decVal mem (c + ig) (4 - ig) := by
  have h := chunk_value mem c ig 0 hig (by norm_num) (by omega) (fun i h1 h2 => hd i h1 h2)
  have e : _SHIFT_LEFT_N_BYTES (_ZERO_FIRST_N_BYTES (_LOAD_FROM mem c) ig) 0
      = _ZERO_FIRST_N_BYTES (_LOAD_FROM mem c) ig := by
    rw [chunk_eq mem c ig hig, SHIFT_LEFT_N_BYTES_eq _ _ _ _ _ (xlane_lt _ _ _ _)
      (xlane_lt _ _ _ _) (xlane_lt _ _ _ _) (xlane_lt _ _ _ _) (by norm_num)]
    simp
  rw [e] at h
  exact h

theorem loopSpec_of_accumulate (w : Width) (pol : Policy) (X F : Prop) (r d bytes s : Nat)
    (hF : ¬ F) (hr : r < 2 ^ w.bits) (hd : d ≤ 4) (hs : s < 10000)
    (hs0 : d = 0 → s = 0) (hs1 : d ≠ 0 → _CALCULATE_BASE_10 _CHUNK_SIZE bytes = s) :
    LoopSpec w pol X F (r * 10 ^ d + s) (accumulate w pol r d bytes) := by
  obtain ⟨a1, a2⟩ := accumulate_spec w pol r d bytes s hr hd hs hs0 hs1
  exact ⟨fun h => Or.inr (a1 h), fun r1 h => ⟨hF, a2 r1 h⟩⟩

theorem loopSpec_step (w : Width) (pol : Policy) (X F : Prop) (P V m r1 : Nat)
    (o : Option Nat)
    (h1 : pol.check_overflow = false → r1 = P % 2 ^ w.bits)
    (h2 : pol.check_overflow = true → r1 = P ∨ 10 * 2 ^ w.bits ≤ P)
    (ho : LoopSpec w pol X F (r1 * 10 ^ m + V) o) :
    LoopSpec w pol X F (P * 10 ^ m + V) o := by
  have hpos : 1 ≤ 10 ^ m := Nat.one_le_pow _ _ (by norm_num)
  have hPT : P ≤ P * 10 ^ m + V :=
    le_trans (Nat.le_mul_of_pos_right P hpos) (Nat.le_add_right _ _)
  have hM : 0 < 2 ^ w.bits := Nat.pow_pos (by norm_num)
  obtain ⟨o1, o2⟩ := ho
  constructor
  · intro hn
    rcases o1 hn with h | ⟨hc, h⟩
    · exact Or.inl h
    · right
      refine ⟨hc, ?_⟩
      rcases h2 hc with e | e
      · rw [← e]; exact h
      · omega
  · intro r' hr'
    obtain ⟨b0, b1, b2, b3⟩ := o2 r' hr'
    refine ⟨b0, b1, ?_, ?_⟩
    · intro hc
      rw [b2 hc, h1 hc]
      simp [Nat.add_mod, Nat.mul_mod]
    · intro hc
      rcases h2 hc with e | e
      · rw [← e]; exact b3 hc
      · right; omega

/-- The loop on a run of digits. From a chunk at `c` whose first `ig` bytes are ignored,
with digits from `c + ig` up to the stop position `E` (the first non-digit of a validating
policy, or `end`), the loop either returns `NULL` or leaves through `finish` at `E`, and
`LoopSpec` relates the accumulator to the exact value. -/
theorem parseLoop_spec (w : Width) (u : Bool) (pol : Policy) (mem : Mem) (ds : Nat)
    (neg : Bool) (result E : Nat) :
    ∀ fuel c ig endp r,
      c % 4 = 0 → ig < 4 → c + ig ≤ E → E ≤ endp → c < endp → E < c + 4 * fuel →
      (∀ a, c + ig ≤ a → a < E → isDigit (byteAt mem a) = true) →
      (E = endp ∨ (pol.check_input = true ∧ isDigit (byteAt mem E) = false)) →
      r < 2 ^ w.bits →
      ∃ o, parseLoop w u pol mem ds neg result fuel c endp
              (_ZERO_FIRST_N_BYTES (_LOAD_FROM mem c) ig) r (4 - ig)
            = retOf w u pol mem ds neg result E o ∧
          LoopSpec w pol (ExactOK pol mem E endp) (ExactFail pol mem E endp)
            (r * 10 ^ (E - (c + ig)) + decVal mem (c + ig) (E - (c + ig))) o := by
  intro fuel
  induction fuel with
  | zero => intro c ig endp r _ _ h1 _ _ h2; omega
  | succ fuel ih =>
    intro c ig endp r hc hig hcE hEe hce hfuel hdig hstop hr
    by_cases hA : c + 4 ≤ E ∧ c + 4 < endp
    · -- a chunk full of digits that is not the last one
      have hd4 : ∀ i, ig ≤ i → i < 4 → isDigit (byteAt mem (c + i)) = true :=
        fun i h1 h2 => hdig (c + i) (by omega) (by omega)
      have hscan := scan_full pol mem c ig endp hig hd4
      have hval := chunk_value_full mem c ig hig hd4
      have hslt : decVal mem (c + ig) (4 - ig) < 10000 := by
        have := decVal_lt mem (c + ig) (4 - ig)
          (fun i hi => hdig (c + ig + i) (by omega) (by omega))
        have h2 : 10 ^ (4 - ig) ≤ 10 ^ 4 := Nat.pow_le_pow_right (by norm_num) (by omega)
        norm_num at h2
        omega
      obtain ⟨a1, a2⟩ := accumulate_spec w pol r (4 - ig)
        (_ZERO_FIRST_N_BYTES (_LOAD_FROM mem c) ig) (decVal mem (c + ig) (4 - ig)) hr
        (by omega) hslt (fun h => by omega) (fun _ => hval)
      have hT : r * 10 ^ (E - (c + ig)) + decVal mem (c + ig) (E - (c + ig))
          = (r * 10 ^ (4 - ig) + decVal mem (c + ig) (4 - ig)) * 10 ^ (E - (c + 4 + 0))
            + decVal mem (c + 4 + 0) (E - (c + 4 + 0)) := by
        have e1 : E - (c + ig) = (4 - ig) + (E - (c + 4 + 0)) := by omega
        have e2 : c + ig + (4 - ig) = c + 4 + 0 := by omega
        rw [e1, decVal_add, e2, pow_add]
        ring
      rw [parseLoop_step_continue w u pol mem ds neg result fuel c endp endp _ r _ hscan hA.2,
        hT]
      cases hacc : accumulate w pol r (4 - ig) (_ZERO_FIRST_N_BYTES (_LOAD_FROM mem c) ig) with
      | none =>
        refine ⟨none, rfl, ?_⟩
        obtain ⟨f1, f2⟩ := a1 hacc
        refine ⟨fun _ => Or.inr ⟨f1, ?_⟩, fun r' h => by simp at h⟩
        have hpos : 1 ≤ 10 ^ (E - (c + 4 + 0)) := Nat.one_le_pow _ _ (by norm_num)
        exact le_trans f2 (le_trans (Nat.le_mul_of_pos_right _ hpos) (Nat.le_add_right _ _))
      | some r1 =>
        obtain ⟨g1, g2, g3⟩ := a2 r1 hacc
        obtain ⟨o, ho1, ho2⟩ := ih (c + 4) 0 endp r1 (by omega) (by norm_num) (by omega) hEe
          hA.2 (by omega) (fun a h1 h2 => hdig a (by omega) h2) hstop g1
        refine ⟨o, ?_, loopSpec_step w pol _ _ _ _ _ r1 o g2 g3 ho2⟩
        rw [← ho1, ← chunk_zero]
    · -- the last chunk
      have hE4 : E ≤ c + 4 := by omega
      have hstop' : E = endp ∨
          (pol.check_input = true ∧ isDigit (byteAt mem E) = false ∧ E < c + 4) := by
        rcases hstop with h | h
        · exact Or.inl h
        · by_cases he : E = endp
          · exact Or.inl he
          · exact Or.inr ⟨h.1, h.2, by omega⟩
      rcases scan_last pol mem c ig E endp hc hig hcE hE4 hEe hce hdig hstop' with
        ⟨hs, hnf⟩ | ⟨hs, hx⟩
      · rw [parseLoop_step_last w u pol mem ds neg result fuel c endp E _ r _ hs hE4]
        have hidx : (4 - ig + 2 ^ wordBits - (c + 4 - E)) % 2 ^ wordBits = E - (c + ig) := by
          simp only [wordBits]; omega
        rw [hidx]
        refine ⟨_, rfl, ?_⟩
        apply loopSpec_of_accumulate w pol _ _ r _ _ _ hnf hr (by omega)
        · have := decVal_lt mem (c + ig) (E - (c + ig))
            (fun i hi => hdig (c + ig + i) (by omega) (by omega))
          have h2 : 10 ^ (E - (c + ig)) ≤ 10 ^ 4 :=
            Nat.pow_le_pow_right (by norm_num) (by omega)
          norm_num at h2
          omega
        · intro h0; rw [h0]; rfl
        · intro h0
          have := chunk_value mem c ig (c + 4 - E) hig (by omega) (by omega)
            (fun i h1 h2 => hdig (c + i) (by omega) (by omega))
          rw [this]
          congr 1
          omega
      · rw [parseLoop_step_null w u pol mem ds neg result fuel c endp _ r _ hs]
        exact ⟨none, rfl, fun _ => Or.inl hx, fun r' h => by simp at h⟩

/-! ## The return of the function -/

theorem encode_nat (w : Width) (D : Nat) (h : D < 2 ^ w.bits) : encode w (D : Int) = D := by
  cases w <;> simp [encode, Width.bits, Width.sizeof] at h ⊢ <;> omega

theorem encode_neg (w : Width) (D : Nat) (h : D ≤ 2 ^ w.bits) :
    encode w (-(D : Int)) = (2 ^ w.bits - D) % 2 ^ w.bits := by
  cases w <;> simp [encode, Width.bits, Width.sizeof] at h ⊢ <;> omega

theorem signed_max (w : Width) :
    ((0 + 2 ^ w.bits - 1) % 2 ^ w.bits) >>> 1 = 2 ^ (w.bits - 1) - 1 := by
  cases w <;> decide

theorem two_pow_bits_half (w : Width) : 2 ^ w.bits = 2 * 2 ^ (w.bits - 1) := by
  cases w <;> decide

theorem finish_in_range (w : Width) (u : Bool) (pol : Policy) (mem : Mem) (ds E : Nat)
    (neg : Bool) (result : Nat) (hle : ds ≤ E) (hco : pol.check_overflow = true)
    (hd : ∀ a, ds ≤ a → a < E → isDigit (byteAt mem a) = true)
    (hneg : neg = true → u = false)
    (hmin : typeMin w u ≤ (if neg then -(decVal mem ds (E - ds) : Int) else decVal mem ds (E - ds)))
    (hmax : (if neg then -(decVal mem ds (E - ds) : Int) else decVal mem ds (E - ds)) ≤ typeMax w u) :
    finish w u pol mem ds neg result E (decVal mem ds (E - ds))
      = Ret.ok E (encode w (if neg then -(decVal mem ds (E - ds) : Int) else decVal mem ds (E - ds))) := by
  have hlong := tooLong_iff w u mem ds E hle hd
  have hlow := maxDigits_lower w u
  have hhalf := two_pow_bits_half w
  generalize decVal mem ds (E - ds) = D at *
  have hpos : 0 < 2 ^ (w.bits - 1) := Nat.pow_pos (by norm_num)
  have hposI : (0 : Int) < 2 ^ (w.bits - 1) := by positivity
  have hposJ : (0 : Int) < 2 ^ w.bits := by positivity
  have hbound : (if u then D < 2 ^ w.bits
      else if neg then D ≤ 2 ^ (w.bits - 1) else D < 2 ^ (w.bits - 1)) := by
    cases u <;> cases neg <;> simp [typeMin, typeMax] at hmin hmax hneg ⊢
    · have h : (D : Int) < ((2 ^ (w.bits - 1) : Nat) : Int) := by push_cast; omega
      exact_mod_cast h
    · have h : (D : Int) ≤ ((2 ^ (w.bits - 1) : Nat) : Int) := by push_cast; omega
      exact_mod_cast h
    · have h : (D : Int) < ((2 ^ w.bits : Nat) : Int) := by push_cast; omega
      exact_mod_cast h
  have hnl : ¬ (10 ^ _MAX_DIGITS w u ≤ D) := by
    intro hc
    have h1 := le_trans hlow hc
    cases u <;> cases neg <;> simp at hbound h1 hneg <;> omega
  have hb : (decide ((E : Int) - ds > _MAX_DIGITS w u) &&
      decide ((E : Int) - skipZeros mem (E - ds) ds > _MAX_DIGITS w u)) = false := by
    rw [← Bool.not_eq_true, hlong]; exact hnl
  simp only [finish, hco, Bool.true_and, hb, Bool.false_eq_true, if_false, Bool.not_true,
    signed_max]
  cases u
  · cases neg
    · simp only [Bool.false_eq_true, if_false] at hbound ⊢
      rw [if_neg (by omega), encode_nat w D (by omega)]
    · simp only [Bool.false_eq_true, if_false, if_true] at hbound ⊢
      rw [if_neg (by omega), encode_neg w D (by omega)]
  · have : neg = false := by
      cases neg
      · rfl
      · simp at hneg
    subst this
    simp only [if_true, Bool.false_eq_true, if_false] at hbound ⊢
    rw [encode_nat w D hbound]

/-- With overflow checking, a value outside the range of the type makes the function return
`NULL` at the end, when the accumulator holds the exact value, and also when it does not
because the value has more than the largest number of digits. -/
theorem finish_out_of_range (w : Width) (u : Bool) (pol : Policy) (mem : Mem) (ds E : Nat)
    (neg : Bool) (result r : Nat) (hle : ds ≤ E) (hco : pol.check_overflow = true)
    (hd : ∀ a, ds ≤ a → a < E → isDigit (byteAt mem a) = true)
    (hneg : neg = true → u = false)
    (hout : (if neg then -(decVal mem ds (E - ds) : Int) else decVal mem ds (E - ds)) < typeMin w u
      ∨ typeMax w u < (if neg then -(decVal mem ds (E - ds) : Int) else decVal mem ds (E - ds)))
    (hr : r < 2 ^ w.bits)
    (hexact : r = decVal mem ds (E - ds) ∨ 10 * 2 ^ w.bits ≤ decVal mem ds (E - ds)) :
    finish w u pol mem ds neg result E r = Ret.null result := by
  have hlong := tooLong_iff w u mem ds E hle hd
  have hup := maxDigits_upper w u
  have hhalf := two_pow_bits_half w
  generalize decVal mem ds (E - ds) = D at *
  have hpos : 0 < 2 ^ (w.bits - 1) := Nat.pow_pos (by norm_num)
  have hposI : (0 : Int) < 2 ^ (w.bits - 1) := by positivity
  have hposJ : (0 : Int) < 2 ^ w.bits := by positivity
  by_cases hl : 10 ^ _MAX_DIGITS w u ≤ D
  · have hb := hlong.2 hl
    simp only [finish, hco, Bool.true_and, hb, if_true]
  · have hb : (decide ((E : Int) - ds > _MAX_DIGITS w u) &&
        decide ((E : Int) - skipZeros mem (E - ds) ds > _MAX_DIGITS w u)) = false := by
      rw [← Bool.not_eq_true, hlong]; exact hl
    have hrD : r = D := by
      rcases hexact with h | h
      · exact h
      · omega
    subst hrD
    have hbound : (if u then False
        else if neg then 2 ^ (w.bits - 1) < r else 2 ^ (w.bits - 1) ≤ r) := by
      cases u <;> cases neg <;> simp [typeMin, typeMax] at hout hneg ⊢
      · have h : ((2 ^ (w.bits - 1) : Nat) : Int) ≤ (r : Int) := by push_cast; omega
        exact_mod_cast h
      · have h : ((2 ^ (w.bits - 1) : Nat) : Int) < (r : Int) := by push_cast; omega
        exact_mod_cast h
      · have h : ((2 ^ w.bits : Nat) : Int) ≤ (r : Int) := by push_cast; omega
        have h' : 2 ^ w.bits ≤ r := by exact_mod_cast h
        omega
    simp only [finish, hco, Bool.true_and, hb, Bool.false_eq_true, if_false, Bool.not_true,
      signed_max]
    cases u
    · cases neg
      · simp only [Bool.false_eq_true, if_false] at hbound ⊢
        rw [if_pos (by omega)]
      · simp only [Bool.false_eq_true, if_false, if_true] at hbound ⊢
        rw [if_pos (by omega)]
    · simp at hbound

/-! ## The body of the function on a run of digits -/

theorem and_three (x : Nat) : x &&& (_CHUNK_SIZE - 1) = x % 4 := by
  have := Nat.and_pow_two_sub_one_eq_mod x 2
  simpa [_CHUNK_SIZE] using this

/-- The body of `_DEFINE` on an input whose digits run from `digits_start` up to the stop
position `E`: it returns `NULL` or leaves through `finish` at `E`, with the accumulator
described by `LoopSpec`. -/
theorem defineBody_run (w : Width) (u : Bool) (pol : Policy) (mem : Mem)
    (result p endp E : Nat) (neg : Bool)
    (hneg : neg = (!u && decide (byteAt mem p = 45)))
    (hsz : pol.has_size = true → p < endp)
    (hnt : pol.is_null_terminated = true → byteAt mem p ≠ 0)
    (hE : (if neg then p + 1 else p) < E) (hEe : E ≤ endp)
    (hdig : ∀ a, (if neg then p + 1 else p) ≤ a → a < E → isDigit (byteAt mem a) = true)
    (hstop : E = endp ∨ (pol.check_input = true ∧ isDigit (byteAt mem E) = false)) :
    ∃ o, defineBody w u pol mem result p endp
          = retOf w u pol mem (if neg then p + 1 else p) neg result E o ∧
        LoopSpec w pol (ExactOK pol mem E endp) (ExactFail pol mem E endp)
          ((if u then result % 2 ^ w.bits else 0) * 10 ^ (E - (if neg then p + 1 else p))
            + decVal mem (if neg then p + 1 else p) (E - (if neg then p + 1 else p))) o := by
  have e1 : (pol.has_size && decide (endp ≤ p)) = false := by
    cases h : pol.has_size
    · rfl
    · have := hsz h; simp; omega
  have e2 : (pol.is_null_terminated && decide (byteAt mem p = 0)) = false := by
    cases h : pol.is_null_terminated
    · rfl
    · have := hnt h; simp [this]
  have e3 : (neg && pol.has_size && decide (endp ≤ (if neg then p + 1 else p))) = false := by
    have : ¬ (endp ≤ (if neg then p + 1 else p)) := by omega
    simp [this]
  have e4 : (pol.check_input && !(isDigit (byteAt mem (if neg then p + 1 else p)))) = false := by
    rw [hdig _ (le_refl _) hE]; simp
  simp only [defineBody, e1, ← hneg, e2, e3, e4, Bool.false_eq_true, if_false, and_three]
  generalize (if neg then p + 1 else p) = ds at *
  have hr : (if u then result % 2 ^ w.bits else 0) < 2 ^ w.bits := by
    have hM : 0 < 2 ^ w.bits := Nat.pow_pos (by norm_num)
    split
    · exact Nat.mod_lt _ hM
    · exact hM
  have key := parseLoop_spec w u pol mem ds neg result E
    ((endp - (ds - ds % 4)) / _CHUNK_SIZE + 1) (ds - ds % 4) (ds % 4) endp
    (if u then result % 2 ^ w.bits else 0) (by omega) (by omega) (by omega) hEe (by omega)
    (by simp only [_CHUNK_SIZE]; omega) (fun a h1 h2 => hdig a (by omega) h2) hstop hr
  have e5 : ds - ds % 4 + ds % 4 = ds := by omega
  rw [e5] at key
  exact key

/-! ## Inputs made of an optional sign and a run of digits -/

theorem isDigit_ne_minus (c : Nat) (h : isDigit c = true) : c ≠ 45 := by
  simp only [isDigit, Bool.and_eq_true, decide_eq_true_eq] at h
  omega

theorem isDigit_ne_zero (c : Nat) (h : isDigit c = true) : c ≠ 0 := by
  simp only [isDigit, Bool.and_eq_true, decide_eq_true_eq] at h
  omega

/-- The sign that the function reads is the sign of the input, when the input is an
optional minus sign (signed types only) followed by a digit. -/
theorem negative_eq (u : Bool) (mem : Mem) (p : Nat) (neg : Bool)
    (hsign : neg = true → u = false ∧ byteAt mem p = 45)
    (hfirst : neg = false → byteAt mem p ≠ 45) :
    neg = (!u && decide (byteAt mem p = 45)) := by
  cases neg
  · simp [hfirst rfl]
  · obtain ⟨h1, h2⟩ := hsign rfl
    simp [h1, h2]

theorem signLen_add (neg : Bool) (p : Nat) : (if neg then p + 1 else p) = p + signLen neg := by
  cases neg <;> simp [signLen]

theorem magnitude_lt (w : Width) (u neg : Bool) (D : Nat) (hneg : neg = true → u = false)
    (hmin : typeMin w u ≤ signedVal neg D) (hmax : signedVal neg D ≤ typeMax w u) :
    D < 2 ^ w.bits := by
  have hhalf := two_pow_bits_half w
  have hposI : (0 : Int) < 2 ^ (w.bits - 1) := by positivity
  have h : (D : Int) < ((2 ^ w.bits : Nat) : Int) := by
    push_cast
    have e : (2 : Int) ^ w.bits = 2 * 2 ^ (w.bits - 1) := by exact_mod_cast hhalf
    cases u <;> cases neg <;> simp [typeMin, typeMax, signedVal] at hmin hmax hneg <;> omega
  exact_mod_cast h

/-- The overflow-checked, input-validating entry points without a size on an optional
minus sign followed by `n ≥ 1` digits and a non-digit, with a value `v` in range and
`*result = 0`: the call returns the address of the non-digit and stores `v`. For an exact
(null terminated) policy the non-digit has to be the null byte. -/
theorem define_valid_unsized (w : Width) (u : Bool) (pol : Policy) (mem : Mem) (p n : Nat)
    (neg : Bool) (hsz : pol.has_size = false) (hci : pol.check_input = true)
    (hco : pol.check_overflow = true)
    (hex : pol.is_exact = true → pol.is_null_terminated = true →
      byteAt mem (p + signLen neg + n) = 0)
    (hsign : neg = true → u = false ∧ byteAt mem p = 45)
    (hn : 1 ≤ n)
    (hdig : ∀ i, i < n → isDigit (byteAt mem (p + signLen neg + i)) = true)
    (hstop : isDigit (byteAt mem (p + signLen neg + n)) = false)
    (haddr : p + signLen neg + n < 2 ^ 64)
    (hmin : typeMin w u ≤ signedVal neg (decVal mem (p + signLen neg) n))
    (hmax : signedVal neg (decVal mem (p + signLen neg) n) ≤ typeMax w u) :
    define w u pol mem 0 p ptrMax
      = Ret.ok (p + signLen neg + n)
          (encode w (signedVal neg (decVal mem (p + signLen neg) n))) := by
  have hfirst : neg = false → byteAt mem p ≠ 45 := by
    intro h
    have := hdig 0 hn
    rw [h] at this
    exact isDigit_ne_minus _ (by simpa [signLen] using this)
  have hnegeq := negative_eq u mem p neg hsign hfirst
  have hnz : byteAt mem p ≠ 0 := by
    cases hneg : neg
    · have := hdig 0 hn
      rw [hneg] at this
      exact isDigit_ne_zero _ (by simpa [signLen] using this)
    · rw [(hsign hneg).2]; norm_num
  have hD := magnitude_lt w u neg _ (fun h => (hsign h).1) hmin hmax
  have hdef : define w u pol mem 0 p ptrMax = defineBody w u pol mem 0 p ptrMax := by
    simp [define, hsz]
  obtain ⟨o, ho1, ho2, ho3⟩ := defineBody_run w u pol mem 0 p ptrMax (p + signLen neg + n) neg
    hnegeq (fun h => by rw [hsz] at h; simp at h) (fun _ => hnz)
    (by rw [signLen_add]; omega) (by simp only [ptrMax]; omega)
    (fun a h1 h2 => by
      rw [signLen_add] at h1
      have := hdig (a - (p + signLen neg)) (by omega)
      rwa [show p + signLen neg + (a - (p + signLen neg)) = a by omega] at this)
    (Or.inr ⟨hci, hstop⟩)
  rw [signLen_add] at ho1 ho2 ho3
  have hT : (if u then 0 % 2 ^ w.bits else 0) * 10 ^ (p + signLen neg + n - (p + signLen neg))
      + decVal mem (p + signLen neg) (p + signLen neg + n - (p + signLen neg))
      = decVal mem (p + signLen neg) n := by
    rw [show p + signLen neg + n - (p + signLen neg) = n by omega]
    cases u <;> simp
  rw [hT] at ho2 ho3
  have hok : ExactOK pol mem (p + signLen neg + n) ptrMax := by
    intro h1 _
    exact ⟨fun h => by rw [hsz] at h; simp at h, fun h => hex h1 h⟩
  rw [hdef, ho1]
  cases o with
  | none =>
    rcases ho2 rfl with h | ⟨_, h⟩
    · exact absurd hok h
    · omega
  | some r1 =>
    obtain ⟨_, _, _, h4⟩ := ho3 r1 rfl
    have hr1 : r1 = decVal mem (p + signLen neg) n := by
      rcases h4 hco with h | h
      · exact h
      · omega
    subst hr1
    have hfin := finish_in_range w u pol mem (p + signLen neg) (p + signLen neg + n) neg 0
      (by omega) hco
      (fun a h1 h2 => by
        have := hdig (a - (p + signLen neg)) (by omega)
        rwa [show p + signLen neg + (a - (p + signLen neg)) = a by omega] at this)
      (fun h => (hsign h).1)
    rw [show p + signLen neg + n - (p + signLen neg) = n by omega] at hfin
    simp only [retOf]
    exact hfin hmin hmax

/-! ## The claims -/

/-- C1: for every width and signedness, every start address `p` (hence every alignment) and
every buffer that begins with an optional minus sign (signed types only) followed by a
maximal run of `n ≥ 1` decimal digits whose signed value lies in the range of the type,
`parse` called with `*result = 0` returns `p + n` (plus one when the sign is present) and
stores exactly that value. The buffer lies in the 64 bit address space. -/
theorem parse_valid (w : Width) (u : Bool) (mem : Mem) (p n : Nat) (neg : Bool)
    (hsign : neg = true → u = false ∧ byteAt mem p = 45)
    (hn : 1 ≤ n)
    (hdig : ∀ i, i < n → isDigit (byteAt mem (p + signLen neg + i)) = true)
    (hstop : isDigit (byteAt mem (p + signLen neg + n)) = false)
    (haddr : p + signLen neg + n < 2 ^ 64)
    (hmin : typeMin w u ≤ signedVal neg (decVal mem (p + signLen neg) n))
    (hmax : signedVal neg (decVal mem (p + signLen neg) n) ≤ typeMax w u) :
    parse w u mem 0 p
        = Ret.ok (p + signLen neg + n)
            (encode w (signedVal neg (decVal mem (p + signLen neg) n))) ∧
      asValue w u (encode w (signedVal neg (decVal mem (p + signLen neg) n)))
        = signedVal neg (decVal mem (p + signLen neg) n) :=
  ⟨define_valid_unsized w u parsePolicy mem p n neg rfl rfl rfl (fun h => by simp [parsePolicy] at h)
      hsign hn hdig hstop haddr hmin hmax,
    asValue_encode w u _ hmin hmax⟩

/-- The signed minimum of 32 bits parses at an unaligned address, followed by junk. -/
theorem parse_valid_witness :
    parse Width.w32 false (memOf 17 (bytesOf "-2147483648///") 49) 0 17
        = Ret.ok 28 2147483648 ∧
      asValue Width.w32 false 2147483648 = -2147483648 :=
  parse_valid Width.w32 false (memOf 17 (bytesOf "-2147483648///") 49) 17 10 true
    (by decide) (by decide) (by decide) (by decide) (by decide) (by decide) (by decide)

/-- C8: for every null terminated string that consists entirely of an optional minus sign
(signed types only) followed by `n ≥ 1` decimal digits whose value lies in the range of the
type, `parse_all` called with `*result = 0` returns the address of the terminating null
byte and stores the value. The string lies in the 64 bit address space. -/
theorem parse_all_valid (w : Width) (u : Bool) (mem : Mem) (p n : Nat) (neg : Bool)
    (hsign : neg = true → u = false ∧ byteAt mem p = 45)
    (hn : 1 ≤ n)
    (hdig : ∀ i, i < n → isDigit (byteAt mem (p + signLen neg + i)) = true)
    (hnull : byteAt mem (p + signLen neg + n) = 0)
    (haddr : p + signLen neg + n < 2 ^ 64)
    (hmin : typeMin w u ≤ signedVal neg (decVal mem (p + signLen neg) n))
    (hmax : signedVal neg (decVal mem (p + signLen neg) n) ≤ typeMax w u) :
    parse_all w u mem 0 p
        = Ret.ok (p + signLen neg + n)
            (encode w (signedVal neg (decVal mem (p + signLen neg) n))) ∧
      asValue w u (encode w (signedVal neg (decVal mem (p + signLen neg) n)))
        = signedVal neg (decVal mem (p + signLen neg) n) :=
  ⟨define_valid_unsized w u parseAllPolicy mem p n neg rfl rfl rfl (fun _ _ => hnull)
      hsign hn hdig (by rw [hnull]; rfl) haddr hmin hmax,
    asValue_encode w u _ hmin hmax⟩

/-- The largest unsigned 64 bit value is parsed in full by `parse_all`. -/
theorem parse_all_valid_witness :
    parse_all Width.w64 true (memOf 35 (bytesOf "18446744073709551615") 49) 0 35
        = Ret.ok 55 18446744073709551615 ∧
      asValue Width.w64 true 18446744073709551615 = 18446744073709551615 :=
  parse_all_valid Width.w64 true (memOf 35 (bytesOf "18446744073709551615") 49) 35 20 false
    (by decide) (by decide) (by decide) (by decide) (by decide) (by decide) (by decide)

theorem decVal_zeros (mem : Mem) (a k : Nat) (h : ∀ i, i < k → byteAt mem (a + i) = 48) :
    decVal mem a k = 0 := by
  induction k with
  | zero => rfl
  | succ k ih => rw [decVal, ih (fun i hi => h i (by omega)), h k (by omega)]

theorem decVal_congr (mem1 mem2 : Mem) (a b n : Nat)
    (h : ∀ i, i < n → byteAt mem1 (a + i) = byteAt mem2 (b + i)) :
    decVal mem1 a n = decVal mem2 b n := by
  induction n with
  | zero => rfl
  | succ n ih => rw [decVal, decVal, ih (fun i hi => h i (by omega)), h n (by omega)]

/-- C4: leading zeros never cause a false overflow. For every `k` and every run `d` of
`n ≥ 1` digits with a value in the range of the type, `parse` on the string made of an
optional minus sign (signed types only), `k` characters `'0'` and then `d` succeeds, stores
the same value as `parse` on the string without the `k` zeros, and consumes exactly `k`
more characters. The two strings may lie at different addresses and alignments. -/
theorem parse_leading_zeros (w : Width) (u : Bool) (mem1 mem2 : Mem) (p1 p2 k n : Nat)
    (neg : Bool)
    (hsign1 : neg = true → u = false ∧ byteAt mem1 p1 = 45)
    (hsign2 : neg = true → byteAt mem2 p2 = 45)
    (hn : 1 ≤ n)
    (hzeros : ∀ i, i < k → byteAt mem1 (p1 + signLen neg + i) = 48)
    (hsame : ∀ i, i < n →
      byteAt mem1 (p1 + signLen neg + k + i) = byteAt mem2 (p2 + signLen neg + i))
    (hdig : ∀ i, i < n → isDigit (byteAt mem2 (p2 + signLen neg + i)) = true)
    (hstop1 : isDigit (byteAt mem1 (p1 + signLen neg + k + n)) = false)
    (hstop2 : isDigit (byteAt mem2 (p2 + signLen neg + n)) = false)
    (haddr1 : p1 + signLen neg + k + n < 2 ^ 64)
    (haddr2 : p2 + signLen neg + n < 2 ^ 64)
    (hmin : typeMin w u ≤ signedVal neg (decVal mem2 (p2 + signLen neg) n))
    (hmax : signedVal neg (decVal mem2 (p2 + signLen neg) n) ≤ typeMax w u) :
    parse w u mem2 0 p2
        = Ret.ok (p2 + signLen neg + n)
            (encode w (signedVal neg (decVal mem2 (p2 + signLen neg) n))) ∧
      parse w u mem1 0 p1
        = Ret.ok (p1 + signLen neg + n + k)
            (encode w (signedVal neg (decVal mem2 (p2 + signLen neg) n))) ∧
      asValue w u (encode w (signedVal neg (decVal mem2 (p2 + signLen neg) n)))
        = signedVal neg (decVal mem2 (p2 + signLen neg) n) := by
  have hval : decVal mem1 (p1 + signLen neg) (k + n) = decVal mem2 (p2 + signLen neg) n := by
    rw [decVal_add, decVal_zeros mem1 _ k hzeros,
      decVal_congr mem1 mem2 (p1 + signLen neg + k) (p2 + signLen neg) n hsame]
    simp
  have hdig1 : ∀ i, i < k + n → isDigit (byteAt mem1 (p1 + signLen neg + i)) = true := by
    intro i hi
    by_cases hik : i < k
    · rw [hzeros i hik]; rfl
    · have := hsame (i - k) (by omega)
      rw [show p1 + signLen neg + k + (i - k) = p1 + signLen neg + i by omega] at this
      rw [this]
      exact hdig _ (by omega)
  refine ⟨?_, ?_, asValue_encode w u _ hmin hmax⟩
  · exact define_valid_unsized w u parsePolicy mem2 p2 n neg rfl rfl rfl
      (fun h => by simp [parsePolicy] at h) (fun h => ⟨(hsign1 h).1, hsign2 h⟩) hn hdig
      hstop2 haddr2 hmin hmax
  · have h := define_valid_unsized w u parsePolicy mem1 p1 (k + n) neg rfl rfl rfl
      (fun h => by simp [parsePolicy] at h) hsign1 (by omega) hdig1
      (by rw [← Nat.add_assoc]; exact hstop1) (by omega)
      (by rw [hval]; exact hmin) (by rw [hval]; exact hmax)
    rw [hval] at h
    rw [show p1 + signLen neg + n + k = p1 + signLen neg + (k + n) by omega]
    exact h

/-- Thirty-eight zeros in front of "42" still parse to 42 as a 32 bit integer, consuming
forty characters where "42" alone consumes two. -/
theorem parse_leading_zeros_witness :
    parse Width.w32 false (memOf 8 (bytesOf "42") 49) 0 8 = Ret.ok 10 42 ∧
      parse Width.w32 false
          (memOf 21 (bytesOf "0000000000000000000000000000000000000042") 49) 0 21
        = Ret.ok 61 42 ∧
      asValue Width.w32 false 42 = 42 :=
  parse_leading_zeros Width.w32 false
    (memOf 21 (bytesOf "0000000000000000000000000000000000000042") 49)
    (memOf 8 (bytesOf "42") 49) 21 8 38 2 false
    (by decide) (by decide) (by decide) (by decide) (by decide) (by decide) (by decide)
    (by decide) (by decide) (by decide) (by decide) (by decide)

/-! ## Failures -/

theorem defineBody_nodigit (w : Width) (u : Bool) (pol : Policy) (mem : Mem)
    (result p endp : Nat) (hci : pol.check_input = true)
    (h : isDigit (byteAt mem (p + signLen (!u && decide (byteAt mem p = 45)))) = false) :
    defineBody w u pol mem result p endp = Ret.null result := by
  rw [← signLen_add] at h
  simp only [defineBody]
  by_cases g1 : (pol.has_size && decide (endp ≤ p)) = true
  · rw [if_pos g1]
  · rw [if_neg g1]
    by_cases g2 : (pol.is_null_terminated && decide (byteAt mem p = 0)) = true
    · rw [if_pos g2]
    · rw [if_neg g2]
      generalize (!u && decide (byteAt mem p = 45)) = neg at h ⊢
      by_cases g3 : (neg && pol.has_size && decide (endp ≤ (if neg then p + 1 else p))) = true
      · rw [if_pos g3]
      · rw [if_neg g3, if_pos (by simp [hci, h])]

theorem define_nodigit (w : Width) (u : Bool) (pol : Policy) (mem : Mem)
    (result p endp : Nat) (hci : pol.check_input = true)
    (h : isDigit (byteAt mem (p + signLen (!u && decide (byteAt mem p = 45)))) = false) :
    define w u pol mem result p endp = Ret.null result := by
  simp only [define, hci, if_true]
  split
  · exact defineBody_nodigit w u _ mem result p _ rfl h
  · exact defineBody_nodigit w u pol mem result p endp hci h

/-- C9 (NoDigits): for every input-validating entry point (`parse`, `parse_all`, `parse_n`,
`parse_all_n`, `parse_overflow`, `parse_nooverflow`), every size and every starting
`*result`, an input whose first character after the optional leading minus sign (signed
types only) is not a decimal digit makes the call return `NULL`. -/
theorem no_digits (w : Width) (u : Bool) (mem : Mem) (result p size : Nat)
    (h : isDigit (byteAt mem (p + signLen (!u && decide (byteAt mem p = 45)))) = false) :
    parse w u mem result p = Ret.null result ∧
    parse_all w u mem result p = Ret.null result ∧
    parse_n w u mem result p size = Ret.null result ∧
    parse_all_n w u mem result p size = Ret.null result ∧
    parse_overflow w u mem result p = Ret.null result ∧
    parse_nooverflow w u mem result p size = Ret.null result :=
  ⟨define_nodigit w u _ mem result p _ rfl h, define_nodigit w u _ mem result p _ rfl h,
    define_nodigit w u _ mem result p _ rfl h, define_nodigit w u _ mem result p _ rfl h,
    define_nodigit w u _ mem result p _ rfl h, defineBody_nodigit w u _ mem result p _ rfl h⟩

/-- A lone "-", the double sign "--1", "x", "_123" and the empty string fail for the signed
64 bit `parse`, and "--1" with size 3 fails for `parse_all_n`. -/
theorem no_digits_witness :
    parse Width.w64 false (memOf 16 (bytesOf "-") 49) 0 16 = Ret.null 0 ∧
    parse Width.w64 false (memOf 16 (bytesOf "--1") 49) 0 16 = Ret.null 0 ∧
    parse Width.w64 false (memOf 16 (bytesOf "x") 49) 0 16 = Ret.null 0 ∧
    parse Width.w64 false (memOf 16 (bytesOf "_123") 49) 0 16 = Ret.null 0 ∧
    parse Width.w64 false (memOf 16 (bytesOf "") 49) 0 16 = Ret.null 0 ∧
    parse_all_n Width.w64 false (memOf 16 (bytesOf "--1") 49) 0 16 3 = Ret.null 0 :=
  ⟨(no_digits Width.w64 false (memOf 16 (bytesOf "-") 49) 0 16 0 (by decide)).1,
    (no_digits Width.w64 false (memOf 16 (bytesOf "--1") 49) 0 16 0 (by decide)).1,
    (no_digits Width.w64 false (memOf 16 (bytesOf "x") 49) 0 16 0 (by decide)).1,
    (no_digits Width.w64 false (memOf 16 (bytesOf "_123") 49) 0 16 0 (by decide)).1,
    (no_digits Width.w64 false (memOf 16 (bytesOf "") 49) 0 16 0 (by decide)).1,
    (no_digits Width.w64 false (memOf 16 (bytesOf "--1") 49) 0 16 3 (by decide)).2.2.2.1⟩

theorem finish_null (w : Width) (u : Bool) (pol : Policy) (mem : Mem) (ds : Nat) (neg : Bool)
    (result endp r r' : Nat) (h : finish w u pol mem ds neg result endp r = Ret.null r') :
    r' = result := by
  simp only [finish] at h
  repeat' split at h
  all_goals first
    | (simp only [Ret.null.injEq] at h; exact h.symm)
    | simp at h

theorem parseLoop_null (w : Width) (u : Bool) (pol : Policy) (mem : Mem) (ds : Nat)
    (neg : Bool) (result r' : Nat) :
    ∀ fuel p endp bytes r d,
      parseLoop w u pol mem ds neg result fuel p endp bytes r d = Ret.null r' → r' = result := by
  intro fuel
  induction fuel with
  | zero => intro p endp bytes r d h; simp [parseLoop] at h
  | succ fuel ih =>
    intro p endp bytes r d h
    cases hs : scanChunk pol mem (p + 4) endp bytes with
    | none =>
      rw [parseLoop_step_null w u pol mem ds neg result fuel p endp bytes r d hs] at h
      simp only [Ret.null.injEq] at h; exact h.symm
    | some e1 =>
      by_cases hle : e1 ≤ p + 4
      · rw [parseLoop_step_last w u pol mem ds neg result fuel p endp e1 bytes r d hs hle] at h
        split at h
        · simp only [Ret.null.injEq] at h; exact h.symm
        · exact finish_null _ _ _ _ _ _ _ _ _ _ h
      · rw [parseLoop_step_continue w u pol mem ds neg result fuel p endp e1 bytes r d hs
          (by omega)] at h
        split at h
        · simp only [Ret.null.injEq] at h; exact h.symm
        · exact ih _ _ _ _ _ h

theorem defineBody_null (w : Width) (u : Bool) (pol : Policy) (mem : Mem)
    (result p endp r' : Nat) (h : defineBody w u pol mem result p endp = Ret.null r') :
    r' = result := by
  simp only [defineBody] at h
  by_cases g1 : (pol.has_size && decide (endp ≤ p)) = true
  · rw [if_pos g1] at h; simp only [Ret.null.injEq] at h; exact h.symm
  · rw [if_neg g1] at h
    by_cases g2 : (pol.is_null_terminated && decide (byteAt mem p = 0)) = true
    · rw [if_pos g2] at h; simp only [Ret.null.injEq] at h; exact h.symm
    · rw [if_neg g2] at h
      generalize (!u && decide (byteAt mem p = 45)) = neg at h
      by_cases g3 : (neg && pol.has_size && decide (endp ≤ (if neg then p + 1 else p))) = true
      · rw [if_pos g3] at h; simp only [Ret.null.injEq] at h; exact h.symm
      · rw [if_neg g3] at h
        by_cases g4 : (pol.check_input && !(isDigit (byteAt mem (if neg then p + 1 else p))))
            = true
        · rw [if_pos g4] at h; simp only [Ret.null.injEq] at h; exact h.symm
        · rw [if_neg g4] at h
          exact parseLoop_null _ _ _ _ _ _ _ _ _ _ _ _ _ _ h

/-- C10 (failure is atomic): for every width, signedness and policy, every input and every
starting value of `*result`, a call that returns `NULL` leaves in `*result` the value it
had before the call. This holds for every function generated by `_DEFINE`, the ones
reached through the dispatch on short sizes included. -/
theorem failure_atomic (w : Width) (u : Bool) (mem : Mem) (result p : Nat) :
    (∀ pol endp r', define w u pol mem result p endp = Ret.null r' → r' = result) ∧
    (∀ size r', parse_nooverflow w u mem result p size = Ret.null r' → r' = result) ∧
    (∀ size r', parse_nocheck w u mem result p size = Ret.null r' → r' = result) := by
  refine ⟨?_, fun size r' h => defineBody_null _ _ _ _ _ _ _ _ h,
    fun size r' h => defineBody_null _ _ _ _ _ _ _ _ h⟩
  intro pol endp r' h
  simp only [define] at h
  split at h
  · split at h
    · exact defineBody_null _ _ _ _ _ _ _ _ h
    · exact defineBody_null _ _ _ _ _ _ _ _ h
  · exact defineBody_null _ _ _ _ _ _ _ _ h

/-- The overflowing "2147483648" makes the 32 bit `parse` (the policy of `parse` with the
`end` of `parse`) return `NULL`, and a `*result` that held 7 before the call still holds 7. -/
theorem failure_atomic_witness :
    define Width.w32 false parsePolicy (memOf 18 (bytesOf "2147483648") 49) 7 18 ptrMax
        = Ret.null 7 ∧ (7 : Nat) = 7 :=
  ⟨by decide,
    (failure_atomic Width.w32 false (memOf 18 (bytesOf "2147483648") 49) 7 18).1
      parsePolicy ptrMax 7 (by decide)⟩

/-! ## Overflow -/

theorem maxDigits_short (w : Width) (u : Bool) :
    10 ^ (_MAX_DIGITS w u - 1) ≤ (if u then 2 ^ w.bits else 2 ^ (w.bits - 1)) := by
  cases w <;> cases u <;> decide

theorem maxDigits_pos (w : Width) (u : Bool) : 2 ≤ _MAX_DIGITS w u := by
  cases w <;> cases u <;> decide

/-- A number written with fewer than `_MAX_DIGITS` characters, sign included, is in the
range of the type. -/
theorem short_in_range (w : Width) (u neg : Bool) (n D : Nat) (hneg : neg = true → u = false)
    (hD : D < 10 ^ n) (hshort : signLen neg + n < _MAX_DIGITS w u) :
    typeMin w u ≤ signedVal neg D ∧ signedVal neg D ≤ typeMax w u := by
  have h1 := maxDigits_short w u
  have h2 : 10 ^ n ≤ 10 ^ (_MAX_DIGITS w u - 1) :=
    Nat.pow_le_pow_right (by norm_num) (by omega)
  have hhalf := two_pow_bits_half w
  have hb : D < (if u then 2 ^ w.bits else 2 ^ (w.bits - 1)) := by omega
  have e1 : ((2 ^ w.bits : Nat) : Int) = 2 ^ w.bits := by push_cast; rfl
  have e2 : ((2 ^ (w.bits - 1) : Nat) : Int) = 2 ^ (w.bits - 1) := by push_cast; rfl
  cases u <;> cases neg <;> simp [typeMin, typeMax, signedVal] at hb hneg ⊢ <;> omega

/-- The overflow-checked entry points on an input made of an optional minus sign and `n`
digits whose value is outside the range of the type return `NULL`. `endp` is the `end` of
the entry point: the end of the digits when there is a size; otherwise the digits are
followed by a non-digit. -/
theorem define_overflow (w : Width) (u : Bool) (pol : Policy) (mem : Mem) (p n endp : Nat)
    (neg : Bool) (hco : pol.check_overflow = true)
    (hsign : neg = true → u = false ∧ byteAt mem p = 45)
    (hn : 1 ≤ n)
    (hdig : ∀ i, i < n → isDigit (byteAt mem (p + signLen neg + i)) = true)
    (hEe : p + signLen neg + n ≤ endp)
    (hstop : p + signLen neg + n = endp ∨
      (pol.check_input = true ∧ isDigit (byteAt mem (p + signLen neg + n)) = false))
    (hsize : pol.has_size = true → endp = p + signLen neg + n)
    (hout : signedVal neg (decVal mem (p + signLen neg) n) < typeMin w u ∨
      typeMax w u < signedVal neg (decVal mem (p + signLen neg) n)) :
    define w u pol mem 0 p endp = Ret.null 0 := by
  have hdig' : ∀ a, p + signLen neg ≤ a → a < p + signLen neg + n →
      isDigit (byteAt mem a) = true := by
    intro a h1 h2
    have := hdig (a - (p + signLen neg)) (by omega)
    rwa [show p + signLen neg + (a - (p + signLen neg)) = a by omega] at this
  have hfirst : neg = false → byteAt mem p ≠ 45 := by
    intro h
    have := hdig 0 hn
    rw [h] at this
    exact isDigit_ne_minus _ (by simpa [signLen] using this)
  have hnegeq := negative_eq u mem p neg hsign hfirst
  have hnz : byteAt mem p ≠ 0 := by
    cases hneg : neg
    · have := hdig 0 hn
      rw [hneg] at this
      exact isDigit_ne_zero _ (by simpa [signLen] using this)
    · rw [(hsign hneg).2]; norm_num
  have hlong : ¬ (signLen neg + n < _MAX_DIGITS w u) := by
    intro hs
    have := short_in_range w u neg n _ (fun h => (hsign h).1)
      (decVal_lt mem (p + signLen neg) n hdig) hs
    omega
  have hdef : define w u pol mem 0 p endp = defineBody w u pol mem 0 p endp := by
    simp only [define]
    rw [if_neg]
    intro hc
    simp only [Bool.and_eq_true, decide_eq_true_eq] at hc
    have := hsize hc.1.2
    omega
  obtain ⟨o, ho1, ho2, ho3⟩ := defineBody_run w u pol mem 0 p endp (p + signLen neg + n) neg
    hnegeq (fun h => by have := hsize h; omega) (fun _ => hnz)
    (by rw [signLen_add]; omega) hEe
    (fun a h1 h2 => hdig' a (by rw [signLen_add] at h1; exact h1) h2) hstop
  rw [signLen_add] at ho1 ho3
  have hT : (if u then 0 % 2 ^ w.bits else 0) * 10 ^ (p + signLen neg + n - (p + signLen neg))
      + decVal mem (p + signLen neg) (p + signLen neg + n - (p + signLen neg))
      = decVal mem (p + signLen neg) n := by
    rw [show p + signLen neg + n - (p + signLen neg) = n by omega]
    cases u <;> simp
  rw [hT] at ho3
  rw [hdef, ho1]
  cases o with
  | none => rfl
  | some r1 =>
    obtain ⟨_, h2, _, h4⟩ := ho3 r1 rfl
    have hfin := finish_out_of_range w u pol mem (p + signLen neg) (p + signLen neg + n) neg 0
      r1 (by omega) hco hdig' (fun h => (hsign h).1)
    rw [show p + signLen neg + n - (p + signLen neg) = n by omega] at hfin
    simp only [retOf]
    exact hfin hout h2 (h4 hco)

/-- C2: for every width and signedness and every input made of an optional minus sign
(signed types only) followed by `n ≥ 1` decimal digits whose value is greater than the
maximum or less than the minimum of the type, every overflow-checked entry point called
with `*result = 0` returns `NULL`: `parse` when a non-digit follows the digits, `parse_all`
when the null byte follows them, and `parse_n`, `parse_all_n` and `parse_novalidate` when
the size is the length of the input, whatever follows it. -/
theorem overflow_fails (w : Width) (u : Bool) (mem : Mem) (p n : Nat) (neg : Bool)
    (hsign : neg = true → u = false ∧ byteAt mem p = 45)
    (hn : 1 ≤ n)
    (hdig : ∀ i, i < n → isDigit (byteAt mem (p + signLen neg + i)) = true)
    (haddr : p + signLen neg + n < 2 ^ 64)
    (hout : signedVal neg (decVal mem (p + signLen neg) n) < typeMin w u ∨
      typeMax w u < signedVal neg (decVal mem (p + signLen neg) n)) :
    (isDigit (byteAt mem (p + signLen neg + n)) = false → parse w u mem 0 p = Ret.null 0) ∧
    (byteAt mem (p + signLen neg + n) = 0 → parse_all w u mem 0 p = Ret.null 0) ∧
    parse_n w u mem 0 p (signLen neg + n) = Ret.null 0 ∧
    parse_all_n w u mem 0 p (signLen neg + n) = Ret.null 0 ∧
    parse_novalidate w u mem 0 p (signLen neg + n) = Ret.null 0 := by
  have hlt : p + signLen neg + n ≤ ptrMax := by simp only [ptrMax]; omega
  refine ⟨fun h => ?_, fun h => ?_, ?_, ?_, ?_⟩
  · exact define_overflow w u parsePolicy mem p n ptrMax neg rfl hsign hn hdig hlt
      (Or.inr ⟨rfl, h⟩) (fun h => by simp [parsePolicy] at h) hout
  · exact define_overflow w u parseAllPolicy mem p n ptrMax neg rfl hsign hn hdig hlt
      (Or.inr ⟨rfl, by rw [h]; rfl⟩) (fun h => by simp [parseAllPolicy] at h) hout
  · exact define_overflow w u parseNPolicy mem p n _ neg rfl hsign hn hdig (by omega)
      (Or.inl (by omega)) (fun _ => by omega) hout
  · exact define_overflow w u parseAllNPolicy mem p n _ neg rfl hsign hn hdig (by omega)
      (Or.inl (by omega)) (fun _ => by omega) hout
  · exact define_overflow w u parseNovalidatePolicy mem p n _ neg rfl hsign hn hdig (by omega)
      (Or.inl (by omega)) (fun _ => by omega) hout

set_option maxRecDepth 100000 in
/-- The three overflowing strings of the tests: `parse_u128` fails on 2^128, and
`parse_64` fails on 2^63 and on -2^63 - 1. -/
theorem overflow_fails_witness :
    parse Width.w128 true
        (memOf 16 (bytesOf "340282366920938463463374607431768211456") 49) 0 16 = Ret.null 0 ∧
    parse Width.w64 false (memOf 16 (bytesOf "9223372036854775808") 49) 0 16 = Ret.null 0 ∧
    parse Width.w64 false (memOf 16 (bytesOf "-9223372036854775809") 49) 0 16 = Ret.null 0 ∧
    parse_all_n Width.w64 false (memOf 16 (bytesOf "-9223372036854775809") 49) 0 16 20
      = Ret.null 0 :=
  ⟨(overflow_fails Width.w128 true
      (memOf 16 (bytesOf "340282366920938463463374607431768211456") 49) 16 39 false
      (by decide) (by decide) (by decide) (by decide) (by decide)).1 (by decide),
    (overflow_fails Width.w64 false (memOf 16 (bytesOf "9223372036854775808") 49) 16 19 false
      (by decide) (by decide) (by decide) (by decide) (by decide)).1 (by decide),
    (overflow_fails Width.w64 false (memOf 16 (bytesOf "-9223372036854775809") 49) 16 19 true
      (by decide) (by decide) (by decide) (by decide) (by decide)).1 (by decide),
    (overflow_fails Width.w64 false (memOf 16 (bytesOf "-9223372036854775809") 49) 16 19 true
      (by decide) (by decide) (by decide) (by decide) (by decide)).2.2.2.1⟩

/-! ## Trailing junk -/

/-- The body of an exact, input-validating function returns `NULL` when the digits are
followed, before `end`, by a non-digit: any non-digit when there is a size, any but the null
byte in a null terminated input. -/
theorem defineBody_exact_junk (w : Width) (u : Bool) (pol : Policy) (mem : Mem)
    (result p endp j : Nat) (hex : pol.is_exact = true) (hci : pol.check_input = true)
    (hj1 : p + signLen (!u && decide (byteAt mem p = 45)) ≤ j) (hj2 : j < endp)
    (hjnd : isDigit (byteAt mem j) = false)
    (hkind : pol.has_size = true ∨
      (pol.is_null_terminated = true ∧ ∀ a, p ≤ a → a ≤ j → byteAt mem a ≠ 0)) :
    defineBody w u pol mem result p endp = Ret.null result := by
  classical
  have hexist : ∃ a, p + signLen (!u && decide (byteAt mem p = 45)) ≤ a ∧
      isDigit (byteAt mem a) = false := ⟨j, hj1, hjnd⟩
  obtain ⟨h1, h2⟩ := Nat.find_spec hexist
  have hmin : ∀ a, p + signLen (!u && decide (byteAt mem p = 45)) ≤ a → a < Nat.find hexist →
      isDigit (byteAt mem a) = true := by
    intro a ha1 ha2
    by_contra hc
    exact Nat.find_min hexist ha2 ⟨ha1, by simpa using hc⟩
  have hlej : Nat.find hexist ≤ j := Nat.find_min' hexist ⟨hj1, hjnd⟩
  generalize Nat.find hexist = E at h1 h2 hmin hlej
  by_cases hfirst : E = p + signLen (!u && decide (byteAt mem p = 45))
  · rw [hfirst] at h2
    exact defineBody_nodigit w u pol mem result p endp hci h2
  · have hpE : p ≤ E := by omega
    by_cases g2 : (pol.is_null_terminated && decide (byteAt mem p = 0)) = true
    · simp only [defineBody]
      by_cases g1 : (pol.has_size && decide (endp ≤ p)) = true
      · rw [if_pos g1]
      · rw [if_neg g1, if_pos g2]
    obtain ⟨o, ho1, _, ho3⟩ := defineBody_run w u pol mem result p endp E
      (!u && decide (byteAt mem p = 45)) rfl (fun _ => by omega)
      (fun hnt h0 => g2 (by simp [hnt, h0]))
      (by rw [signLen_add]; omega) (by omega)
      (fun a ha1 ha2 => hmin a (by rw [signLen_add] at ha1; exact ha1) ha2)
      (Or.inr ⟨hci, h2⟩)
    rw [ho1]
    cases o with
    | none => rfl
    | some r1 =>
      exfalso
      apply (ho3 r1 rfl).1
      refine ⟨hex, hci, h2, by omega, ?_⟩
      rcases hkind with hk | hk
      · exact Or.inl hk
      · exact Or.inr ⟨hk.1, hk.2 E hpE hlej⟩

/-- C7: the exact-match entry points fail on junk. `parse_all_n(result, p, n)` returns
`NULL` when a byte of `p[0..n)` other than a leading minus sign (signed types only) is not
a decimal digit; `parse_all(result, p)` returns `NULL` when the null terminated string at
`p` holds a character `j` other than a leading minus sign that is not a decimal digit (no
null byte lies at or before `j`; the string lies in the 64 bit address space). -/
theorem exact_fails_on_junk (w : Width) (u : Bool) (mem : Mem) (result p j : Nat)
    (hj1 : p + signLen (!u && decide (byteAt mem p = 45)) ≤ j)
    (hjnd : isDigit (byteAt mem j) = false) :
    (∀ n, j < p + n → parse_all_n w u mem result p n = Ret.null result) ∧
    ((∀ a, p ≤ a → a ≤ j → byteAt mem a ≠ 0) → j < 2 ^ 64 - 1 →
      parse_all w u mem result p = Ret.null result) := by
  constructor
  · intro n hj2
    simp only [parse_all_n, define, parse_nooverflow]
    have e : p + (p + n - p) = p + n := by omega
    split
    · rw [if_pos (show parseAllNPolicy.check_input = true from rfl), e]
      exact defineBody_exact_junk w u _ mem result p (p + n) j rfl rfl hj1 hj2 hjnd
        (Or.inl rfl)
    · exact defineBody_exact_junk w u _ mem result p (p + n) j rfl rfl hj1 hj2 hjnd
        (Or.inl rfl)
  · intro hnz haddr
    have hdef : parse_all w u mem result p = defineBody w u parseAllPolicy mem result p ptrMax := by
      simp [parse_all, define, parseAllPolicy]
    rw [hdef]
    exact defineBody_exact_junk w u _ mem result p ptrMax j rfl rfl hj1
      (by simp only [ptrMax]; omega) hjnd (Or.inr ⟨rfl, hnz⟩)

/-- The function `parse_all_n_64` fails on "1-1" with size 3, and `parse_all_64` fails on
"1_123". -/
theorem exact_fails_on_junk_witness :
    parse_all_n Width.w64 false (memOf 16 (bytesOf "1-1") 49) 0 16 3 = Ret.null 0 ∧
    parse_all Width.w64 false (memOf 16 (bytesOf "1_123") 49) 0 16 = Ret.null 0 :=
  ⟨(exact_fails_on_junk Width.w64 false (memOf 16 (bytesOf "1-1") 49) 0 16 17
      (by decide) (by decide)).1 3 (by decide),
    (exact_fails_on_junk Width.w64 false (memOf 16 (bytesOf "1_123") 49) 0 16 17
      (by decide) (by decide)).2 (by decide) (by decide)⟩

/-! ## Printing and parsing back -/

theorem digit_value_eq (w : Width) (j : Nat) (h : 10 ^ j < 2 ^ w.bits) :
    digit_value w j = 10 ^ j := by
  induction j with
  | zero => rfl
  | succ j ih =>
    have h1 : 10 ^ j < 2 ^ w.bits := by
      have : 10 ^ j ≤ 10 ^ (j + 1) := Nat.pow_le_pow_right (by norm_num) (by omega)
      omega
    rw [digit_value, ih h1, ← pow_succ, Nat.mod_eq_of_lt h]

theorem topDigit_spec (w : Width) (vu : Nat) (k : Nat) (hk : 10 ^ k < 2 ^ w.bits)
    (hvu : vu < 10 ^ (k + 1)) :
    topDigit w vu k ≤ k ∧ vu < 10 ^ (topDigit w vu k + 1) := by
  induction k with
  | zero => exact ⟨le_refl _, hvu⟩
  | succ k ih =>
    have h1 : 10 ^ k < 2 ^ w.bits := by
      have : 10 ^ k ≤ 10 ^ (k + 1) := Nat.pow_le_pow_right (by norm_num) (by omega)
      omega
    rw [topDigit, digit_value_eq w (k + 1) hk]
    by_cases hge : vu ≥ 10 ^ (k + 1)
    · rw [if_pos hge]; exact ⟨le_refl _, hvu⟩
    · rw [if_neg hge]
      obtain ⟨i1, i2⟩ := ih h1 (by omega)
      exact ⟨by omega, i2⟩

theorem printDigits_length (w : Width) (j : Nat) : ∀ vu, (printDigits w j vu).length = j := by
  induction j with
  | zero => intro vu; rfl
  | succ j ih => intro vu; simp [printDigits, ih]

theorem printDigits_spec (w : Width) (mem : Mem) (j : Nat) :
    ∀ vu a, vu < 10 ^ j → vu < 2 ^ w.bits → (1 ≤ j → 10 ^ (j - 1) < 2 ^ w.bits) →
      (∀ i, i < j → byteAt mem (a + i) = (printDigits w j vu).getD i 0) →
      (∀ i, i < j → isDigit (byteAt mem (a + i)) = true) ∧ decVal mem a j = vu := by
  induction j with
  | zero =>
    intro vu a h _ _ _
    simp at h
    subst h
    exact ⟨fun i hi => by omega, rfl⟩
  | succ j ih =>
    intro vu a hvu hvuM hM hmem
    have hM' : 10 ^ j < 2 ^ w.bits := by simpa using hM (by omega)
    have hpos : 0 < 10 ^ j := Nat.pow_pos (by norm_num)
    have hdigit : vu / 10 ^ j < 10 := by
      rw [Nat.div_lt_iff_lt_mul hpos, Nat.mul_comm, ← pow_succ]; exact hvu
    have hmul : vu / 10 ^ j * 10 ^ j ≤ vu := Nat.div_mul_le_self _ _
    have hmodlt := Nat.mod_lt vu hpos
    have hmod := Nat.div_add_mod vu (10 ^ j)
    rw [Nat.mul_comm] at hmod
    have hrest : (vu + 2 ^ w.bits - (vu / 10 ^ j * 10 ^ j) % 2 ^ w.bits) % 2 ^ w.bits
        = vu % 10 ^ j := by
      generalize vu / 10 ^ j * 10 ^ j = X at hmul hmod ⊢
      rw [Nat.mod_eq_of_lt (by omega : X < 2 ^ w.bits),
        show vu + 2 ^ w.bits - X = vu % 10 ^ j + 2 ^ w.bits by omega,
        Nat.add_mod_right, Nat.mod_eq_of_lt (by omega)]
    have h0 := hmem 0 (by omega)
    simp only [printDigits, digit_value_eq w j hM', List.getD_cons_zero, Nat.add_zero] at h0
    rw [Nat.mod_eq_of_lt (by omega)] at h0
    obtain ⟨i1, i2⟩ := ih (vu % 10 ^ j) (a + 1) (Nat.mod_lt _ hpos) (by omega)
      (fun h1 => by
        have : 10 ^ (j - 1) ≤ 10 ^ j := Nat.pow_le_pow_right (by norm_num) (by omega)
        omega)
      (fun i hi => by
        have := hmem (i + 1) (by omega)
        simp only [printDigits, digit_value_eq w j hM', List.getD_cons_succ, hrest] at this
        rw [← this]; congr 1; omega)
    refine ⟨?_, ?_⟩
    · intro i hi
      cases i with
      | zero => simp [isDigit, h0]; omega
      | succ i =>
        have := i1 i (by omega)
        rwa [show a + 1 + i = a + (i + 1) by omega] at this
    · rw [decVal_cons, i2, h0, Nat.add_sub_cancel_left]
      exact hmod

theorem max_digits_spec (w : Width) :
    10 ^ (max_digits w.sizeof - 1).toNat < 2 ^ w.bits ∧
      2 ^ w.bits ≤ 10 ^ ((max_digits w.sizeof - 1).toNat + 1) := by
  cases w <;> decide

/-- C3 (round trip): for every value `v` of each supported type, the minimum and the
maximum included, `parse` on the null terminated rendering of `v` by `dumb_print_number`
(an optional minus sign, then the digits without leading zeros) succeeds, consumes the
whole rendering and stores `v`. -/
theorem round_trip (w : Width) (u : Bool) (v : Int) (mem : Mem) (p : Nat)
    (hmin : typeMin w u ≤ v) (hmax : v ≤ typeMax w u)
    (hmem : ∀ i, i < (dumb_print_number w v).length →
      byteAt mem (p + i) = (dumb_print_number w v).getD i 0)
    (hnull : byteAt mem (p + (dumb_print_number w v).length) = 0)
    (haddr : p + (dumb_print_number w v).length < 2 ^ 64) :
    parse w u mem 0 p = Ret.ok (p + (dumb_print_number w v).length) (encode w v) ∧
      asValue w u (encode w v) = v := by
  refine ⟨?_, asValue_encode w u v hmin hmax⟩
  have hhalf := two_pow_bits_half w
  have hposI : (0 : Int) < 2 ^ (w.bits - 1) := by positivity
  have e1 : ((2 ^ w.bits : Nat) : Int) = 2 ^ w.bits := by push_cast; rfl
  have e2 : ((2 ^ (w.bits - 1) : Nat) : Int) = 2 ^ (w.bits - 1) := by push_cast; rfl
  -- the magnitude and the sign of `v`
  obtain ⟨vu, neg, hv, hvu, hnegu, hnegv⟩ : ∃ (vu : Nat) (neg : Bool),
      v = signedVal neg vu ∧ vu < 2 ^ w.bits ∧ (neg = true → u = false) ∧
      (neg = true ↔ v < 0) := by
    by_cases hneg : v < 0
    · refine ⟨(-v).toNat, true, by simp [signedVal]; omega, ?_, ?_, by simp [hneg]⟩
      · cases u <;> simp [typeMin] at hmin <;> omega
      · intro _
        cases u
        · rfl
        · simp [typeMin] at hmin; omega
    · refine ⟨v.toNat, false, by simp [signedVal]; omega, ?_, by simp, by simp [hneg]⟩
      cases u <;> simp [typeMax] at hmax <;> omega
  have hprint : dumb_print_number w v
      = (if neg then [45] else []) ++
          printDigits w (topDigit w vu (max_digits w.sizeof - 1).toNat + 1) vu := by
    have hvalue : (if v < 0 then ((-(v + 1)).toNat % 2 ^ w.bits + 1) % 2 ^ w.bits
        else v.toNat % 2 ^ w.bits) = vu := by
      cases neg
      · have : ¬ v < 0 := by rw [← hnegv]; simp
        rw [if_neg this, hv]
        simp only [signedVal, Bool.false_eq_true, if_false, Int.toNat_ofNat]
        exact Nat.mod_eq_of_lt hvu
      · have : v < 0 := hnegv.1 rfl
        rw [if_pos this, hv]
        simp only [signedVal, if_true]
        have hpos : 0 < vu := by
          rw [hv] at this; simp [signedVal] at this; omega
        have e : (-(-(vu : Int) + 1)).toNat = vu - 1 := by omega
        have a1 : (vu - 1) % 2 ^ w.bits = vu - 1 := Nat.mod_eq_of_lt (by omega)
        rw [e, a1, Nat.sub_add_cancel hpos, Nat.mod_eq_of_lt hvu]
    have hsign : (if v < 0 then [45] else []) = (if neg then [45] else ([] : List Nat)) := by
      cases neg
      · have : ¬ v < 0 := by rw [← hnegv]; simp
        simp [this]
      · have : v < 0 := hnegv.1 rfl
        simp [this]
    simp only [dumb_print_number, hvalue, hsign]
  obtain ⟨m1, m2⟩ := max_digits_spec w
  obtain ⟨t1, t2⟩ := topDigit_spec w vu (max_digits w.sizeof - 1).toNat m1 (by omega)
  generalize topDigit w vu (max_digits w.sizeof - 1).toNat = i at hprint t1 t2
  have hlen : (dumb_print_number w v).length = signLen neg + (i + 1) := by
    rw [hprint, List.length_append, printDigits_length]
    cases neg <;> simp [signLen]
  have hMi : 10 ^ i < 2 ^ w.bits := by
    have : 10 ^ i ≤ 10 ^ (max_digits w.sizeof - 1).toNat :=
      Nat.pow_le_pow_right (by norm_num) t1
    omega
  have hdigmem : ∀ k, k < i + 1 →
      byteAt mem (p + signLen neg + k) = (printDigits w (i + 1) vu).getD k 0 := by
    intro k hk
    have := hmem (signLen neg + k) (by omega)
    rw [← Nat.add_assoc] at this
    rw [this, hprint]
    cases neg
    · simp [signLen]
    · simp [signLen, Nat.add_comm 1 k]
  obtain ⟨d1, d2⟩ := printDigits_spec w mem (i + 1) vu (p + signLen neg) t2 hvu
    (fun _ => by simpa using hMi) hdigmem
  have hsign : neg = true → u = false ∧ byteAt mem p = 45 := by
    intro h
    refine ⟨hnegu h, ?_⟩
    have := hmem 0 (by omega)
    rw [hprint, h] at this
    simpa using this
  have hstop : isDigit (byteAt mem (p + signLen neg + (i + 1))) = false := by
    rw [Nat.add_assoc, ← hlen, hnull]; rfl
  have key := define_valid_unsized w u parsePolicy mem p (i + 1) neg rfl rfl rfl
    (fun h => by simp [parsePolicy] at h) hsign (by omega) d1 hstop
    (by rw [Nat.add_assoc, ← hlen]; exact haddr)
    (by rw [d2, ← hv]; exact hmin) (by rw [d2, ← hv]; exact hmax)
  rw [d2, ← hv, Nat.add_assoc, ← hlen] at key
  exact key

/-- The signed 32 bit minimum is printed as "-2147483648" and parsed back from an
unaligned address. -/
theorem round_trip_witness :
    dumb_print_number Width.w32 (-2147483648) = bytesOf "-2147483648" ∧
      parse Width.w32 false (memOf 17 (dumb_print_number Width.w32 (-2147483648)) 49) 0 17
        = Ret.ok 28 (encode Width.w32 (-2147483648)) ∧
      asValue Width.w32 false (encode Width.w32 (-2147483648)) = -2147483648 :=
  ⟨by decide,
    round_trip Width.w32 false (-2147483648)
      (memOf 17 (dumb_print_number Width.w32 (-2147483648)) 49) 17
      (by decide) (by decide) (by decide) (by decide) (by decide)⟩

/-! ## Sized entry points: where the code leaves its documentation -/

/-- C5 fails on the code: `parse_all_n_64(result, p, 2)` on the two digits "12" depends on
the bytes stored after `p + 2`. At a 4-byte aligned `p`, with '3' and the null byte after
the two digits the call returns `NULL` (the scan of the chunk finds its first non-digit at
`p + 3`, which is not `end`), while with "34" or with the null byte after them it returns
`p + 2` and stores 12, as C5 says it does in all three cases. -/
theorem parse_all_n_depends_on_bytes_after_size :
    parse_all_n Width.w64 false (memOf 16 (bytesOf "123") 49) 0 16 2 = Ret.null 0 ∧
    parse_all_n Width.w64 false (memOf 16 (bytesOf "1234") 49) 0 16 2 = Ret.ok 18 12 ∧
    parse_all_n Width.w64 false (memOf 16 (bytesOf "12") 49) 0 16 2 = Ret.ok 18 12 := by
  decide

/-- C6 fails on the code: `parse_n_int` on "12ab" with size 4 returns `NULL` instead of
`p + 2` with the value 12, because a size below `_MAX_DIGITS` is handed to the exact-match
`parse_nooverflow`. With a size of at least `_MAX_DIGITS` (here 10, the bytes after "12ab"
being null) the same text is parsed as documented: the call stops at the first non-digit. -/
theorem parse_n_short_size_rejects_junk :
    parse_n Width.w32 false (memOf 16 (bytesOf "12ab") 49) 0 16 4 = Ret.null 0 ∧
    parse_nooverflow Width.w32 false (memOf 16 (bytesOf "12ab") 49) 0 16 4 = Ret.null 0 ∧
    parse_n Width.w32 false (memOf 16 (bytesOf "12ab") 49) 0 16 10 = Ret.ok 18 12 := by
  decide

/-! ## The chunk macros on arbitrary words -/

theorem testBit_map (m0 m1 m2 m3 k : Nat) (h0 : m0 = 0 ∨ m0 = 128) (h1 : m1 = 0 ∨ m1 = 128)
    (h2 : m2 = 0 ∨ m2 = 128) (h3 : m3 = 0 ∨ m3 = 128) (hk : k < 4) :
    (mk4 m0 m1 m2 m3).testBit (8 * k + 7) = true ↔
      (if k = 0 then m0 else if k = 1 then m1 else if k = 2 then m2 else m3) = 128 := by
  rw [Nat.testBit_to_div_mod, decide_eq_true_eq]
  simp only [mk4]
  interval_cases k <;> norm_num <;> omega

/-- The lanes of the map of non-digits: lane `k` is marked exactly when it holds a
non-digit, or holds 9 and the addition of `_REPEAT(0x7f - 9)` = 0x76767676 carries out of
the bytes below it; and there is no such carry when no lower lane holds a byte of 0x8a or
more. -/
theorem map_lane_spec (a b c d k : Nat) (ha : a < 256) (hb : b < 256) (hc : c < 256)
    (hd : d < 256) (hk : k < 4) :
    ((_MAP_OF_NON_DIGITS (mk4 a b c d)).testBit (8 * k + 7) = true ↔
      (9 < (if k = 0 then a else if k = 1 then b else if k = 2 then c else d) ∨
        ((if k = 0 then a else if k = 1 then b else if k = 2 then c else d) = 9 ∧
          256 ^ k ≤ mk4 a b c d % 256 ^ k + 1987475062 % 256 ^ k))) ∧
    ((0 < k → a < 138) → (1 < k → b < 138) → (2 < k → c < 138) →
      mk4 a b c d % 256 ^ k + 1987475062 % 256 ^ k < 256 ^ k) := by
  have hk' : k = 0 ∨ k = 1 ∨ k = 2 ∨ k = 3 := by omega
  refine ⟨?_, ?_⟩
  · rw [MAP_OF_NON_DIGITS_eq a b c d ha hb hc,
      testBit_map _ _ _ _ k (mapLane_cases _ _) (mapLane_cases _ _) (mapLane_cases _ _)
        (mapLane_cases _ _) hk]
    simp only [lane_zero, lane_one, lane_two, lane_three,
      show (2 : Nat) ^ 32 = 4294967296 from rfl]
    generalize hS : (mk4 a b c d + mk4 118 118 118 118) % 4294967296 = S
    simp only [mk4] at hS ⊢
    simp only [mapLane]
    rcases hk' with rfl | rfl | rfl | rfl
    · simp only [if_true, pow_zero]
      split_ifs with h
      · refine ⟨fun _ => ?_, fun _ => rfl⟩
        by_contra hc'
        omega
      · refine ⟨fun h0 => h0.elim, fun hr => ?_⟩
        omega
    · simp only [one_ne_zero, if_false, if_true, pow_one]
      split_ifs with h
      · refine ⟨fun _ => ?_, fun _ => rfl⟩
        by_contra hc'
        omega
      · refine ⟨fun h0 => h0.elim, fun hr => ?_⟩
        omega
    · simp only [OfNat.ofNat_ne_zero, OfNat.ofNat_ne_one, if_false, if_true,
        show (256 : Nat) ^ 2 = 65536 from rfl]
      split_ifs with h
      · refine ⟨fun _ => ?_, fun _ => rfl⟩
        by_contra hc'
        omega
      · refine ⟨fun h0 => h0.elim, fun hr => ?_⟩
        omega
    · simp only [OfNat.ofNat_ne_zero, OfNat.ofNat_ne_one, if_false,
        show (3 : Nat) ≠ 2 by norm_num, show (256 : Nat) ^ 3 = 16777216 from rfl]
      split_ifs with h
      · refine ⟨fun _ => ?_, fun _ => rfl⟩
        by_contra hc'
        omega
      · refine ⟨fun h0 => h0.elim, fun hr => ?_⟩
        omega
  · intro h0 h1 h2
    simp only [mk4]
    rcases hk' with rfl | rfl | rfl | rfl
    · simp only [pow_zero]; omega
    · have := h0 (by omega)
      simp only [pow_one]; omega
    · have := h0 (by omega)
      have := h1 (by omega)
      simp only [show (256 : Nat) ^ 2 = 65536 from rfl]; omega
    · have := h0 (by omega)
      have := h1 (by omega)
      have := h2 (by omega)
      simp only [show (256 : Nat) ^ 3 = 16777216 from rfl]; omega

theorem lane_mk4 (x k : Nat) (hk : k < 4) :
    (if k = 0 then lane x 0 else if k = 1 then lane x 1 else if k = 2 then lane x 2
      else lane x 3) = lane x k := by
  interval_cases k <;> simp

/-- C17, as the code has it: in the portable 4-byte mode, for every 32 bit lane group and
every lane `k` in 0..3, bit 0x80 of lane `k` of `_MAP_OF_NON_DIGITS(value)` is set whenever
byte `k` of `value` is greater than 9; and it is set if and only if byte `k` is greater
than 9 for every lane `k` below which no lane holds a byte of 0x8a or more, in particular
for every lane up to and including the first one that holds a non-digit. In general the bit
is set exactly when byte `k` is greater than 9, or byte `k` is 9 and the addition
`(value) + _REPEAT(0x7f - 9)` carries out of the `k` bytes below lane `k`. -/
theorem map_marks_non_digits (value k : Nat) (hv : value < 2 ^ 32) (hk : k < 4) :
    (9 < lane value k → (_MAP_OF_NON_DIGITS value).testBit (8 * k + 7) = true) ∧
    ((∀ i, i < k → lane value i < 0x8a) →
      ((_MAP_OF_NON_DIGITS value).testBit (8 * k + 7) = true ↔ 9 < lane value k)) ∧
    ((_MAP_OF_NON_DIGITS value).testBit (8 * k + 7) = true ↔
      (9 < lane value k ∨
        (lane value k = 9 ∧ 256 ^ k ≤ value % 256 ^ k + _REPEAT (0x7f - 9) % 256 ^ k))) := by
  have h := map_lane_spec (lane value 0) (lane value 1) (lane value 2) (lane value 3) k
    (lane_lt _ _) (lane_lt _ _) (lane_lt _ _) (lane_lt _ _) hk
  rw [← mk4_lanes value hv, lane_mk4 value k hk] at h
  have hr : _REPEAT (0x7f - 9) = 1987475062 := by rfl
  rw [hr]
  refine ⟨fun h9 => h.1.2 (Or.inl h9), fun hl => ?_, h.1⟩
  have hno := h.2 (fun h0 => hl 0 h0) (fun h1 => hl 1 h1) (fun h2 => hl 2 h2)
  constructor
  · intro hm
    rcases h.1.1 hm with h9 | ⟨_, hc⟩
    · exact h9
    · omega
  · intro h9
    exact h.1.2 (Or.inl h9)

/-- In the word 0x0000b98a lane 1 holds the non-digit 0xb9 and is marked. In 0x00000989
lane 1 holds the digit 9 above the byte 0x89, which carries nothing, and is not marked. In
0x0000098a lane 1 holds the digit 9 above the byte 0x8a, which carries. -/
theorem map_marks_non_digits_witness :
    (_MAP_OF_NON_DIGITS 0x0000b98a).testBit 15 = true ∧
      ((_MAP_OF_NON_DIGITS 0x00000989).testBit 15 = true ↔ 9 < lane 0x00000989 1) ∧
      ((_MAP_OF_NON_DIGITS 0x0000098a).testBit 15 = true ↔
        (9 < lane 0x0000098a 1 ∨
          (lane 0x0000098a 1 = 9 ∧
            256 ^ 1 ≤ 0x0000098a % 256 ^ 1 + _REPEAT (0x7f - 9) % 256 ^ 1))) :=
  ⟨(map_marks_non_digits 0x0000b98a 1 (by decide) (by decide)).1 (by decide),
    (map_marks_non_digits 0x00000989 1 (by decide) (by decide)).2.1 (by decide),
    (map_marks_non_digits 0x0000098a 1 (by decide) (by decide)).2.2⟩

/-- C17 fails as stated: in the word 0x0000098a lane 0 holds 0x8a, whose addition carries
into lane 1, and lane 1 is marked although it holds the digit 9. -/
theorem map_marks_digit_after_carry :
    ¬ (∀ value k, value < 2 ^ 32 → k < 4 →
        ((_MAP_OF_NON_DIGITS value).testBit (8 * k + 7) = true ↔ 9 < lane value k)) := by
  intro h
  have h1 := h 0x0000098a 1 (by decide) (by decide)
  revert h1
  decide

/-- C18: in the portable 4-byte mode, for every 32 bit lane group (each byte already XORed
with '0'), `_MAP_HAS_NON_DIGITS(_MAP_OF_NON_DIGITS(value))` is false if and only if all four
bytes are at most 9, and otherwise `_DIGITS_IN_MAP(_MAP_OF_NON_DIGITS(value))` is the number
of leading (lowest address) bytes that are at most 9: it is `k` when the bytes below lane
`k` are at most 9 and byte `k` is not. -/
theorem first_non_digit_position (value : Nat) (hv : value < 2 ^ 32) :
    (_MAP_HAS_NON_DIGITS (_MAP_OF_NON_DIGITS value) = false ↔ ∀ k, k < 4 → lane value k ≤ 9) ∧
    (∀ k, k < 4 → (∀ i, i < k → lane value i ≤ 9) → 9 < lane value k →
      _MAP_HAS_NON_DIGITS (_MAP_OF_NON_DIGITS value) = true ∧
        _DIGITS_IN_MAP (_MAP_OF_NON_DIGITS value) = k) := by
  have hfirst : ∀ k, k < 4 → (∀ i, i < k → lane value i ≤ 9) → 9 < lane value k →
      _MAP_HAS_NON_DIGITS (_MAP_OF_NON_DIGITS value) = true ∧
        _DIGITS_IN_MAP (_MAP_OF_NON_DIGITS value) = k := by
    intro k hk hlow hhigh
    have h := MAP_first (lane value 0) (lane value 1) (lane value 2) (lane value 3) k
      (lane_lt _ _) (lane_lt _ _) (lane_lt _ _) (lane_lt _ _) hk
      (by split
          · exact hlow 0 (by omega)
          · have : k = 0 := by omega
            subst this; exact hhigh)
      (by split
          · exact hlow 1 (by omega)
          · intro h1; subst h1; exact hhigh)
      (by split
          · exact hlow 2 (by omega)
          · intro h1; subst h1; exact hhigh)
      (by intro h1; subst h1; exact hhigh)
    rwa [← mk4_lanes value hv] at h
  refine ⟨⟨?_, ?_⟩, hfirst⟩
  · intro hno k hk
    by_contra hc
    have hall : ¬ ∀ i, 0 ≤ i → i < 4 → lane value i ≤ 9 := fun h => hc (h k (by omega) hk)
    obtain ⟨j, _, hj2, hj3, hj4⟩ := first_non_digit (fun i => lane value i ≤ 9) 0 hall
    have := (hfirst j hj2 (fun i hi => hj4 i (by omega) hi) (by omega)).1
    rw [hno] at this
    exact absurd this (by decide)
  · intro hall
    have h := MAP_zero (lane value 0) (lane value 1) (lane value 2) (lane value 3)
      (hall 0 (by norm_num)) (hall 1 (by norm_num)) (hall 2 (by norm_num))
      (hall 3 (by norm_num))
    rw [← mk4_lanes value hv] at h
    rw [h]; rfl

/-- The word 0x8a0a0905 has the digits 5 and 9 in its two lowest lanes and non-digits
above: the map has a set bit and two leading digits are counted, although the byte 0x8a of
the highest lane carries out of the word. -/
theorem first_non_digit_position_witness :
    _MAP_HAS_NON_DIGITS (_MAP_OF_NON_DIGITS 0x8a0a0905) = true ∧
      _DIGITS_IN_MAP (_MAP_OF_NON_DIGITS 0x8a0a0905) = 2 :=
  (first_non_digit_position 0x8a0a0905 (by decide)).2 2 (by decide) (by decide) (by decide)

/-- C19: in the portable 4-byte mode, for every lane group whose four bytes `b0`, `b1`,
`b2`, `b3` (`b0` at the lowest address) are each in 0..9, `_CALCULATE_BASE_10` returns
exactly `1000*b0 + 100*b1 + 10*b2 + b3`. It does so in two fold steps: the first leaves
`10*b0 + b1` and `10*b2 + b3` in the two 16 bit halves, each at most 99 and so without a
carry between them, and the second multiplies by `1 + (100 << 16)` and shifts. -/
theorem calculate_base_10_digits (b0 b1 b2 b3 : Nat) (h0 : b0 ≤ 9) (h1 : b1 ≤ 9)
    (h2 : b2 ≤ 9) (h3 : b3 ≤ 9) :
    _CALCULATE_BASE_10 _CHUNK_SIZE (b0 + 256 * b1 + 65536 * b2 + 16777216 * b3)
        = 1000 * b0 + 100 * b1 + 10 * b2 + b3 ∧
      (∀ bytes, _CALCULATE_BASE_10 _CHUNK_SIZE bytes = foldQuads (foldPairs bytes)) ∧
      foldPairs (b0 + 256 * b1 + 65536 * b2 + 16777216 * b3)
        = (10 * b0 + b1) + 65536 * (10 * b2 + b3) ∧
      10 * b0 + b1 ≤ 99 ∧ 10 * b2 + b3 ≤ 99 := by
  have e : b0 + 256 * b1 + 65536 * b2 + 16777216 * b3 = mk4 b0 b1 b2 b3 := by
    simp only [mk4]; omega
  have hfold : ∀ bytes, _CALCULATE_BASE_10 _CHUNK_SIZE bytes = foldQuads (foldPairs bytes) := by
    intro bytes; rfl
  refine ⟨?_, hfold, ?_, by omega, by omega⟩
  · rw [e]; exact CALCULATE_BASE_10_eq b0 b1 b2 b3 h0 h1 h2 h3
  · rw [e]
    have m1 : (0x00ff00ff : Nat) = mk4 255 0 255 0 := by rfl
    have m2 : (0xff00ff00 : Nat) = mk4 0 255 0 255 := by rfl
    rw [foldPairs, m1, m2,
      mk4_and _ _ _ _ _ _ _ _ (by omega) (by omega) (by omega) (by norm_num) (by norm_num)
        (by norm_num),
      mk4_and _ _ _ _ _ _ _ _ (by omega) (by omega) (by omega) (by norm_num) (by norm_num)
        (by norm_num),
      byte_and_255 b0 (by omega), byte_and_255 b1 (by omega), byte_and_255 b2 (by omega),
      byte_and_255 b3 (by omega)]
    simp only [Nat.and_zero, Nat.shiftRight_eq_div_pow, mk4]
    norm_num
    omega

/-- The digits 1, 2, 3, 4 (the text "1234" in memory order) give 1234. -/
theorem calculate_base_10_digits_witness :
    _CALCULATE_BASE_10 _CHUNK_SIZE (1 + 256 * 2 + 65536 * 3 + 16777216 * 4) = 1234 :=
  (calculate_base_10_digits 1 2 3 4 (by decide) (by decide) (by decide) (by decide)).1

/-! ## Empty sized inputs -/

theorem defineBody_empty (w : Width) (u : Bool) (pol : Policy) (mem : Mem)
    (result p endp : Nat) (hsz : pol.has_size = true) (h : endp ≤ p) :
    defineBody w u pol mem result p endp = Ret.null result := by
  simp only [defineBody]
  rw [if_pos (by simp [hsz, h])]

theorem defineBody_lone_minus (w : Width) (pol : Policy) (mem : Mem)
    (result p endp : Nat) (hsz : pol.has_size = true) (hm : byteAt mem p = 45)
    (h : endp ≤ p + 1) :
    defineBody w false pol mem result p endp = Ret.null result := by
  simp only [defineBody]
  by_cases g1 : (pol.has_size && decide (endp ≤ p)) = true
  · rw [if_pos g1]
  · rw [if_neg g1]
    by_cases g2 : (pol.is_null_terminated && decide (byteAt mem p = 0)) = true
    · rw [if_pos g2]
    · rw [if_neg g2, if_pos (by simp [hm, hsz, h])]

theorem define_empty (w : Width) (u : Bool) (pol : Policy) (mem : Mem)
    (result p : Nat) (hsz : pol.has_size = true) :
    define w u pol mem result p (p + 0) = Ret.null result := by
  simp only [define, parse_nooverflow, parse_nocheck]
  split
  · split
    · exact defineBody_empty w u _ mem result p _ rfl (by omega)
    · exact defineBody_empty w u _ mem result p _ rfl (by omega)
  · exact defineBody_empty w u pol mem result p _ hsz (by omega)

theorem define_lone_minus (w : Width) (pol : Policy) (mem : Mem)
    (result p : Nat) (hsz : pol.has_size = true) (hm : byteAt mem p = 45) :
    define w false pol mem result p (p + 1) = Ret.null result := by
  simp only [define, parse_nooverflow, parse_nocheck]
  split
  · split
    · exact defineBody_lone_minus w _ mem result p _ rfl hm (by omega)
    · exact defineBody_lone_minus w _ mem result p _ rfl hm (by omega)
  · exact defineBody_lone_minus w pol mem result p _ hsz hm (by omega)

/-- C13 (EmptyOrExhausted): for every entry point that takes a size (`parse_n`,
`parse_all_n`, `parse_nooverflow`, `parse_novalidate`, `parse_nocheck`), every width and
signedness and every starting `*result`, a call with size 0 returns `NULL`, and for the
signed types a call with size 1 on the single character '-' returns `NULL`, whatever bytes
the buffer holds elsewhere. -/
theorem empty_or_exhausted (w : Width) (u : Bool) (mem : Mem) (result p : Nat) :
    (parse_n w u mem result p 0 = Ret.null result ∧
      parse_all_n w u mem result p 0 = Ret.null result ∧
      parse_nooverflow w u mem result p 0 = Ret.null result ∧
      parse_novalidate w u mem result p 0 = Ret.null result ∧
      parse_nocheck w u mem result p 0 = Ret.null result) ∧
    (byteAt mem p = 45 →
      parse_n w false mem result p 1 = Ret.null result ∧
      parse_all_n w false mem result p 1 = Ret.null result ∧
      parse_nooverflow w false mem result p 1 = Ret.null result ∧
      parse_novalidate w false mem result p 1 = Ret.null result ∧
      parse_nocheck w false mem result p 1 = Ret.null result) :=
  ⟨⟨define_empty w u _ mem result p rfl, define_empty w u _ mem result p rfl,
      defineBody_empty w u _ mem result p _ rfl (by omega),
      define_empty w u _ mem result p rfl,
      defineBody_empty w u _ mem result p _ rfl (by omega)⟩,
    fun hm => ⟨define_lone_minus w _ mem result p rfl hm,
      define_lone_minus w _ mem result p rfl hm,
      defineBody_lone_minus w _ mem result p _ rfl hm (by omega),
      define_lone_minus w _ mem result p rfl hm,
      defineBody_lone_minus w _ mem result p _ rfl hm (by omega)⟩⟩

/-- The size 0 on the text "123" and the size 1 on the text "-5" both give `NULL`, also
for the variant that checks nothing. -/
theorem empty_or_exhausted_witness :
    parse_nocheck Width.w64 false (memOf 16 (bytesOf "123") 49) 0 16 0 = Ret.null 0 ∧
      parse_nocheck Width.w64 false (memOf 16 (bytesOf "-5") 49) 0 16 1 = Ret.null 0 :=
  ⟨(empty_or_exhausted Width.w64 false (memOf 16 (bytesOf "123") 49) 0 16).1.2.2.2.2,
    ((empty_or_exhausted Width.w64 false (memOf 16 (bytesOf "-5") 49) 0 16).2
      (by decide)).2.2.2.2⟩

/-! ## Successful calls: the stored value -/

theorem finish_unchecked (w : Width) (u : Bool) (pol : Policy) (mem : Mem) (ds : Nat)
    (neg : Bool) (result E r : Nat) (hco : pol.check_overflow = false) :
    finish w u pol mem ds neg result E r
      = Ret.ok E (if u then r else if neg then (2 ^ w.bits - r) % 2 ^ w.bits else r) := by
  simp only [finish, hco, Bool.false_and, Bool.false_eq_true, if_false, Bool.not_false, if_true]
  cases u <;> simp

theorem finish_unsigned (w : Width) (pol : Policy) (mem : Mem) (ds E : Nat) (neg : Bool)
    (result r : Nat) (hle : ds ≤ E)
    (hd : ∀ a, ds ≤ a → a < E → isDigit (byteAt mem a) = true)
    (hD : decVal mem ds (E - ds) < 2 ^ w.bits) :
    finish w true pol mem ds neg result E r = Ret.ok E r := by
  cases hco : pol.check_overflow
  · rw [finish_unchecked w true pol mem ds neg result E r hco]; rfl
  · have hlong := tooLong_iff w true mem ds E hle hd
    have hlow := maxDigits_lower w true
    simp only [if_true] at hlow
    have hb : (decide ((E : Int) - ds > _MAX_DIGITS w true) &&
        decide ((E : Int) - skipZeros mem (E - ds) ds > _MAX_DIGITS w true)) = false := by
      rw [← Bool.not_eq_true, hlong]; omega
    simp only [finish, hco, Bool.true_and, hb, Bool.false_eq_true, if_false, if_true]

/-- The body of `_DEFINE` on a run of digits from the start of the digits to the stop
position `E`, when the exactness requirement of the policy is met and the value fits: for
an unsigned type the call stores `seed * 10 ^ n + d`, where `seed` is the starting
`*result`; for a signed type it stores the signed value of the digits. -/
theorem defineBody_value (w : Width) (u : Bool) (pol : Policy) (mem : Mem)
    (result p endp E : Nat) (neg : Bool)
    (hneg : neg = (!u && decide (byteAt mem p = 45)))
    (hsz : pol.has_size = true → p < endp)
    (hnt : pol.is_null_terminated = true → byteAt mem p ≠ 0)
    (hE : p + signLen neg < E) (hEe : E ≤ endp)
    (hdig : ∀ a, p + signLen neg ≤ a → a < E → isDigit (byteAt mem a) = true)
    (hstop : E = endp ∨ (pol.check_input = true ∧ isDigit (byteAt mem E) = false))
    (hok : ExactOK pol mem E endp)
    (hu : u = true → (result % 2 ^ w.bits) * 10 ^ (E - (p + signLen neg))
      + decVal mem (p + signLen neg) (E - (p + signLen neg)) < 2 ^ w.bits)
    (hs : u = false →
      typeMin w false ≤ signedVal neg (decVal mem (p + signLen neg) (E - (p + signLen neg))) ∧
      signedVal neg (decVal mem (p + signLen neg) (E - (p + signLen neg))) ≤ typeMax w false) :
    defineBody w u pol mem result p endp
      = Ret.ok E (if u then (result % 2 ^ w.bits) * 10 ^ (E - (p + signLen neg))
            + decVal mem (p + signLen neg) (E - (p + signLen neg))
          else encode w (signedVal neg
            (decVal mem (p + signLen neg) (E - (p + signLen neg))))) := by
  obtain ⟨o, ho1, ho2, ho3⟩ := defineBody_run w u pol mem result p endp E neg hneg hsz hnt
    (by rw [signLen_add]; exact hE) hEe
    (fun a h1 h2 => hdig a (by rw [signLen_add] at h1; exact h1) h2) hstop
  rw [signLen_add] at ho1 ho2 ho3
  generalize hDdef : decVal mem (p + signLen neg) (E - (p + signLen neg)) = D at *
  generalize hndef : E - (p + signLen neg) = n at *
  have hdig' : ∀ a, p + signLen neg ≤ a → a < E → isDigit (byteAt mem a) = true := hdig
  have hDM : D < 2 ^ w.bits := by
    cases hucase : u
    · obtain ⟨h1, h2⟩ := hs hucase
      exact magnitude_lt w false neg D (fun _ => rfl) h1 h2
    · have := hu hucase
      omega
  have hT : (if u then result % 2 ^ w.bits else 0) * 10 ^ n + D < 2 ^ w.bits := by
    cases hucase : u
    · simpa using hDM
    · simpa using hu hucase
  rw [ho1]
  cases o with
  | none =>
    rcases ho2 rfl with h | ⟨_, h⟩
    · exact absurd hok h
    · omega
  | some r1 =>
    obtain ⟨_, _, h3, h4⟩ := ho3 r1 rfl
    have hr1 : r1 = (if u then result % 2 ^ w.bits else 0) * 10 ^ n + D := by
      cases hco : pol.check_overflow
      · rw [h3 hco, Nat.mod_eq_of_lt hT]
      · rcases h4 hco with h | h
        · exact h
        · omega
    simp only [retOf]
    cases hucase : u
    · -- signed
      obtain ⟨h1, h2⟩ := hs hucase
      rw [hucase] at hr1
      simp only [Bool.false_eq_true, if_false, zero_mul, zero_add] at hr1 ⊢
      subst hr1
      cases hco : pol.check_overflow
      · rw [finish_unchecked w false pol mem _ neg result E r1 hco]
        simp only [Bool.false_eq_true, if_false]
        have hhalf := two_pow_bits_half w
        cases hn : neg
        · simp only [signedVal, Bool.false_eq_true, if_false]
          rw [encode_nat w r1 hDM]
        · simp only [signedVal, if_true]
          rw [encode_neg w r1 (by omega)]
      · have hfin := finish_in_range w false pol mem (p + signLen neg) E neg result (by omega)
          hco hdig' (fun _ => rfl)
        rw [hndef, hDdef] at hfin
        exact hfin h1 h2
    · -- unsigned
      rw [hucase] at hr1
      simp only [if_true] at hr1 ⊢
      rw [finish_unsigned w pol mem (p + signLen neg) E neg result r1 (by omega) hdig'
        (by rw [hndef, hDdef]; exact hDM), hr1]

/-- The body of `_DEFINE` on an input made of an optional minus sign (signed types only)
and `n ≥ 1` digits. With a size, the size is the length of the input; an input-validating
policy finds a non-digit after the digits (the null byte for `parse_all`). When the value
fits, the body returns the end of the digits and stores the value: `seed * 10 ^ n + d` for
an unsigned type with starting `*result = seed`, the signed value of the digits for a
signed type. -/
theorem defineBody_digits (w : Width) (u : Bool) (pol : Policy) (mem : Mem)
    (result p n endp : Nat) (neg : Bool)
    (hsign : neg = true → u = false ∧ byteAt mem p = 45)
    (hn : 1 ≤ n)
    (hdig : ∀ i, i < n → isDigit (byteAt mem (p + signLen neg + i)) = true)
    (hEe : p + signLen neg + n ≤ endp)
    (hsize : pol.has_size = true → endp = p + signLen neg + n)
    (hunsized : pol.has_size = false → pol.check_input = true)
    (hnd : pol.check_input = true → isDigit (byteAt mem (p + signLen neg + n)) = false)
    (hex : pol.is_exact = true → pol.is_null_terminated = true →
      byteAt mem (p + signLen neg + n) = 0)
    (hu : u = true → (result % 2 ^ w.bits) * 10 ^ n + decVal mem (p + signLen neg) n
      < 2 ^ w.bits)
    (hs : u = false → typeMin w false ≤ signedVal neg (decVal mem (p + signLen neg) n) ∧
      signedVal neg (decVal mem (p + signLen neg) n) ≤ typeMax w false) :
    defineBody w u pol mem result p endp
      = Ret.ok (p + signLen neg + n)
          (if u then (result % 2 ^ w.bits) * 10 ^ n + decVal mem (p + signLen neg) n
            else encode w (signedVal neg (decVal mem (p + signLen neg) n))) := by
  have hfirst : neg = false → byteAt mem p ≠ 45 := by
    intro h
    have := hdig 0 hn
    rw [h] at this
    exact isDigit_ne_minus _ (by simpa [signLen] using this)
  have hnegeq := negative_eq u mem p neg hsign hfirst
  have hnz : byteAt mem p ≠ 0 := by
    cases hneg : neg
    · have := hdig 0 hn
      rw [hneg] at this
      exact isDigit_ne_zero _ (by simpa [signLen] using this)
    · rw [(hsign hneg).2]; norm_num
  have hdig' : ∀ a, p + signLen neg ≤ a → a < p + signLen neg + n →
      isDigit (byteAt mem a) = true := by
    intro a h1 h2
    have := hdig (a - (p + signLen neg)) (by omega)
    rwa [show p + signLen neg + (a - (p + signLen neg)) = a by omega] at this
  have hlen : p + signLen neg + n - (p + signLen neg) = n := by omega
  have := defineBody_value w u pol mem result p endp (p + signLen neg + n) neg hnegeq
    (fun h => by have := hsize h; omega) (fun _ => hnz) (by omega) hEe hdig'
    (by
      cases hsz : pol.has_size
      · exact Or.inr ⟨hunsized hsz, hnd (hunsized hsz)⟩
      · exact Or.inl (hsize hsz).symm)
    (fun he hci => ⟨fun hsz => ⟨(hsize hsz).symm, Or.inl (hnd hci)⟩, fun hnt => hex he hnt⟩)
  rw [hlen] at this
  exact this hu hs

/-- The function generated by `_DEFINE` on the inputs of `defineBody_digits`: the dispatch
on short sizes at the top hands the input to `parse_nooverflow` or `parse_nocheck`, which
give the same result. -/
theorem define_value (w : Width) (u : Bool) (pol : Policy) (mem : Mem)
    (result p n endp : Nat) (neg : Bool)
    (hsign : neg = true → u = false ∧ byteAt mem p = 45)
    (hn : 1 ≤ n)
    (hdig : ∀ i, i < n → isDigit (byteAt mem (p + signLen neg + i)) = true)
    (hEe : p + signLen neg + n ≤ endp)
    (hsize : pol.has_size = true → endp = p + signLen neg + n)
    (hunsized : pol.has_size = false → pol.check_input = true)
    (hnd : pol.check_input = true → isDigit (byteAt mem (p + signLen neg + n)) = false)
    (hex : pol.is_exact = true → pol.is_null_terminated = true →
      byteAt mem (p + signLen neg + n) = 0)
    (hu : u = true → (result % 2 ^ w.bits) * 10 ^ n + decVal mem (p + signLen neg) n
      < 2 ^ w.bits)
    (hs : u = false → typeMin w false ≤ signedVal neg (decVal mem (p + signLen neg) n) ∧
      signedVal neg (decVal mem (p + signLen neg) n) ≤ typeMax w false) :
    define w u pol mem result p endp
      = Ret.ok (p + signLen neg + n)
          (if u then (result % 2 ^ w.bits) * 10 ^ n + decVal mem (p + signLen neg) n
            else encode w (signedVal neg (decVal mem (p + signLen neg) n))) := by
  simp only [define]
  split
  · rename_i hdisp
    simp only [Bool.and_eq_true, decide_eq_true_eq] at hdisp
    have hend := hsize hdisp.1.2
    have e : p + (endp - p) = endp := by omega
    split
    · rename_i hci
      rw [parse_nooverflow, e]
      exact defineBody_digits w u parseNooverflowPolicy mem result p n endp neg hsign hn hdig hEe
        (fun _ => hend) (fun h => by simp [parseNooverflowPolicy] at h)
        (fun _ => hnd hci) (fun _ h => by simp [parseNooverflowPolicy] at h) hu hs
    · rw [parse_nocheck, e]
      exact defineBody_digits w u parseNocheckPolicy mem result p n endp neg hsign hn hdig hEe
        (fun _ => hend) (fun h => by simp [parseNocheckPolicy] at h)
        (fun h => by simp [parseNocheckPolicy] at h)
        (fun h => by simp [parseNocheckPolicy] at h) hu hs
  · exact defineBody_digits w u pol mem result p n endp neg hsign hn hdig hEe hsize hunsized
      hnd hex hu hs

/-- C11 (pre-seeded accumulator), the inputs on which the code departs from it: with the
starting value `*result = 5`, the unsigned 32 bit `parse` on "12ab" returns the address
after "12" and stores 512 = 5 * 10 ^ 2 + 12, but `parse_n` with size 4 on the same bytes
returns `NULL` (sizes below `_MAX_DIGITS` are handed to the exact `parse_nooverflow`);
`parse_all_n` with size 2 stores 512 on "12" followed by a null byte, but returns `NULL`
on "123" (the exactness test sees the digit run end after the third byte, beyond the
size). -/
theorem seeded_sized_variants_reject :
    parse Width.w32 true (memOf 16 (bytesOf "12ab") 49) 5 16 = Ret.ok 18 512 ∧
    parse_n Width.w32 true (memOf 16 (bytesOf "12ab") 49) 5 16 4 = Ret.null 5 ∧
    parse_all_n Width.w32 true (memOf 16 (bytesOf "12") 49) 5 16 2 = Ret.ok 18 512 ∧
    parse_all_n Width.w32 true (memOf 16 (bytesOf "123") 49) 5 16 2 = Ret.null 5 := by
  decide

/-- Without a size the dispatch at the top of `_DEFINE` is not compiled in. -/
theorem define_unsized (w : Width) (u : Bool) (pol : Policy) (mem : Mem) (result p endp : Nat)
    (h : pol.has_size = false) :
    define w u pol mem result p endp = defineBody w u pol mem result p endp := by
  simp [define, h]

/-- A size of at least `_MAX_DIGITS` runs the body with the flags of the function. -/
theorem define_long (w : Width) (u : Bool) (pol : Policy) (mem : Mem) (result p endp : Nat)
    (h : p + _MAX_DIGITS w u ≤ endp) :
    define w u pol mem result p endp = defineBody w u pol mem result p endp := by
  simp only [define]
  rw [if_neg]
  intro hc
  simp only [Bool.and_eq_true, decide_eq_true_eq] at hc
  omega

/-- A size below `_MAX_DIGITS` makes an overflow-checked function with a size hand the
input to `parse_nooverflow` or `parse_nocheck`. -/
theorem define_short (w : Width) (u : Bool) (pol : Policy) (mem : Mem) (result p size : Nat)
    (hco : pol.check_overflow = true) (hsz : pol.has_size = true)
    (h : size < _MAX_DIGITS w u) :
    define w u pol mem result p (p + size)
      = if pol.check_input then defineBody w u parseNooverflowPolicy mem result p (p + size)
        else defineBody w u parseNocheckPolicy mem result p (p + size) := by
  have hc : (((p + size : Nat) : Int) - (p : Int) < (_MAX_DIGITS w u : Int)) := by
    push_cast; omega
  simp only [define, hco, hsz, Bool.and_self, Bool.true_and, decide_eq_true_eq, hc, if_true,
    parse_nooverflow, parse_nocheck, Nat.add_sub_cancel_left]

/-- The body of an overflow-checked function returns `NULL` on an optional minus sign
and `n` digits when the value does not fit: either the starting `*result` of an unsigned
type is `seed` and `seed * 10 ^ n + d` is at least `2 ^ w` and below `10 * 2 ^ w`, or
there is no seed and the signed value of the digits is outside the range of the type. -/
theorem defineBody_out_of_range (w : Width) (u : Bool) (pol : Policy) (mem : Mem)
    (result p n endp : Nat) (neg : Bool) (hco : pol.check_overflow = true)
    (hsign : neg = true → u = false ∧ byteAt mem p = 45)
    (hn : 1 ≤ n)
    (hdig : ∀ i, i < n → isDigit (byteAt mem (p + signLen neg + i)) = true)
    (hEe : p + signLen neg + n ≤ endp)
    (hstop : p + signLen neg + n = endp ∨
      (pol.check_input = true ∧ isDigit (byteAt mem (p + signLen neg + n)) = false))
    (hsize : pol.has_size = true → endp = p + signLen neg + n)
    (hout : (u = true ∧
        2 ^ w.bits ≤ (result % 2 ^ w.bits) * 10 ^ n + decVal mem (p + signLen neg) n ∧
        (result % 2 ^ w.bits) * 10 ^ n + decVal mem (p + signLen neg) n < 10 * 2 ^ w.bits) ∨
      ((u = true → result % 2 ^ w.bits = 0) ∧
        (signedVal neg (decVal mem (p + signLen neg) n) < typeMin w u ∨
          typeMax w u < signedVal neg (decVal mem (p + signLen neg) n)))) :
    defineBody w u pol mem result p endp = Ret.null result := by
  have hdig' : ∀ a, p + signLen neg ≤ a → a < p + signLen neg + n →
      isDigit (byteAt mem a) = true := by
    intro a h1 h2
    have := hdig (a - (p + signLen neg)) (by omega)
    rwa [show p + signLen neg + (a - (p + signLen neg)) = a by omega] at this
  have hfirst : neg = false → byteAt mem p ≠ 45 := by
    intro h
    have := hdig 0 hn
    rw [h] at this
    exact isDigit_ne_minus _ (by simpa [signLen] using this)
  have hnegeq := negative_eq u mem p neg hsign hfirst
  have hnz : byteAt mem p ≠ 0 := by
    cases hneg : neg
    · have := hdig 0 hn
      rw [hneg] at this
      exact isDigit_ne_zero _ (by simpa [signLen] using this)
    · rw [(hsign hneg).2]; norm_num
  obtain ⟨o, ho1, ho2, ho3⟩ := defineBody_run w u pol mem result p endp (p + signLen neg + n) neg
    hnegeq (fun h => by have := hsize h; omega) (fun _ => hnz)
    (by rw [signLen_add]; omega) hEe
    (fun a h1 h2 => hdig' a (by rw [signLen_add] at h1; exact h1) h2) hstop
  rw [signLen_add] at ho1 ho3
  rw [show p + signLen neg + n - (p + signLen neg) = n by omega] at ho3
  rw [ho1]
  cases o with
  | none => rfl
  | some r1 =>
    obtain ⟨_, h2, _, h4⟩ := ho3 r1 rfl
    have h4 := h4 hco
    simp only [retOf]
    rcases hout with ⟨hu, hlo, hhi⟩ | ⟨hseed, hout⟩
    · rw [hu] at h4
      simp only [if_true] at h4
      omega
    · have hT : (if u then result % 2 ^ w.bits else 0) * 10 ^ n
          + decVal mem (p + signLen neg) n = decVal mem (p + signLen neg) n := by
        cases hu : u
        · simp
        · simp [hseed hu]
      rw [hT] at h4
      have hfin := finish_out_of_range w u pol mem (p + signLen neg) (p + signLen neg + n) neg
        result r1 (by omega) hco hdig' (fun h => (hsign h).1)
      rw [show p + signLen neg + n - (p + signLen neg) = n by omega] at hfin
      exact hfin hout h2 h4

/-- The body of a function without the overflow check, for an unsigned type with any
starting `*result`, on `n ≥ 1` digits up to the stop position: when the exactness
requirement of the policy is met it returns the stop position and stores
`*result * 10 ^ n + d` reduced modulo `2 ^ w`. -/
theorem defineBody_seed_wrap (w : Width) (pol : Policy) (mem : Mem)
    (result p n endp : Nat) (hco : pol.check_overflow = false) (hn : 1 ≤ n)
    (hdig : ∀ i, i < n → isDigit (byteAt mem (p + i)) = true)
    (hEe : p + n ≤ endp)
    (hstop : p + n = endp ∨ (pol.check_input = true ∧ isDigit (byteAt mem (p + n)) = false))
    (hok : ExactOK pol mem (p + n) endp) :
    defineBody w true pol mem result p endp
      = Ret.ok (p + n) (((result % 2 ^ w.bits) * 10 ^ n + decVal mem p n) % 2 ^ w.bits) := by
  have hnegeq : false = (!true && decide (byteAt mem p = 45)) := by simp
  have hnz : byteAt mem p ≠ 0 := isDigit_ne_zero _ (by simpa using hdig 0 hn)
  have hdig' : ∀ a, p ≤ a → a < p + n → isDigit (byteAt mem a) = true := by
    intro a h1 h2
    have := hdig (a - p) (by omega)
    rwa [show p + (a - p) = a by omega] at this
  obtain ⟨o, ho1, ho2, ho3⟩ := defineBody_run w true pol mem result p endp (p + n) false
    hnegeq (fun _ => by omega) (fun _ => hnz) (by simp only [Bool.false_eq_true, if_false]; omega)
    hEe (fun a h1 h2 => hdig' a (by simpa using h1) h2) hstop
  simp only [Bool.false_eq_true, if_false, if_true, Nat.add_sub_cancel_left] at ho1 ho3
  rw [ho1]
  cases o with
  | none =>
    rcases ho2 rfl with h | ⟨h, _⟩
    · exact absurd hok h
    · rw [hco] at h; exact Bool.noConfusion h
  | some r1 =>
    obtain ⟨_, _, h3, _⟩ := ho3 r1 rfl
    simp only [retOf]
    rw [h3 hco, finish_unchecked w true pol mem p false result (p + n) _ hco]
    rfl

/-- C12 (pre-seeded overflow detection), where the code departs from it. With the starting
value 429496729 and the one digit "6" the number 4294967296 has ten digits, an admissible
count for the unsigned 32 bit type, and exceeds its maximum: `parse` and `parse_all` return
`NULL`, but `parse_n`, `parse_all_n` and `parse_novalidate` with size 1 return the address
after the digit and store 0 (last conjunct). Lines 333-336 hand every size below
`_MAX_DIGITS` to the functions without an overflow check, whatever the starting value is.
In general, for every unsigned type, every starting value `s` of `*result` and every run
of `n ≥ 1` digits with value `d` such that `s * 10 ^ n + d` exceeds the maximum of the type
and stays below `10 * 2 ^ w` (an admissible number of digits): `parse` returns `NULL` when
a non-digit follows the digits and `parse_all` when the null byte follows them; `parse_n`,
`parse_all_n` and `parse_novalidate` with the size `n` return `NULL` when `n` is at least
`_MAX_DIGITS`; but when `n` is below `_MAX_DIGITS`, `parse_novalidate` returns the address
after the digits and stores `s * 10 ^ n + d` reduced modulo `2 ^ w`, and so do `parse_n`
and `parse_all_n` when the byte after the input is not a digit or the aligned chunk of the
last digit holds only digits after it. -/
theorem seeded_overflow_fails (w : Width) (mem : Mem) (s p n : Nat)
    (hs : s < 2 ^ w.bits) (hn : 1 ≤ n)
    (hdig : ∀ i, i < n → isDigit (byteAt mem (p + i)) = true)
    (haddr : p + n < 2 ^ 64)
    (hlo : 2 ^ w.bits ≤ s * 10 ^ n + decVal mem p n)
    (hhi : s * 10 ^ n + decVal mem p n < 10 * 2 ^ w.bits) :
    (isDigit (byteAt mem (p + n)) = false → parse w true mem s p = Ret.null s) ∧
    (byteAt mem (p + n) = 0 → parse_all w true mem s p = Ret.null s) ∧
    (_MAX_DIGITS w true ≤ n →
      parse_n w true mem s p n = Ret.null s ∧
      parse_all_n w true mem s p n = Ret.null s ∧
      parse_novalidate w true mem s p n = Ret.null s) ∧
    (n < _MAX_DIGITS w true →
      parse_novalidate w true mem s p n
        = Ret.ok (p + n) ((s * 10 ^ n + decVal mem p n) % 2 ^ w.bits) ∧
      ((isDigit (byteAt mem (p + n)) = false ∨
          ∀ a, p + n ≤ a → a < 4 * ((p + n + 3) / 4) → isDigit (byteAt mem a) = true) →
        parse_n w true mem s p n
          = Ret.ok (p + n) ((s * 10 ^ n + decVal mem p n) % 2 ^ w.bits) ∧
        parse_all_n w true mem s p n
          = Ret.ok (p + n) ((s * 10 ^ n + decVal mem p n) % 2 ^ w.bits))) ∧
    (parse Width.w32 true (memOf 16 (bytesOf "6") 49) 429496729 16 = Ret.null 429496729 ∧
      parse_all Width.w32 true (memOf 16 (bytesOf "6") 49) 429496729 16
        = Ret.null 429496729 ∧
      parse_n Width.w32 true (memOf 16 (bytesOf "6") 49) 429496729 16 1 = Ret.ok 17 0 ∧
      parse_all_n Width.w32 true (memOf 16 (bytesOf "6") 49) 429496729 16 1 = Ret.ok 17 0 ∧
      parse_novalidate Width.w32 true (memOf 16 (bytesOf "6") 49) 429496729 16 1
        = Ret.ok 17 0) := by
  have hlt : p + n ≤ ptrMax := by simp only [ptrMax]; omega
  have hmod : s % 2 ^ w.bits = s := Nat.mod_eq_of_lt hs
  have key : ∀ pol endp, pol.check_overflow = true → p + n ≤ endp →
      (p + n = endp ∨ (pol.check_input = true ∧ isDigit (byteAt mem (p + n)) = false)) →
      (pol.has_size = true → endp = p + n) →
      defineBody w true pol mem s p endp = Ret.null s := by
    intro pol endp hco h1 h2 h3
    exact defineBody_out_of_range w true pol mem s p n endp false hco (fun h => by simp at h) hn
      hdig h1 h2 h3 (Or.inl ⟨rfl, by rw [hmod]; exact hlo, by rw [hmod]; exact hhi⟩)
  have wrap : ∀ pol, pol.check_overflow = false → ExactOK pol mem (p + n) (p + n) →
      defineBody w true pol mem s p (p + n)
        = Ret.ok (p + n) ((s * 10 ^ n + decVal mem p n) % 2 ^ w.bits) := by
    intro pol hco hok
    have h := defineBody_seed_wrap w pol mem s p n (p + n) hco hn hdig (le_refl _) (Or.inl rfl) hok
    rw [hmod] at h
    exact h
  refine ⟨fun h => ?_, fun h => ?_, fun h => ⟨?_, ?_, ?_⟩, fun h => ⟨?_, fun hx => ⟨?_, ?_⟩⟩,
    by decide⟩
  · rw [parse, define_unsized _ _ _ _ _ _ _ rfl]
    exact key _ _ rfl hlt (Or.inr ⟨rfl, h⟩) (fun h => by simp [parsePolicy] at h)
  · rw [parse_all, define_unsized _ _ _ _ _ _ _ rfl]
    exact key _ _ rfl hlt (Or.inr ⟨rfl, by rw [h]; rfl⟩) (fun h => by simp [parseAllPolicy] at h)
  · rw [parse_n, define_long _ _ _ _ _ _ _ (by omega)]
    exact key _ _ rfl (le_refl _) (Or.inl rfl) (fun _ => rfl)
  · rw [parse_all_n, define_long _ _ _ _ _ _ _ (by omega)]
    exact key _ _ rfl (le_refl _) (Or.inl rfl) (fun _ => rfl)
  · rw [parse_novalidate, define_long _ _ _ _ _ _ _ (by omega)]
    exact key _ _ rfl (le_refl _) (Or.inl rfl) (fun _ => rfl)
  · rw [parse_novalidate, define_short w true parseNovalidatePolicy mem s p n rfl rfl h,
      if_neg (show ¬ (parseNovalidatePolicy.check_input = true) by decide)]
    exact wrap parseNocheckPolicy rfl (fun he => by simp [parseNocheckPolicy] at he)
  · rw [parse_n, define_short w true parseNPolicy mem s p n rfl rfl h,
      if_pos (show parseNPolicy.check_input = true from rfl)]
    exact wrap parseNooverflowPolicy rfl
      (fun _ _ => ⟨fun _ => ⟨rfl, hx⟩, fun hnt => by simp [parseNooverflowPolicy] at hnt⟩)
  · rw [parse_all_n, define_short w true parseAllNPolicy mem s p n rfl rfl h,
      if_pos (show parseAllNPolicy.check_input = true from rfl)]
    exact wrap parseNooverflowPolicy rfl
      (fun _ _ => ⟨fun _ => ⟨rfl, hx⟩, fun hnt => by simp [parseNooverflowPolicy] at hnt⟩)

/-- With the starting value 429496729 the 32 bit `parse` and `parse_all` reject "6", which
would give 2 ^ 32, and `parse_novalidate` and `parse_n` with size 1 store 0 for it; with
the starting value 1 the sized functions reject "0000000000". -/
theorem seeded_overflow_fails_witness :
    (parse Width.w32 true (memOf 16 (bytesOf "6") 49) 429496729 16 = Ret.null 429496729 ∧
      parse_all Width.w32 true (memOf 16 (bytesOf "6") 49) 429496729 16
        = Ret.null 429496729) ∧
    parse_n Width.w32 true (memOf 16 (bytesOf "0000000000") 49) 1 16 10 = Ret.null 1 ∧
    (parse_novalidate Width.w32 true (memOf 16 (bytesOf "6") 49) 429496729 16 1
        = Ret.ok 17 0 ∧
      parse_n Width.w32 true (memOf 16 (bytesOf "6") 49) 429496729 16 1 = Ret.ok 17 0) :=
  ⟨⟨(seeded_overflow_fails Width.w32 (memOf 16 (bytesOf "6") 49) 429496729 16 1
      (by decide) (by decide) (by decide) (by decide) (by decide) (by decide)).1 (by decide),
    (seeded_overflow_fails Width.w32 (memOf 16 (bytesOf "6") 49) 429496729 16 1
      (by decide) (by decide) (by decide) (by decide) (by decide) (by decide)).2.1 (by decide)⟩,
    ((seeded_overflow_fails Width.w32 (memOf 16 (bytesOf "0000000000") 49) 1 16 10
      (by decide) (by decide) (by decide) (by decide) (by decide) (by decide)).2.2.1
        (by decide)).1,
    ((seeded_overflow_fails Width.w32 (memOf 16 (bytesOf "6") 49) 429496729 16 1
      (by decide) (by decide) (by decide) (by decide) (by decide) (by decide)).2.2.2.1
        (by decide)).1,
    (((seeded_overflow_fails Width.w32 (memOf 16 (bytesOf "6") 49) 429496729 16 1
      (by decide) (by decide) (by decide) (by decide) (by decide) (by decide)).2.2.2.1
        (by decide)).2 (Or.inl (by decide))).1⟩

/-- The documented limit of a seed (header lines 22-24, no check for overflow caused by too
many digits), which is why the bound `10 * 2 ^ w` is there: the unsigned 32 bit `parse`
with the starting value 4294968 on the four digits "0000" does not return `NULL` although
42949680000 exceeds the maximum. The number has eleven digits; the product of the seed and
the power of ten wraps before it is checked, and the call stores 7040. -/
theorem seeded_overflow_undetected :
    ¬ (∀ (w : Width) (mem : Mem) (s p n : Nat), s ≠ 0 → s < 2 ^ w.bits → 1 ≤ n →
        n ≤ _MAX_DIGITS w true → (∀ i, i < n → isDigit (byteAt mem (p + i)) = true) →
        isDigit (byteAt mem (p + n)) = false →
        2 ^ w.bits ≤ s * 10 ^ n + decVal mem p n →
        parse w true mem s p = Ret.null s) := by
  intro h
  have h1 := h Width.w32 (memOf 16 (bytesOf "0000") 49) 4294968 16 4 (by decide) (by decide)
    (by decide) (by decide) (by decide) (by decide) (by decide)
  have h2 : parse Width.w32 true (memOf 16 (bytesOf "0000") 49) 4294968 16 = Ret.ok 20 7040 := by
    decide
  rw [h2] at h1
  exact Ret.noConfusion h1

/-! ## Alignment -/

/-- C16 (alignment independence), as the code has it: two calls of `parse` on the same
null terminated character sequence (the bytes at `p1 + i` in one memory and at `p2 + i`
in the other agree up to a null byte at index `L`), stored at any two addresses and hence
at any two offsets within an aligned chunk, with arbitrary bytes before the start and
after the null byte. The starting `*result` is arbitrary for a signed type; for an
unsigned type it is 0, or it is a seed `s` such that `s * 10 ^ n + d` stays below
`10 * 2 ^ w`, where `n` is the length of the digit run at the start of the string (digits
at the indices below `n`, a non-digit at `n`) and `d` is its value. Either both calls
return `NULL`, or both succeed, consume the same number `k` of characters and store the
same value. -/
theorem alignment_independent (w : Width) (u : Bool) (mem1 mem2 : Mem) (result p1 p2 L : Nat)
    (hseed : u = true → result = 0 ∨
      ∀ n, (∀ i, i < n → isDigit (byteAt mem1 (p1 + i)) = true) →
        isDigit (byteAt mem1 (p1 + n)) = false →
        result * 10 ^ n + decVal mem1 p1 n < 10 * 2 ^ w.bits)
    (hsame : ∀ i, i ≤ L → byteAt mem1 (p1 + i) = byteAt mem2 (p2 + i))
    (hnull : byteAt mem1 (p1 + L) = 0)
    (h1 : p1 + L < 2 ^ 64) (h2 : p2 + L < 2 ^ 64) :
    (parse w u mem1 result p1 = Ret.null result ∧ parse w u mem2 result p2 = Ret.null result) ∨
    ∃ k v, parse w u mem1 result p1 = Ret.ok (p1 + k) v ∧
      parse w u mem2 result p2 = Ret.ok (p2 + k) v := by
  classical
  have hfirst : byteAt mem2 p2 = byteAt mem1 p1 := (hsame 0 (Nat.zero_le _)).symm
  obtain ⟨neg, hneg⟩ : ∃ neg, neg = (!u && decide (byteAt mem1 p1 = 45)) := ⟨_, rfl⟩
  have hneg2 : neg = (!u && decide (byteAt mem2 p2 = 45)) := by rw [hfirst]; exact hneg
  have hsign : neg = true → u = false ∧ byteAt mem1 p1 = 45 := by
    intro h
    rw [h] at hneg
    have := hneg.symm
    simp only [Bool.and_eq_true, Bool.not_eq_true', decide_eq_true_eq] at this
    exact this
  have hds : signLen neg ≤ L := by
    cases hn : neg
    · simp [signLen]
    · have := (hsign hn).2
      simp only [signLen, if_true]
      by_contra hc
      have hL : L = 0 := by omega
      rw [hL] at hnull
      simp only [Nat.add_zero] at hnull
      omega
  have hex : ∃ n, isDigit (byteAt mem1 (p1 + signLen neg + n)) = false :=
    ⟨L - signLen neg, by
      rw [show p1 + signLen neg + (L - signLen neg) = p1 + L by omega, hnull]; rfl⟩
  have hnd := Nat.find_spec hex
  have hnle : Nat.find hex ≤ L - signLen neg := Nat.find_min' hex (by
    rw [show p1 + signLen neg + (L - signLen neg) = p1 + L by omega, hnull]; rfl)
  have hdig : ∀ i, i < Nat.find hex → isDigit (byteAt mem1 (p1 + signLen neg + i)) = true := by
    intro i hi
    have := Nat.find_min hex hi
    simpa using this
  generalize Nat.find hex = n at hnd hnle hdig
  have hsame2 : ∀ i, i ≤ n → byteAt mem2 (p2 + signLen neg + i) = byteAt mem1 (p1 + signLen neg + i) := by
    intro i hi
    rw [Nat.add_assoc, Nat.add_assoc]
    exact (hsame _ (by omega)).symm
  have hnd2 : isDigit (byteAt mem2 (p2 + signLen neg + n)) = false := by
    rw [hsame2 n (le_refl _)]; exact hnd
  have hdig2 : ∀ i, i < n → isDigit (byteAt mem2 (p2 + signLen neg + i)) = true := by
    intro i hi
    rw [hsame2 i (by omega)]; exact hdig i hi
  have hD : decVal mem2 (p2 + signLen neg) n = decVal mem1 (p1 + signLen neg) n :=
    decVal_congr mem2 mem1 _ _ n (fun i hi => hsame2 i (by omega))
  have hsign2 : neg = true → u = false ∧ byteAt mem2 p2 = 45 := by
    intro h; rw [hfirst]; exact hsign h
  have hp1 : p1 + signLen neg + n ≤ ptrMax := by simp only [ptrMax]; omega
  have hp2 : p2 + signLen neg + n ≤ ptrMax := by simp only [ptrMax]; omega
  rcases Nat.eq_zero_or_pos n with hn0 | hn
  · left
    rw [hn0] at hnd hnd2
    simp only [Nat.add_zero] at hnd hnd2
    rw [hneg] at hnd
    rw [hneg2] at hnd2
    exact ⟨define_nodigit w u _ mem1 result p1 _ rfl hnd,
      define_nodigit w u _ mem2 result p2 _ rfl hnd2⟩
  · by_cases hz : u = true → result % 2 ^ w.bits = 0
    · by_cases hr : typeMin w u ≤ signedVal neg (decVal mem1 (p1 + signLen neg) n) ∧
          signedVal neg (decVal mem1 (p1 + signLen neg) n) ≤ typeMax w u
      · right
        have hmag := magnitude_lt w u neg _ (fun h => (hsign h).1) hr.1 hr.2
        have hu : u = true → (result % 2 ^ w.bits) * 10 ^ n + decVal mem1 (p1 + signLen neg) n
            < 2 ^ w.bits := by
          intro h
          rw [hz h]
          simpa using hmag
        have hs : u = false → typeMin w false ≤ signedVal neg (decVal mem1 (p1 + signLen neg) n) ∧
            signedVal neg (decVal mem1 (p1 + signLen neg) n) ≤ typeMax w false := by
          intro h
          rw [h] at hr
          exact hr
        refine ⟨signLen neg + n,
          (if u then (result % 2 ^ w.bits) * 10 ^ n + decVal mem1 (p1 + signLen neg) n
            else encode w (signedVal neg (decVal mem1 (p1 + signLen neg) n))), ?_, ?_⟩
        · rw [← Nat.add_assoc]
          exact define_value w u parsePolicy mem1 result p1 n ptrMax neg hsign hn hdig hp1
            (fun h => by simp [parsePolicy] at h) (fun _ => rfl) (fun _ => hnd)
            (fun h => by simp [parsePolicy] at h) hu hs
        · rw [← Nat.add_assoc, ← hD]
          exact define_value w u parsePolicy mem2 result p2 n ptrMax neg hsign2 hn hdig2 hp2
            (fun h => by simp [parsePolicy] at h) (fun _ => rfl) (fun _ => hnd2)
            (fun h => by simp [parsePolicy] at h) (by rw [hD]; exact hu) (by rw [hD]; exact hs)
      · left
        have hout : signedVal neg (decVal mem1 (p1 + signLen neg) n) < typeMin w u ∨
            typeMax w u < signedVal neg (decVal mem1 (p1 + signLen neg) n) := by
          by_contra hc
          apply hr
          constructor <;> [skip; skip] <;> omega
        refine ⟨?_, ?_⟩
        · rw [parse, define_unsized _ _ _ _ _ _ _ rfl]
          exact defineBody_out_of_range w u parsePolicy mem1 result p1 n ptrMax neg rfl hsign hn
            hdig hp1 (Or.inr ⟨rfl, hnd⟩) (fun h => by simp [parsePolicy] at h)
            (Or.inr ⟨hz, hout⟩)
        · rw [parse, define_unsized _ _ _ _ _ _ _ rfl]
          exact defineBody_out_of_range w u parsePolicy mem2 result p2 n ptrMax neg rfl hsign2 hn
            hdig2 hp2 (Or.inr ⟨rfl, hnd2⟩) (fun h => by simp [parsePolicy] at h)
            (Or.inr ⟨hz, by rw [hD]; exact hout⟩)
    · have hut : u = true := by
        by_contra hc
        exact hz (fun h => absurd h hc)
      have hnf : neg = false := by
        rw [hut] at hneg
        simpa using hneg
      have hsl : signLen neg = 0 := by rw [hnf]; rfl
      have hB : (result % 2 ^ w.bits) * 10 ^ n + decVal mem1 (p1 + signLen neg) n
          < 10 * 2 ^ w.bits := by
        rcases hseed hut with h0 | hb
        · exact absurd (fun _ => by rw [h0]; exact Nat.zero_mod _) hz
        · have hb' := hb n (fun i hi => by
            have := hdig i hi
            rwa [hsl, Nat.add_zero] at this) (by
            have := hnd
            rwa [hsl, Nat.add_zero] at this)
          rw [hsl, Nat.add_zero]
          have hle : (result % 2 ^ w.bits) * 10 ^ n ≤ result * 10 ^ n :=
            Nat.mul_le_mul_right _ (Nat.mod_le _ _)
          omega
      by_cases hfit : (result % 2 ^ w.bits) * 10 ^ n + decVal mem1 (p1 + signLen neg) n
          < 2 ^ w.bits
      · right
        have hs : u = false → typeMin w false ≤ signedVal neg (decVal mem1 (p1 + signLen neg) n) ∧
            signedVal neg (decVal mem1 (p1 + signLen neg) n) ≤ typeMax w false := by
          intro h
          rw [hut] at h
          exact absurd h (by decide)
        refine ⟨signLen neg + n,
          (if u then (result % 2 ^ w.bits) * 10 ^ n + decVal mem1 (p1 + signLen neg) n
            else encode w (signedVal neg (decVal mem1 (p1 + signLen neg) n))), ?_, ?_⟩
        · rw [← Nat.add_assoc]
          exact define_value w u parsePolicy mem1 result p1 n ptrMax neg hsign hn hdig hp1
            (fun h => by simp [parsePolicy] at h) (fun _ => rfl) (fun _ => hnd)
            (fun h => by simp [parsePolicy] at h) (fun _ => hfit) hs
        · rw [← Nat.add_assoc, ← hD]
          exact define_value w u parsePolicy mem2 result p2 n ptrMax neg hsign2 hn hdig2 hp2
            (fun h => by simp [parsePolicy] at h) (fun _ => rfl) (fun _ => hnd2)
            (fun h => by simp [parsePolicy] at h) (fun _ => by rw [hD]; exact hfit)
            (by rw [hD]; exact hs)
      · left
        refine ⟨?_, ?_⟩
        · rw [parse, define_unsized _ _ _ _ _ _ _ rfl]
          exact defineBody_out_of_range w u parsePolicy mem1 result p1 n ptrMax neg rfl hsign hn
            hdig hp1 (Or.inr ⟨rfl, hnd⟩) (fun h => by simp [parsePolicy] at h)
            (Or.inl ⟨hut, by omega, hB⟩)
        · rw [parse, define_unsized _ _ _ _ _ _ _ rfl]
          exact defineBody_out_of_range w u parsePolicy mem2 result p2 n ptrMax neg rfl hsign2 hn
            hdig2 hp2 (Or.inr ⟨rfl, hnd2⟩) (fun h => by simp [parsePolicy] at h)
            (Or.inl ⟨hut, by rw [hD]; omega, by rw [hD]; exact hB⟩)

/-- The string "12" with the starting value 5, parsed as an unsigned 32 bit number at the
offsets 0 and 1 of a chunk, after the bytes "1" and "-": both calls store 512 and consume
2 characters. The string "-1234567" parsed as a signed number at the offsets 0 and 3: both
calls store -1234567 and consume 8 characters. -/
theorem alignment_independent_witness :
    ((parse Width.w32 true (memOf 16 (bytesOf "12") 49) 5 16 = Ret.ok 18 512 ∧
        parse Width.w32 true (memOf 17 (bytesOf "12") 45) 5 17 = Ret.ok 19 512) ∧
      ((parse Width.w32 true (memOf 16 (bytesOf "12") 49) 5 16 = Ret.null 5 ∧
        parse Width.w32 true (memOf 17 (bytesOf "12") 45) 5 17 = Ret.null 5) ∨
      ∃ k v, parse Width.w32 true (memOf 16 (bytesOf "12") 49) 5 16 = Ret.ok (16 + k) v ∧
        parse Width.w32 true (memOf 17 (bytesOf "12") 45) 5 17 = Ret.ok (17 + k) v)) ∧
    ((parse Width.w32 false (memOf 16 (bytesOf "-1234567") 49) 0 16
        = Ret.ok 24 (encode Width.w32 (-1234567)) ∧
      parse Width.w32 false (memOf 19 (bytesOf "-1234567") 45) 0 19
        = Ret.ok 27 (encode Width.w32 (-1234567))) ∧
    ((parse Width.w32 false (memOf 16 (bytesOf "-1234567") 49) 0 16 = Ret.null 0 ∧
      parse Width.w32 false (memOf 19 (bytesOf "-1234567") 45) 0 19 = Ret.null 0) ∨
    ∃ k v, parse Width.w32 false (memOf 16 (bytesOf "-1234567") 49) 0 16 = Ret.ok (16 + k) v ∧
      parse Width.w32 false (memOf 19 (bytesOf "-1234567") 45) 0 19 = Ret.ok (19 + k) v)) :=
  ⟨⟨by decide,
    alignment_independent Width.w32 true (memOf 16 (bytesOf "12") 49)
      (memOf 17 (bytesOf "12") 45) 5 16 17 2
      (fun _ => Or.inr (fun n hn _ => by
        have hn2 : n ≤ 2 := by
          by_contra hc
          have h := hn 2 (by omega)
          revert h
          decide
        interval_cases n <;> decide))
      (by decide) (by decide) (by decide) (by decide)⟩,
   ⟨by decide,
    alignment_independent Width.w32 false (memOf 16 (bytesOf "-1234567") 49)
      (memOf 19 (bytesOf "-1234567") 45) 0 16 19 8 (fun h => absurd h (by decide))
      (by decide) (by decide) (by decide) (by decide)⟩⟩

/-- C16 as stated does not hold for an unsigned type with a starting value: with
`*result = 4294968` the 32 bit `parse` on "0000" stores 7040 when the string starts at
offset 0 of a chunk and returns `NULL` when it starts at offset 1. -/
theorem alignment_dependent_with_seed :
    ¬ (∀ (w : Width) (u : Bool) (mem1 mem2 : Mem) (result p1 p2 L : Nat),
        (∀ i, i ≤ L → byteAt mem1 (p1 + i) = byteAt mem2 (p2 + i)) →
        byteAt mem1 (p1 + L) = 0 → p1 + L < 2 ^ 64 → p2 + L < 2 ^ 64 →
        (parse w u mem1 result p1 = Ret.null result ∧
          parse w u mem2 result p2 = Ret.null result) ∨
        ∃ k v, parse w u mem1 result p1 = Ret.ok (p1 + k) v ∧
          parse w u mem2 result p2 = Ret.ok (p2 + k) v) := by
  intro h
  have e1 : parse Width.w32 true (memOf 16 (bytesOf "0000") 49) 4294968 16 = Ret.ok 20 7040 := by
    decide
  have e2 : parse Width.w32 true (memOf 17 (bytesOf "0000") 49) 4294968 17
      = Ret.null 4294968 := by decide
  have h1 := h Width.w32 true (memOf 16 (bytesOf "0000") 49) (memOf 17 (bytesOf "0000") 49)
    4294968 16 17 4 (by decide) (by decide) (by decide) (by decide)
  rw [e1, e2] at h1
  rcases h1 with ⟨h3, _⟩ | ⟨k, v, _, h4⟩
  · exact Ret.noConfusion h3
  · exact Ret.noConfusion h4

/-! ## Unchecked and checked policies side by side -/

/-- Beyond the table the model of `_POWERS_OF_10` reads zero. -/
theorem POWERS_OF_10_beyond (d : Nat) (hd : 17 ≤ d) : _POWERS_OF_10 d = 0 := by
  simp only [_POWERS_OF_10]
  exact List.getD_eq_default _ _ (by simpa [powers] using hd)

/-- When the overflow-checked fold of a chunk goes through, the unchecked fold gives the
same accumulator. -/
theorem accumulate_unchecked (w : Width) (pol1 pol2 : Policy) (r d bytes r1 : Nat)
    (h1 : pol1.check_overflow = true) (h2 : pol2.check_overflow = false)
    (hd : d ≤ 4 ∨ (2 ^ 64 - 4 ≤ d ∧ d < 2 ^ 64))
    (h : accumulate w pol1 r d bytes = some r1) :
    accumulate w pol2 r d bytes = some r1 := by
  have hM := Width.two_pow_bits_ge w
  by_cases hd0 : d = 0
  · simp only [accumulate, hd0, ne_eq, not_true_eq_false, if_false] at h ⊢
    exact h
  · have hidx : (d + 2 ^ wordBits - 1) % 2 ^ wordBits = d - 1 := by
      simp only [wordBits]
      rw [show d + 2 ^ 64 - 1 = (d - 1) + 1 * 2 ^ 64 by omega, Nat.add_mul_mod_self_right]
      exact Nat.mod_eq_of_lt (by omega)
    have hpow : _POWERS_OF_10 d = _POWERS_OF_10 (d - 1) * 10 := by
      rcases hd with hd | hd
      · have : d = 1 ∨ d = 2 ∨ d = 3 ∨ d = 4 := by omega
        rcases this with e | e | e | e <;> rw [e] <;> rfl
      · rw [POWERS_OF_10_beyond d (by omega), POWERS_OF_10_beyond (d - 1) (by omega)]
    have hcs : ¬ (w.sizeof = 4 ∧ _CHUNK_SIZE = 16) := by
      intro hc
      have := hc.2
      simp [_CHUNK_SIZE] at this
    simp only [accumulate, ne_eq, hd0, not_false_eq_true, if_true, h1, h2, hidx, hcs, if_false,
      Bool.false_eq_true] at h ⊢
    generalize _CALCULATE_BASE_10 _CHUNK_SIZE bytes = S at h ⊢
    generalize hq : _POWERS_OF_10 (d - 1) = q at h hpow
    rw [hpow]
    generalize 2 ^ w.bits = M at h hM ⊢
    by_cases g1 : r * q % M > (M - 1) / 10
    · rw [if_pos g1] at h; simp at h
    · rw [if_neg g1] at h
      by_cases g2 : (r * q % M * 10 % M + S) % M < r * q % M * 10 % M
      · rw [if_pos g2] at h; simp at h
      · rw [if_neg g2] at h
        have e : r * (q * 10) % M = r * q % M * 10 % M := by
          rw [← Nat.mul_assoc, Nat.mul_mod (r * q) 10 M, Nat.mul_mod (r * q % M) 10 M,
            Nat.mod_mod]
        rw [e]
        exact h

/-- The new `end` found by the scan of a chunk lies within the chunk or beyond it, and
never beyond the old `end`. -/
theorem scanChunk_bounds (pol : Policy) (mem : Mem) (p endp bytes endp1 : Nat)
    (h : scanChunk pol mem (p + 4) endp bytes = some endp1) (hp : p ≤ endp) :
    p ≤ endp1 ∧ endp1 ≤ endp := by
  simp only [scanChunk, _CHUNK_SIZE] at h
  repeat' split at h
  all_goals first
    | (simp only [Option.some.injEq] at h; omega)
    | simp at h

/-- The scan of a chunk under two policies: with the same flags for the input, or when
the first policy is exact with a size and the second does not look at the input, a scan
that goes through under the first policy gives the same `end` under the second. -/
theorem scanChunk_sim (pol1 pol2 : Policy) (mem : Mem) (p endp bytes endp1 : Nat)
    (hnt : pol2.is_null_terminated = pol1.is_null_terminated)
    (hsz : pol2.has_size = pol1.has_size)
    (hin : (pol2.check_input = pol1.check_input ∧ pol2.is_exact = pol1.is_exact) ∨
      (pol2.check_input = false ∧ pol1.has_size = true ∧ pol1.is_exact = true))
    (h : scanChunk pol1 mem p endp bytes = some endp1) :
    scanChunk pol2 mem p endp bytes = some endp1 := by
  rcases hin with ⟨hci, hex⟩ | ⟨hci, h1s, h1e⟩
  · simp only [scanChunk, hnt, hsz, hci, hex] at h ⊢
    exact h
  · have e2 : scanChunk pol2 mem p endp bytes = some endp := by
      simp [scanChunk, hci]
    rw [e2]
    simp only [scanChunk, h1s, h1e, Bool.and_self, Bool.true_and, Bool.and_true] at h
    repeat' split at h
    all_goals first
      | exact h
      | (simp at h; done)
      | (rename_i g1 g2 g3 g4
         simp only [decide_eq_true_eq, ne_eq, Decidable.not_not] at g2
         omega)

/-- The end of the function under two policies: when the overflow-checked one stores a
value, the unchecked one returns the same pointer and stores the same value. -/
theorem finish_sim (w : Width) (u : Bool) (pol1 pol2 : Policy) (mem : Mem) (ds : Nat)
    (neg : Bool) (result E r e v : Nat)
    (hco : pol2.check_overflow = true → pol1.check_overflow = true)
    (h : finish w u pol1 mem ds neg result E r = Ret.ok e v) :
    finish w u pol2 mem ds neg result E r = Ret.ok e v := by
  cases h2 : pol2.check_overflow
  · cases h1 : pol1.check_overflow
    · simp only [finish, h1, h2] at h ⊢
      exact h
    · simp only [finish, h1, h2, Bool.true_and, Bool.false_and, Bool.false_eq_true, if_false,
        Bool.not_false, Bool.not_true, if_true] at h ⊢
      repeat' split at h
      all_goals first
        | exact h
        | (simp at h; done)
        | simp_all
  · have h1 := hco h2
    simp only [finish, h1, h2] at h ⊢
    exact h

/-- The fold of a chunk under two policies, the second one checking for overflow only if
the first one does: a fold that goes through under the first policy gives the same
accumulator under the second. -/
theorem accumulate_sim (w : Width) (pol1 pol2 : Policy) (r d bytes r1 : Nat)
    (hco : pol2.check_overflow = true → pol1.check_overflow = true)
    (hd : d ≤ 4 ∨ (2 ^ 64 - 4 ≤ d ∧ d < 2 ^ 64))
    (h : accumulate w pol1 r d bytes = some r1) :
    accumulate w pol2 r d bytes = some r1 := by
  cases h2 : pol2.check_overflow
  · cases h1 : pol1.check_overflow
    · simp only [accumulate, h1, h2] at h ⊢
      exact h
    · exact accumulate_unchecked w pol1 pol2 r d bytes r1 h1 h2 hd h
  · have h1 := hco h2
    simp only [accumulate, h1, h2] at h ⊢
    exact h

/-- The loop under two policies: when it returns a pointer and a value under the first
policy, it returns the same under the second, which checks less. -/
theorem parseLoop_sim (w : Width) (u : Bool) (pol1 pol2 : Policy) (mem : Mem) (ds : Nat)
    (neg : Bool) (result e v : Nat)
    (hnt : pol2.is_null_terminated = pol1.is_null_terminated)
    (hsz : pol2.has_size = pol1.has_size)
    (hco : pol2.check_overflow = true → pol1.check_overflow = true)
    (hin : (pol2.check_input = pol1.check_input ∧ pol2.is_exact = pol1.is_exact) ∨
      (pol2.check_input = false ∧ pol1.has_size = true ∧ pol1.is_exact = true)) :
    ∀ fuel p endp bytes r d, d ≤ 4 → p ≤ endp →
      parseLoop w u pol1 mem ds neg result fuel p endp bytes r d = Ret.ok e v →
      parseLoop w u pol2 mem ds neg result fuel p endp bytes r d = Ret.ok e v := by
  intro fuel
  induction fuel with
  | zero => intro p endp bytes r d _ _ h; simp [parseLoop] at h
  | succ fuel ih =>
    intro p endp bytes r d hd hp h
    cases hs : scanChunk pol1 mem (p + 4) endp bytes with
    | none =>
      rw [parseLoop_step_null w u pol1 mem ds neg result fuel p endp bytes r d hs] at h
      exact Ret.noConfusion h
    | some e1 =>
      have hs2 := scanChunk_sim pol1 pol2 mem (p + 4) endp bytes e1 hnt hsz hin hs
      have hb := scanChunk_bounds pol1 mem p endp bytes e1 hs hp
      by_cases hle : e1 ≤ p + 4
      · rw [parseLoop_step_last w u pol1 mem ds neg result fuel p endp e1 bytes r d hs hle] at h
        rw [parseLoop_step_last w u pol2 mem ds neg result fuel p endp e1 bytes r d hs2 hle]
        have hd' : (d + 2 ^ wordBits - (p + 4 - e1)) % 2 ^ wordBits ≤ 4 ∨
            (2 ^ 64 - 4 ≤ (d + 2 ^ wordBits - (p + 4 - e1)) % 2 ^ wordBits ∧
              (d + 2 ^ wordBits - (p + 4 - e1)) % 2 ^ wordBits < 2 ^ 64) := by
          simp only [wordBits]
          omega
        cases ha : accumulate w pol1 r ((d + 2 ^ wordBits - (p + 4 - e1)) % 2 ^ wordBits)
            (_SHIFT_LEFT_N_BYTES bytes (p + 4 - e1)) with
        | none => simp only [ha] at h; exact Ret.noConfusion h
        | some r1 =>
          simp only [ha] at h
          simp only [accumulate_sim w pol1 pol2 r _ _ r1 hco hd' ha]
          exact finish_sim w u pol1 pol2 mem ds neg result e1 r1 e v hco h
      · rw [parseLoop_step_continue w u pol1 mem ds neg result fuel p endp e1 bytes r d hs
          (by omega)] at h
        rw [parseLoop_step_continue w u pol2 mem ds neg result fuel p endp e1 bytes r d hs2
          (by omega)]
        cases ha : accumulate w pol1 r d bytes with
        | none => simp only [ha] at h; exact Ret.noConfusion h
        | some r1 =>
          simp only [ha] at h
          simp only [accumulate_sim w pol1 pol2 r _ _ r1 hco (Or.inl hd) ha]
          exact ih _ _ _ _ _ (le_refl _) (by omega) h

/-- The body of `_DEFINE` under two policies: when it returns a pointer and a value
under the first policy, it returns the same under the second, which checks less. Without
a size the start lies below the largest address. -/
theorem defineBody_sim (w : Width) (u : Bool) (pol1 pol2 : Policy) (mem : Mem)
    (result p endp e v : Nat)
    (hnt : pol2.is_null_terminated = pol1.is_null_terminated)
    (hsz : pol2.has_size = pol1.has_size)
    (hco : pol2.check_overflow = true → pol1.check_overflow = true)
    (hin : (pol2.check_input = pol1.check_input ∧ pol2.is_exact = pol1.is_exact) ∨
      (pol2.check_input = false ∧ pol1.has_size = true ∧ pol1.is_exact = true))
    (hp : pol1.has_size = false → p < endp)
    (h : defineBody w u pol1 mem result p endp = Ret.ok e v) :
    defineBody w u pol2 mem result p endp = Ret.ok e v := by
  simp only [defineBody] at h ⊢
  rw [hsz, hnt]
  by_cases g1 : (pol1.has_size && decide (endp ≤ p)) = true
  · rw [if_pos g1] at h; exact Ret.noConfusion h
  · rw [if_neg g1] at h ⊢
    by_cases g2 : (pol1.is_null_terminated && decide (byteAt mem p = 0)) = true
    · rw [if_pos g2] at h; exact Ret.noConfusion h
    · rw [if_neg g2] at h ⊢
      generalize (!u && decide (byteAt mem p = 45)) = neg at h ⊢
      by_cases g3 : (neg && pol1.has_size && decide (endp ≤ (if neg then p + 1 else p))) = true
      · rw [if_pos g3] at h; exact Ret.noConfusion h
      · rw [if_neg g3] at h ⊢
        by_cases g4 : (pol1.check_input && !(isDigit (byteAt mem (if neg then p + 1 else p))))
            = true
        · rw [if_pos g4] at h; exact Ret.noConfusion h
        · rw [if_neg g4] at h
          have g5 : ¬ (pol2.check_input && !(isDigit (byteAt mem (if neg then p + 1 else p))))
              = true := by
            rcases hin with ⟨hci, _⟩ | ⟨hci, _, _⟩
            · rw [hci]; exact g4
            · rw [hci]; simp
          rw [if_neg g5]
          have hle : (if neg then p + 1 else p) ≤ endp := by
            cases hs : pol1.has_size
            · have := hp hs
              split <;> omega
            · cases hn : neg
              · simp [hs] at g1
                simp; omega
              · simp [hs, hn] at g3
                simp; omega
          exact parseLoop_sim w u pol1 pol2 mem _ neg result e v hnt hsz hco hin _ _ _ _ _ _
            (by simp [_CHUNK_SIZE]) (by omega) h

/-- C15 (the unchecked variants agree with the checked ones on checked inputs): for every
width and signedness, every input and every starting `*result`, when `parse_all_n` returns
a pointer and stores a value, `parse_nooverflow`, `parse_novalidate` and `parse_nocheck`
called with the same pointer and size return the same pointer and store the same value;
and when `parse` (on a string that starts below the largest address) returns a pointer
and stores a value, so does `parse_overflow`. -/
theorem unchecked_agree (w : Width) (u : Bool) (mem : Mem) (result p size e v : Nat) :
    (parse_all_n w u mem result p size = Ret.ok e v →
      parse_nooverflow w u mem result p size = Ret.ok e v ∧
      parse_novalidate w u mem result p size = Ret.ok e v ∧
      parse_nocheck w u mem result p size = Ret.ok e v) ∧
    (p < ptrMax → parse w u mem result p = Ret.ok e v →
      parse_overflow w u mem result p = Ret.ok e v) := by
  constructor
  · intro h
    by_cases hshort : size < _MAX_DIGITS w u
    · rw [parse_all_n, define_short w u _ mem result p size rfl rfl hshort] at h
      rw [parse_novalidate, define_short w u _ mem result p size rfl rfl hshort]
      simp only [parseAllNPolicy, parseNovalidatePolicy, if_true, Bool.false_eq_true,
        if_false] at h ⊢
      have h2 := defineBody_sim w u parseNooverflowPolicy parseNocheckPolicy mem result p
        (p + size) e v rfl rfl (fun hc => by simp [parseNocheckPolicy] at hc)
        (Or.inr ⟨rfl, rfl, rfl⟩) (fun hc => by simp [parseNooverflowPolicy] at hc) h
      exact ⟨h, h2, h2⟩
    · rw [parse_all_n, define_long w u _ mem result p (p + size) (by omega)] at h
      rw [parse_novalidate, define_long w u _ mem result p (p + size) (by omega)]
      exact ⟨defineBody_sim w u parseAllNPolicy parseNooverflowPolicy mem result p
          (p + size) e v rfl rfl (fun hc => by simp [parseNooverflowPolicy] at hc)
          (Or.inl ⟨rfl, rfl⟩) (fun hc => by simp [parseAllNPolicy] at hc) h,
        defineBody_sim w u parseAllNPolicy parseNovalidatePolicy mem result p
          (p + size) e v rfl rfl (fun _ => rfl)
          (Or.inr ⟨rfl, rfl, rfl⟩) (fun hc => by simp [parseAllNPolicy] at hc) h,
        defineBody_sim w u parseAllNPolicy parseNocheckPolicy mem result p
          (p + size) e v rfl rfl (fun hc => by simp [parseNocheckPolicy] at hc)
          (Or.inr ⟨rfl, rfl, rfl⟩) (fun hc => by simp [parseAllNPolicy] at hc) h⟩
  · intro hp h
    rw [parse, define_unsized _ _ _ _ _ _ _ rfl] at h
    rw [parse_overflow, define_unsized _ _ _ _ _ _ _ rfl]
    exact defineBody_sim w u parsePolicy parseOverflowPolicy mem result p ptrMax e v rfl rfl
      (fun hc => by simp [parseOverflowPolicy] at hc) (Or.inl ⟨rfl, rfl⟩) (fun _ => hp) h

/-- The signed 64 bit functions on "-9223372036854775808" with size 20 and on "-17" with
size 3, and `parse` and `parse_overflow` on "123abc" at an unaligned address. -/
theorem unchecked_agree_witness :
    (parse_all_n Width.w64 false (memOf 16 (bytesOf "-9223372036854775808") 49) 0 16 20
        = Ret.ok 36 9223372036854775808 ∧
      parse_nooverflow Width.w64 false (memOf 16 (bytesOf "-9223372036854775808") 49) 0 16 20
        = Ret.ok 36 9223372036854775808 ∧
      parse_novalidate Width.w64 false (memOf 16 (bytesOf "-9223372036854775808") 49) 0 16 20
        = Ret.ok 36 9223372036854775808 ∧
      parse_nocheck Width.w64 false (memOf 16 (bytesOf "-9223372036854775808") 49) 0 16 20
        = Ret.ok 36 9223372036854775808) ∧
    (parse_all_n Width.w64 false (memOf 18 (bytesOf "-17") 49) 0 18 3
        = Ret.ok 21 (encode Width.w64 (-17)) ∧
      parse_novalidate Width.w64 false (memOf 18 (bytesOf "-17") 49) 0 18 3
        = Ret.ok 21 (encode Width.w64 (-17))) ∧
    (parse Width.w32 true (memOf 17 (bytesOf "123abc") 49) 0 17 = Ret.ok 20 123 ∧
      parse_overflow Width.w32 true (memOf 17 (bytesOf "123abc") 49) 0 17 = Ret.ok 20 123) :=
  have h1 : parse_all_n Width.w64 false (memOf 16 (bytesOf "-9223372036854775808") 49) 0 16 20
      = Ret.ok 36 9223372036854775808 := by decide
  have h2 : parse_all_n Width.w64 false (memOf 18 (bytesOf "-17") 49) 0 18 3
      = Ret.ok 21 (encode Width.w64 (-17)) := by decide
  have h3 : parse Width.w32 true (memOf 17 (bytesOf "123abc") 49) 0 17 = Ret.ok 20 123 := by
    decide
  ⟨⟨h1, (unchecked_agree Width.w64 false (memOf 16 (bytesOf "-9223372036854775808") 49) 0 16 20
      36 9223372036854775808).1 h1⟩,
    ⟨h2, ((unchecked_agree Width.w64 false (memOf 18 (bytesOf "-17") 49) 0 18 3
      21 (encode Width.w64 (-17))).1 h2).2.1⟩,
    ⟨h3, (unchecked_agree Width.w32 true (memOf 17 (bytesOf "123abc") 49) 0 17 0 20 123).2
      (by decide) h3⟩⟩

/-! ## The accumulator after each fold -/

theorem foldTrace_step_null (w : Width) (pol : Policy) (mem : Mem)
    (fuel p endp bytes r d : Nat)
    (hs : scanChunk pol mem (p + 4) endp bytes = none) :
    foldTrace w pol mem (fuel + 1) p endp bytes r d = [] := by
  simp [foldTrace, _CHUNK_SIZE, hs]

theorem foldTrace_step_continue (w : Width) (pol : Policy) (mem : Mem)
    (fuel p endp endp1 bytes r d : Nat)
    (hs : scanChunk pol mem (p + 4) endp bytes = some endp1) (hlt : p + 4 < endp1) :
    foldTrace w pol mem (fuel + 1) p endp bytes r d =
      match accumulate w pol r d bytes with
      | none => []
      | some r1 => (p + 4, r1) ::
          foldTrace w pol mem fuel (p + 4) endp1 (_LOAD_FROM mem (p + 4)) r1 4 := by
  have h1 : ¬ (p + 4 ≥ endp1) := by omega
  simp only [foldTrace, _CHUNK_SIZE, hs, h1, if_false]

theorem foldTrace_step_last (w : Width) (pol : Policy) (mem : Mem)
    (fuel p endp endp1 bytes r d : Nat)
    (hs : scanChunk pol mem (p + 4) endp bytes = some endp1) (hge : endp1 ≤ p + 4) :
    foldTrace w pol mem (fuel + 1) p endp bytes r d =
      match accumulate w pol r ((d + 2 ^ wordBits - (p + 4 - endp1)) % 2 ^ wordBits)
          (_SHIFT_LEFT_N_BYTES bytes (p + 4 - endp1)) with
      | none => []
      | some r1 => [(endp1, r1)] := by
  have h1 : p + 4 ≥ endp1 := hge
  have h2 : p + 4 - (p + 4 - endp1) ≥ endp1 := by omega
  have h3 : p + 4 - (p + 4 - endp1) = endp1 := by omega
  simp only [foldTrace, _CHUNK_SIZE, hs, h1, h3, if_true, ge_iff_le, le_refl]

/-- A fold that goes through leaves the accumulator congruent to `r * 10 ^ d + s`
modulo `2 ^ w`, with or without the overflow check. -/
theorem accumulate_congr (w : Width) (pol : Policy) (r d bytes s r1 : Nat)
    (hr : r < 2 ^ w.bits) (hd : d ≤ 4) (hs : s < 10000)
    (hs0 : d = 0 → s = 0) (hs1 : d ≠ 0 → _CALCULATE_BASE_10 _CHUNK_SIZE bytes = s)
    (h : accumulate w pol r d bytes = some r1) :
    r1 = (r * 10 ^ d + s) % 2 ^ w.bits := by
  cases hco : pol.check_overflow
  · exact ((accumulate_spec w pol r d bytes s hr hd hs hs0 hs1).2 r1 h).2.1 hco
  · have h2 := accumulate_unchecked w pol parseNocheckPolicy r d bytes r1 hco rfl (Or.inl hd) h
    exact ((accumulate_spec w parseNocheckPolicy r d bytes s hr hd hs hs0 hs1).2 r1 h2).2.1 rfl

/-- One fold, seen from the exact value `P` of the seed and the digits so far: the new
accumulator is below `2 ^ w`, congruent to the new exact value, and equal to it when the
overflow check is on and the new exact value is below `10 * 2 ^ w`. -/
theorem fold_invariant (w : Width) (pol : Policy) (r d bytes s r1 P : Nat)
    (hr : r < 2 ^ w.bits) (hd : d ≤ 4) (hs : s < 10000)
    (hs0 : d = 0 → s = 0) (hs1 : d ≠ 0 → _CALCULATE_BASE_10 _CHUNK_SIZE bytes = s)
    (hP1 : r % 2 ^ w.bits = P % 2 ^ w.bits)
    (hP2 : pol.check_overflow = true → P < 10 * 2 ^ w.bits → r = P)
    (h : accumulate w pol r d bytes = some r1) :
    r1 < 2 ^ w.bits ∧ r1 % 2 ^ w.bits = (P * 10 ^ d + s) % 2 ^ w.bits ∧
      (pol.check_overflow = true → P * 10 ^ d + s < 10 * 2 ^ w.bits → r1 = P * 10 ^ d + s) := by
  have hc := accumulate_congr w pol r d bytes s r1 hr hd hs hs0 hs1 h
  obtain ⟨g1, _, g3⟩ := (accumulate_spec w pol r d bytes s hr hd hs hs0 hs1).2 r1 h
  have hpos : 1 ≤ 10 ^ d := Nat.one_le_pow _ _ (by norm_num)
  have hPT : P ≤ P * 10 ^ d + s :=
    le_trans (Nat.le_mul_of_pos_right P hpos) (Nat.le_add_right _ _)
  refine ⟨g1, ?_, ?_⟩
  · rw [hc, Nat.mod_mod, Nat.add_mod, Nat.mul_mod, hP1, ← Nat.mul_mod, ← Nat.add_mod]
  · intro hco hlt
    have hrP := hP2 hco (by omega)
    rw [hrP] at g3
    rcases g3 hco with e | e
    · exact e
    · omega

/-- The record of the loop on a run of digits. From a chunk at `c` whose first `ig` bytes
are ignored, with digits from `c + ig` up to the stop position `E`, an accumulator `r`
and the exact value `P` of the seed and the digits before `c + ig`: every recorded pair
`(c', r')` has its cursor between `c + ig` and `E`, and `r'` is below `2 ^ w`, congruent
modulo `2 ^ w` to the exact value of the seed and the digits before `c'`, and equal to it
when the overflow check is on and that value is below `10 * 2 ^ w`. -/
theorem foldTrace_spec (w : Width) (pol : Policy) (mem : Mem) (E : Nat) :
    ∀ fuel c ig endp r P,
      c % 4 = 0 → ig < 4 → c + ig ≤ E → E ≤ endp → c < endp →
      (∀ a, c + ig ≤ a → a < E → isDigit (byteAt mem a) = true) →
      (E = endp ∨ (pol.check_input = true ∧ isDigit (byteAt mem E) = false)) →
      r < 2 ^ w.bits → r % 2 ^ w.bits = P % 2 ^ w.bits →
      (pol.check_overflow = true → P < 10 * 2 ^ w.bits → r = P) →
      ∀ c' r', (c', r') ∈ foldTrace w pol mem fuel c endp
          (_ZERO_FIRST_N_BYTES (_LOAD_FROM mem c) ig) r (4 - ig) →
        c + ig ≤ c' ∧ c' ≤ E ∧ r' < 2 ^ w.bits ∧
        r' % 2 ^ w.bits
          = (P * 10 ^ (c' - (c + ig)) + decVal mem (c + ig) (c' - (c + ig))) % 2 ^ w.bits ∧
        (pol.check_overflow = true →
          P * 10 ^ (c' - (c + ig)) + decVal mem (c + ig) (c' - (c + ig)) < 10 * 2 ^ w.bits →
          r' = P * 10 ^ (c' - (c + ig)) + decVal mem (c + ig) (c' - (c + ig))) := by
  intro fuel
  induction fuel with
  | zero => intro c ig endp r P _ _ _ _ _ _ _ _ _ _ c' r' h; simp [foldTrace] at h
  | succ fuel ih =>
    intro c ig endp r P hc hig hcE hEe hce hdig hstop hr hP1 hP2 c' r' hmem
    by_cases hA : c + 4 ≤ E ∧ c + 4 < endp
    · -- a chunk full of digits that is not the last one
      have hd4 : ∀ i, ig ≤ i → i < 4 → isDigit (byteAt mem (c + i)) = true :=
        fun i h1 h2 => hdig (c + i) (by omega) (by omega)
      have hscan := scan_full pol mem c ig endp hig hd4
      have hval := chunk_value_full mem c ig hig hd4
      have hslt : decVal mem (c + ig) (4 - ig) < 10000 := by
        have := decVal_lt mem (c + ig) (4 - ig)
          (fun i hi => hdig (c + ig + i) (by omega) (by omega))
        have h2 : 10 ^ (4 - ig) ≤ 10 ^ 4 := Nat.pow_le_pow_right (by norm_num) (by omega)
        norm_num at h2
        omega
      rw [foldTrace_step_continue w pol mem fuel c endp endp _ r _ hscan hA.2] at hmem
      cases hacc : accumulate w pol r (4 - ig) (_ZERO_FIRST_N_BYTES (_LOAD_FROM mem c) ig) with
      | none => simp [hacc] at hmem
      | some r1 =>
        simp only [hacc, List.mem_cons, Prod.mk.injEq] at hmem
        obtain ⟨f1, f2, f3⟩ := fold_invariant w pol r (4 - ig) _ (decVal mem (c + ig) (4 - ig))
          r1 P hr (by omega) hslt (fun h => by omega) (fun _ => hval) hP1 hP2 hacc
        rcases hmem with ⟨e1, e2⟩ | hrest
        · rw [e1, e2, show c + 4 - (c + ig) = 4 - ig by omega]
          exact ⟨by omega, hA.1, f1, f2, f3⟩
        · rw [chunk_zero mem (c + 4)] at hrest
          obtain ⟨i1, i2, i3, i4, i5⟩ := ih (c + 4) 0 endp r1
            (P * 10 ^ (4 - ig) + decVal mem (c + ig) (4 - ig)) (by omega) (by norm_num)
            (by omega) hEe hA.2 (fun a h1 h2 => hdig a (by omega) h2) hstop f1 f2 f3 c' r' hrest
          have hT : P * 10 ^ (c' - (c + ig)) + decVal mem (c + ig) (c' - (c + ig))
              = (P * 10 ^ (4 - ig) + decVal mem (c + ig) (4 - ig)) * 10 ^ (c' - (c + 4 + 0))
                + decVal mem (c + 4 + 0) (c' - (c + 4 + 0)) := by
            have e1 : c' - (c + ig) = (4 - ig) + (c' - (c + 4 + 0)) := by omega
            have e2 : c + ig + (4 - ig) = c + 4 + 0 := by omega
            rw [e1, decVal_add, e2, pow_add]
            ring
          rw [hT]
          exact ⟨by omega, i2, i3, i4, i5⟩
    · -- the last chunk
      have hE4 : E ≤ c + 4 := by omega
      have hstop' : E = endp ∨
          (pol.check_input = true ∧ isDigit (byteAt mem E) = false ∧ E < c + 4) := by
        rcases hstop with h | h
        · exact Or.inl h
        · by_cases he : E = endp
          · exact Or.inl he
          · exact Or.inr ⟨h.1, h.2, by omega⟩
      rcases scan_last pol mem c ig E endp hc hig hcE hE4 hEe hce hdig hstop' with
        ⟨hs, _⟩ | ⟨hs, _⟩
      · rw [foldTrace_step_last w pol mem fuel c endp E _ r _ hs hE4] at hmem
        have hidx : (4 - ig + 2 ^ wordBits - (c + 4 - E)) % 2 ^ wordBits = E - (c + ig) := by
          simp only [wordBits]; omega
        rw [hidx] at hmem
        cases hacc : accumulate w pol r (E - (c + ig))
            (_SHIFT_LEFT_N_BYTES (_ZERO_FIRST_N_BYTES (_LOAD_FROM mem c) ig) (c + 4 - E)) with
        | none => simp [hacc] at hmem
        | some r1 =>
          simp only [hacc, List.mem_singleton, Prod.mk.injEq] at hmem
          obtain ⟨e1, e2⟩ := hmem
          have hslt : decVal mem (c + ig) (E - (c + ig)) < 10000 := by
            have := decVal_lt mem (c + ig) (E - (c + ig))
              (fun i hi => hdig (c + ig + i) (by omega) (by omega))
            have h2 : 10 ^ (E - (c + ig)) ≤ 10 ^ 4 :=
              Nat.pow_le_pow_right (by norm_num) (by omega)
            norm_num at h2
            omega
          obtain ⟨f1, f2, f3⟩ := fold_invariant w pol r (E - (c + ig)) _
            (decVal mem (c + ig) (E - (c + ig))) r1 P hr (by omega) hslt
            (fun h0 => by rw [h0]; rfl)
            (fun h0 => by
              have := chunk_value mem c ig (c + 4 - E) hig (by omega) (by omega)
                (fun i h1 h2 => hdig (c + i) (by omega) (by omega))
              rw [this]
              congr 1
              omega) hP1 hP2 hacc
          rw [e1, e2]
          exact ⟨hcE, le_refl _, f1, f2, f3⟩
      · rw [foldTrace_step_null w pol mem fuel c endp _ r _ hs] at hmem
        simp at hmem

/-- A call that stores a value returns the `end` it was finished with. -/
theorem finish_ok_end (w : Width) (u : Bool) (pol : Policy) (mem : Mem) (ds : Nat) (neg : Bool)
    (result E r e v : Nat) (h : finish w u pol mem ds neg result E r = Ret.ok e v) : e = E := by
  simp only [finish] at h
  repeat' split at h
  all_goals first
    | (simp only [Ret.ok.injEq] at h; exact h.1.symm)
    | simp at h

/-- The result of the loop is computed from a recorded accumulator: when the loop returns
the pointer `e` and stores `v`, the record holds a pair `(e, r)` and `finish` turns `r`
into `v`. -/
theorem parseLoop_trace (w : Width) (u : Bool) (pol : Policy) (mem : Mem) (ds : Nat)
    (neg : Bool) (result e v : Nat) :
    ∀ fuel p endp bytes r d,
      parseLoop w u pol mem ds neg result fuel p endp bytes r d = Ret.ok e v →
      ∃ r', (e, r') ∈ foldTrace w pol mem fuel p endp bytes r d ∧
        finish w u pol mem ds neg result e r' = Ret.ok e v := by
  intro fuel
  induction fuel with
  | zero => intro p endp bytes r d h; simp [parseLoop] at h
  | succ fuel ih =>
    intro p endp bytes r d h
    cases hs : scanChunk pol mem (p + 4) endp bytes with
    | none =>
      rw [parseLoop_step_null w u pol mem ds neg result fuel p endp bytes r d hs] at h
      exact Ret.noConfusion h
    | some e1 =>
      by_cases hle : e1 ≤ p + 4
      · rw [parseLoop_step_last w u pol mem ds neg result fuel p endp e1 bytes r d hs hle] at h
        rw [foldTrace_step_last w pol mem fuel p endp e1 bytes r d hs hle]
        cases ha : accumulate w pol r ((d + 2 ^ wordBits - (p + 4 - e1)) % 2 ^ wordBits)
            (_SHIFT_LEFT_N_BYTES bytes (p + 4 - e1)) with
        | none => simp only [ha] at h; exact Ret.noConfusion h
        | some r1 =>
          simp only [ha] at h ⊢
          have he := finish_ok_end w u pol mem ds neg result e1 r1 e v h
          rw [he]
          rw [he] at h
          exact ⟨r1, List.mem_singleton.mpr rfl, h⟩
      · rw [parseLoop_step_continue w u pol mem ds neg result fuel p endp e1 bytes r d hs
          (by omega)] at h
        rw [foldTrace_step_continue w pol mem fuel p endp e1 bytes r d hs (by omega)]
        cases ha : accumulate w pol r d bytes with
        | none => simp only [ha] at h; exact Ret.noConfusion h
        | some r1 =>
          simp only [ha] at h ⊢
          obtain ⟨r', m1, m2⟩ := ih _ _ _ _ _ h
          exact ⟨r', List.mem_cons_of_mem _ m1, m2⟩

/-- The prelude of `defineTrace` and `defineBody` on an input with at least one digit. -/
theorem defineTrace_run (w : Width) (u : Bool) (pol : Policy) (mem : Mem)
    (result p endp E : Nat) (neg : Bool)
    (hneg : neg = (!u && decide (byteAt mem p = 45)))
    (hsz : pol.has_size = true → p < endp)
    (hnt : pol.is_null_terminated = true → byteAt mem p ≠ 0)
    (hE : p + signLen neg < E) (hEe : E ≤ endp)
    (hdig : ∀ a, p + signLen neg ≤ a → a < E → isDigit (byteAt mem a) = true) :
    defineTrace w u pol mem result p endp
        = foldTrace w pol mem ((endp - ((p + signLen neg) - (p + signLen neg) % 4)) / 4 + 1)
            ((p + signLen neg) - (p + signLen neg) % 4) endp
            (_ZERO_FIRST_N_BYTES (_LOAD_FROM mem ((p + signLen neg) - (p + signLen neg) % 4))
              ((p + signLen neg) % 4))
            (if u then result % 2 ^ w.bits else 0) (4 - (p + signLen neg) % 4) ∧
      defineBody w u pol mem result p endp
        = parseLoop w u pol mem (p + signLen neg) neg result
            ((endp - ((p + signLen neg) - (p + signLen neg) % 4)) / 4 + 1)
            ((p + signLen neg) - (p + signLen neg) % 4) endp
            (_ZERO_FIRST_N_BYTES (_LOAD_FROM mem ((p + signLen neg) - (p + signLen neg) % 4))
              ((p + signLen neg) % 4))
            (if u then result % 2 ^ w.bits else 0) (4 - (p + signLen neg) % 4) := by
  rw [← signLen_add] at hE hdig ⊢
  have e1 : (pol.has_size && decide (endp ≤ p)) = false := by
    cases h : pol.has_size
    · rfl
    · have := hsz h; simp; omega
  have e2 : (pol.is_null_terminated && decide (byteAt mem p = 0)) = false := by
    cases h : pol.is_null_terminated
    · rfl
    · have := hnt h; simp [this]
  have e3 : (neg && pol.has_size && decide (endp ≤ (if neg then p + 1 else p))) = false := by
    have : ¬ (endp ≤ (if neg then p + 1 else p)) := by omega
    simp [this]
  have e4 : (pol.check_input && !(isDigit (byteAt mem (if neg then p + 1 else p)))) = false := by
    rw [hdig _ (le_refl _) hE]; simp
  constructor
  · simp only [defineTrace, e1, ← hneg, e2, e3, e4, Bool.false_eq_true, if_false, and_three]
    simp only [_CHUNK_SIZE]
  · simp only [defineBody, e1, ← hneg, e2, e3, e4, Bool.false_eq_true, if_false, and_three]
    simp only [_CHUNK_SIZE]

/-- A value of at least `10 * 2 ^ w` is outside the range of every type of width `w`. -/
theorem huge_out_of_range (w : Width) (u neg : Bool) (D : Nat) (hneg : neg = true → u = false)
    (hD : 10 * 2 ^ w.bits ≤ D) :
    signedVal neg D < typeMin w u ∨ typeMax w u < signedVal neg D := by
  have hhalf := two_pow_bits_half w
  have hposI : (0 : Int) < 2 ^ (w.bits - 1) := by positivity
  have e1 : ((2 ^ w.bits : Nat) : Int) = 2 ^ w.bits := by push_cast; rfl
  have e2 : ((2 ^ (w.bits - 1) : Nat) : Int) = 2 ^ (w.bits - 1) := by push_cast; rfl
  have hDI : (10 : Int) * 2 ^ w.bits ≤ (D : Int) := by exact_mod_cast hD
  have e3 : (2 : Int) ^ w.bits = 2 * 2 ^ (w.bits - 1) := by exact_mod_cast hhalf
  cases u <;> cases neg <;> simp [typeMin, typeMax, signedVal] at hneg ⊢ <;> omega

/-- C20 (accumulator invariant), as the code has it. The body of `_DEFINE` runs, under any
policy, on an optional minus sign followed by digits up to the stop position `E` (the
first non-digit of a validating policy, or `end`). Let `seed` be the starting `*result`
of an unsigned type and 0 for a signed type. For every pair `(c, r)` of the record, that
is the cursor and the accumulator after a fold: `c` lies between the start of the digits
and `E`; `r` is below `2 ^ w` and congruent modulo `2 ^ w` to `seed * 10 ^ d + value`, for
the `d = c - digits_start` digits before the cursor; and with overflow checking `r` equals
that quantity whenever it is below `10 * 2 ^ w`. The result of a call that stores a value
is computed by `finish` from a recorded accumulator. With overflow checking and no seed,
in a call that stores a value every recorded accumulator is exactly the value of the
digits before its cursor. -/
theorem accumulator_invariant (w : Width) (u : Bool) (pol : Policy) (mem : Mem)
    (result p endp E : Nat) (neg : Bool)
    (hneg : neg = (!u && decide (byteAt mem p = 45)))
    (hsz : pol.has_size = true → p < endp)
    (hnt : pol.is_null_terminated = true → byteAt mem p ≠ 0)
    (hE : p + signLen neg < E) (hEe : E ≤ endp)
    (hdig : ∀ a, p + signLen neg ≤ a → a < E → isDigit (byteAt mem a) = true)
    (hstop : E = endp ∨ (pol.check_input = true ∧ isDigit (byteAt mem E) = false)) :
    (∀ c r, (c, r) ∈ defineTrace w u pol mem result p endp →
      p + signLen neg ≤ c ∧ c ≤ E ∧ r < 2 ^ w.bits ∧
      r % 2 ^ w.bits
        = ((if u then result % 2 ^ w.bits else 0) * 10 ^ (c - (p + signLen neg))
            + decVal mem (p + signLen neg) (c - (p + signLen neg))) % 2 ^ w.bits ∧
      (pol.check_overflow = true →
        (if u then result % 2 ^ w.bits else 0) * 10 ^ (c - (p + signLen neg))
            + decVal mem (p + signLen neg) (c - (p + signLen neg)) < 10 * 2 ^ w.bits →
        r = (if u then result % 2 ^ w.bits else 0) * 10 ^ (c - (p + signLen neg))
            + decVal mem (p + signLen neg) (c - (p + signLen neg)))) ∧
    (∀ e v, defineBody w u pol mem result p endp = Ret.ok e v →
      ∃ r, (e, r) ∈ defineTrace w u pol mem result p endp ∧
        finish w u pol mem (p + signLen neg) neg result e r = Ret.ok e v) ∧
    (pol.check_overflow = true → (u = true → result % 2 ^ w.bits = 0) →
      ∀ e v, defineBody w u pol mem result p endp = Ret.ok e v →
      ∀ c r, (c, r) ∈ defineTrace w u pol mem result p endp →
        r = decVal mem (p + signLen neg) (c - (p + signLen neg))) := by
  obtain ⟨ht, hb⟩ := defineTrace_run w u pol mem result p endp E neg hneg hsz hnt hE hEe hdig
  have hr : (if u then result % 2 ^ w.bits else 0) < 2 ^ w.bits := by
    have hM : 0 < 2 ^ w.bits := Nat.pow_pos (by norm_num)
    split
    · exact Nat.mod_lt _ hM
    · exact hM
  have e5 : p + signLen neg - (p + signLen neg) % 4 + (p + signLen neg) % 4 = p + signLen neg := by
    omega
  have part1 : ∀ c r, (c, r) ∈ defineTrace w u pol mem result p endp →
      p + signLen neg ≤ c ∧ c ≤ E ∧ r < 2 ^ w.bits ∧
      r % 2 ^ w.bits
        = ((if u then result % 2 ^ w.bits else 0) * 10 ^ (c - (p + signLen neg))
            + decVal mem (p + signLen neg) (c - (p + signLen neg))) % 2 ^ w.bits ∧
      (pol.check_overflow = true →
        (if u then result % 2 ^ w.bits else 0) * 10 ^ (c - (p + signLen neg))
            + decVal mem (p + signLen neg) (c - (p + signLen neg)) < 10 * 2 ^ w.bits →
        r = (if u then result % 2 ^ w.bits else 0) * 10 ^ (c - (p + signLen neg))
            + decVal mem (p + signLen neg) (c - (p + signLen neg))) := by
    intro c r hmem
    rw [ht] at hmem
    have key := foldTrace_spec w pol mem E
      ((endp - ((p + signLen neg) - (p + signLen neg) % 4)) / 4 + 1)
      ((p + signLen neg) - (p + signLen neg) % 4) ((p + signLen neg) % 4) endp
      (if u then result % 2 ^ w.bits else 0) (if u then result % 2 ^ w.bits else 0)
      (by omega) (by omega) (by omega) hEe (by omega)
      (fun a h1 h2 => hdig a (by omega) h2) hstop hr rfl (fun _ _ => rfl) c r hmem
    rw [e5] at key
    exact key
  refine ⟨part1, ?_, ?_⟩
  · intro e v h
    rw [hb] at h
    rw [ht]
    exact parseLoop_trace w u pol mem _ neg result e v _ _ _ _ _ _ h
  · intro hco hseed e v h c r hmem
    obtain ⟨q1, q2, q3, q4, q5⟩ := part1 c r hmem
    have hs0 : (if u then result % 2 ^ w.bits else 0) = 0 := by
      cases hu : u
      · rfl
      · simp [hseed hu]
    rw [hs0, Nat.zero_mul, Nat.zero_add] at q5
    apply q5 hco
    -- the call stored a value, so the digits up to `E` are worth less than `10 * 2 ^ w`
    have hnu : neg = true → u = false := by
      intro hn
      rw [hn] at hneg
      have := hneg.symm
      simp only [Bool.and_eq_true, Bool.not_eq_true', decide_eq_true_eq] at this
      exact this.1
    have hD : decVal mem (p + signLen neg) (E - (p + signLen neg)) < 10 * 2 ^ w.bits := by
      by_contra hc
      obtain ⟨o, ho1, ho2, ho3⟩ := defineBody_run w u pol mem result p endp E neg hneg hsz hnt
        (by rw [signLen_add]; exact hE) hEe
        (fun a h1 h2 => hdig a (by rw [signLen_add] at h1; exact h1) h2) hstop
      rw [signLen_add] at ho1 ho3
      rw [hs0, Nat.zero_mul, Nat.zero_add] at ho3
      rw [ho1] at h
      cases o with
      | none => exact Ret.noConfusion h
      | some r1 =>
        obtain ⟨_, h2, _, h4⟩ := ho3 r1 rfl
        have hfin := finish_out_of_range w u pol mem (p + signLen neg) E neg result r1
          (by omega) hco hdig hnu
          (huge_out_of_range w u neg _ hnu (by omega)) h2 (h4 hco)
        simp only [retOf] at h
        rw [hfin] at h
        exact Ret.noConfusion h
    have hsplit : decVal mem (p + signLen neg) (E - (p + signLen neg))
        = decVal mem (p + signLen neg) (c - (p + signLen neg)) * 10 ^ (E - c)
          + decVal mem (p + signLen neg + (c - (p + signLen neg))) (E - c) := by
      rw [← decVal_add]
      congr 1
      omega
    have hpos : 1 ≤ 10 ^ (E - c) := Nat.one_le_pow _ _ (by norm_num)
    have := Nat.le_mul_of_pos_right (decVal mem (p + signLen neg) (c - (p + signLen neg))) hpos
    omega

/-- The unsigned 32 bit `parse` on "1234567" at an unaligned address: the record of the
accumulator is 123 after the first fold and 1234567 after the second and the third (which
adds no digit), each the value of the digits before the cursor. -/
theorem accumulator_invariant_witness :
    defineTrace Width.w32 true parsePolicy (memOf 17 (bytesOf "1234567") 49) 0 17 ptrMax
      = [(20, 123), (24, 1234567), (24, 1234567)] ∧
    123 = decVal (memOf 17 (bytesOf "1234567") 49) 17 3 ∧
    1234567 = decVal (memOf 17 (bytesOf "1234567") 49) 17 7 :=
  have h := accumulator_invariant Width.w32 true parsePolicy (memOf 17 (bytesOf "1234567") 49)
    0 17 ptrMax 24 false (by decide) (by decide) (by decide) (by decide) (by decide)
    (fun a h1 h2 => by
      have h3 : 17 ≤ a := h1
      interval_cases a <;> decide)
    (Or.inr ⟨rfl, by decide⟩)
  ⟨by decide,
    h.2.2 rfl (fun _ => rfl) 24 1234567 (by decide) 20 123 (by decide),
    h.2.2 rfl (fun _ => rfl) 24 1234567 (by decide) 24 1234567 (by decide)⟩

/-- C20 as stated does not hold for the exactness of the accumulator: in the unsigned 32
bit `parse` with the starting value 4294968 on "0000", a call with overflow checking that
reports no failure and stores 7040, the accumulator after the first fold is 7040 and not
4294968 * 10 ^ 4 + 0. -/
theorem accumulator_wraps_with_seed :
    ¬ (∀ (w : Width) (pol : Policy) (mem : Mem) (result p endp e v c r : Nat),
        pol.check_overflow = true →
        (∀ a, p ≤ a → a < c → isDigit (byteAt mem a) = true) →
        defineBody w true pol mem result p endp = Ret.ok e v →
        (c, r) ∈ defineTrace w true pol mem result p endp →
        r = (result % 2 ^ w.bits) * 10 ^ (c - p) + decVal mem p (c - p)) := by
  intro h
  have h1 := h Width.w32 parsePolicy (memOf 16 (bytesOf "0000") 49) 4294968 16 ptrMax 20 7040
    20 7040 rfl (fun a h1 h2 => by interval_cases a <;> decide) (by decide) (by decide)
  revert h1
  decide

/-! ## The number of digits of a type -/

/-- C26: the macro `_MAX_DIGITS(type, is_unsigned)` is 10 for the 32 bit types, 19 for the
signed and 20 for the unsigned 64 bit type, and 39 for the 128 bit types. It is the number of
decimal digits of the largest magnitude of the type: the maximum has at least that many
digits, and neither the maximum nor the magnitude of the minimum has more. Consequently a
run of more than `_MAX_DIGITS` digits that does not start with '0' has a value above the
maximum, and its negation lies below the minimum. -/
theorem max_digits_of_type (w : Width) (u : Bool) :
    (_MAX_DIGITS Width.w32 false = 10 ∧ _MAX_DIGITS Width.w32 true = 10 ∧
      _MAX_DIGITS Width.w64 false = 19 ∧ _MAX_DIGITS Width.w64 true = 20 ∧
      _MAX_DIGITS Width.w128 false = 39 ∧ _MAX_DIGITS Width.w128 true = 39) ∧
    ((10 : Int) ^ (_MAX_DIGITS w u - 1) ≤ typeMax w u ∧
      typeMax w u < 10 ^ _MAX_DIGITS w u ∧ -typeMin w u < 10 ^ _MAX_DIGITS w u) ∧
    (∀ (mem : Mem) (a n : Nat), _MAX_DIGITS w u < n →
      (∀ i, i < n → isDigit (byteAt mem (a + i)) = true) → byteAt mem a ≠ 48 →
      typeMax w u < (decVal mem a n : Int) ∧ -(decVal mem a n : Int) < typeMin w u) := by
  have hdig : (10 : Int) ^ (_MAX_DIGITS w u - 1) ≤ typeMax w u ∧
      typeMax w u < 10 ^ _MAX_DIGITS w u ∧ -typeMin w u < 10 ^ _MAX_DIGITS w u := by
    cases w <;> cases u <;> decide
  refine ⟨by decide, hdig, ?_⟩
  intro mem a n hn hd h0
  obtain ⟨m, rfl⟩ : ∃ m, n = m + 1 := ⟨n - 1, by omega⟩
  have hfirst : 49 ≤ byteAt mem a := by
    have := hd 0 (by omega)
    simp only [isDigit, Nat.add_zero, Bool.and_eq_true, decide_eq_true_eq] at this
    omega
  have hge := decVal_ge mem a m hfirst
  have hpow : 10 ^ _MAX_DIGITS w u ≤ 10 ^ m := Nat.pow_le_pow_right (by norm_num) (by omega)
  have hI : (10 : Int) ^ _MAX_DIGITS w u ≤ (decVal mem a (m + 1) : Int) := by
    exact_mod_cast le_trans hpow hge
  obtain ⟨_, h2, h3⟩ := hdig
  constructor <;> omega

/-- The eleven digits "12345678901" are above the maximum of the 32 bit types. -/
theorem max_digits_of_type_witness :
    typeMax Width.w32 true < (decVal (memOf 16 (bytesOf "12345678901") 49) 16 11 : Int) ∧
      -(decVal (memOf 16 (bytesOf "12345678901") 49) 16 11 : Int) < typeMin Width.w32 true :=
  (max_digits_of_type Width.w32 true).2.2 (memOf 16 (bytesOf "12345678901") 49) 16 11
    (by decide) (by decide) (by decide)

/-! ## The fold of an 8 byte chunk -/

/-- The bit pattern of a natural number and of its negation, reduced modulo `2 ^ w`. -/
theorem encode_mod (w : Width) (D : Nat) :
    encode w (D : Int) = D % 2 ^ w.bits ∧
      encode w (-(D : Int)) = (2 ^ w.bits - D % 2 ^ w.bits) % 2 ^ w.bits := by
  cases w <;> simp [encode, Width.bits, Width.sizeof] <;> omega

/-- The value stored by `finish` without the overflow check is the bit pattern of the
signed value of any number congruent to the accumulator. -/
theorem finish_wrap (w : Width) (u : Bool) (pol : Policy) (mem : Mem) (ds : Nat)
    (neg : Bool) (result E D : Nat) (hco : pol.check_overflow = false)
    (hneg : neg = true → u = false) :
    finish w u pol mem ds neg result E (D % 2 ^ w.bits)
      = Ret.ok E (encode w (signedVal neg D)) := by
  rw [finish_unchecked w u pol mem ds neg result E _ hco]
  obtain ⟨e1, e2⟩ := encode_mod w D
  cases hn : neg
  · simp only [signedVal, Bool.false_eq_true, if_false, e1, ite_self]
  · rw [hneg hn]
    simp only [signedVal, Bool.false_eq_true, if_false, if_true, e2]

/-- The body of an input-validating function called with `*result = 0` (any `*result`
for a signed type): when it returns a pointer `e` and stores `v`, then `e` lies after the
optional sign and at most at `end`, every byte between the sign and `e` is a digit, `e` is
`end` or holds a non-digit, and `v` is the bit pattern of the signed value of the digits,
which lies in the range of the type when overflow is checked. Without a size the start lies
below the largest address. -/
theorem defineBody_ok (w : Width) (u : Bool) (pol : Policy) (mem : Mem)
    (result p endp e v : Nat) (neg : Bool)
    (hneg : neg = (!u && decide (byteAt mem p = 45)))
    (hci : pol.check_input = true)
    (haddr : pol.has_size = false → p + 1 < endp)
    (hseed : u = true → result % 2 ^ w.bits = 0)
    (h : defineBody w u pol mem result p endp = Ret.ok e v) :
    p + signLen neg < e ∧ e ≤ endp ∧
      (∀ a, p + signLen neg ≤ a → a < e → isDigit (byteAt mem a) = true) ∧
      (e = endp ∨ isDigit (byteAt mem e) = false) ∧
      v = encode w (signedVal neg (decVal mem (p + signLen neg) (e - (p + signLen neg)))) ∧
      (pol.check_overflow = true →
        typeMin w u ≤ signedVal neg (decVal mem (p + signLen neg) (e - (p + signLen neg))) ∧
        signedVal neg (decVal mem (p + signLen neg) (e - (p + signLen neg))) ≤ typeMax w u) := by
  classical
  have hnu : neg = true → u = false ∧ byteAt mem p = 45 := by
    intro hn
    rw [hn] at hneg
    have := hneg.symm
    simp only [Bool.and_eq_true, Bool.not_eq_true', decide_eq_true_eq] at this
    exact this
  -- the digits start before `end`
  have hlt : p + signLen neg < endp := by
    cases hs : pol.has_size
    · have := haddr hs
      cases neg <;> simp [signLen] <;> omega
    · by_contra hc
      cases hn : neg
      · rw [hn] at hc
        simp only [signLen, Bool.false_eq_true, if_false, Nat.add_zero] at hc
        rw [defineBody_empty w u pol mem result p endp hs (by omega)] at h
        exact Ret.noConfusion h
      · rw [hn] at hc
        simp only [signLen, if_true] at hc
        obtain ⟨hu, hm⟩ := hnu hn
        rw [hu] at h
        rw [defineBody_lone_minus w pol mem result p endp hs hm (by omega)] at h
        exact Ret.noConfusion h
  -- the first character after the sign is a digit
  have hd0 : isDigit (byteAt mem (p + signLen neg)) = true := by
    by_contra hc
    rw [hneg] at hc
    rw [defineBody_nodigit w u pol mem result p endp hci (by simpa using hc)] at h
    exact Ret.noConfusion h
  -- the stop position: the first non-digit, or `end`
  have hex : ∃ k, endp ≤ p + signLen neg + k ∨
      isDigit (byteAt mem (p + signLen neg + k)) = false :=
    ⟨endp - (p + signLen neg), Or.inl (by omega)⟩
  have hstopk := Nat.find_spec hex
  have hmin : ∀ k, k < Nat.find hex → p + signLen neg + k < endp ∧
      isDigit (byteAt mem (p + signLen neg + k)) = true := by
    intro k hk
    have := Nat.find_min hex hk
    simp only [not_or, not_le, Bool.not_eq_false] at this
    exact this
  generalize Nat.find hex = n at hstopk hmin
  have hn1 : 1 ≤ n := by
    by_contra hc
    have h0 : n = 0 := by omega
    rw [h0] at hstopk
    simp only [Nat.add_zero] at hstopk
    rcases hstopk with h1 | h1
    · omega
    · rw [hd0] at h1; exact Bool.noConfusion h1
  have hEe : p + signLen neg + n ≤ endp := by
    have := (hmin (n - 1) (by omega)).1
    omega
  have hdig : ∀ a, p + signLen neg ≤ a → a < p + signLen neg + n →
      isDigit (byteAt mem a) = true := by
    intro a h1 h2
    have := (hmin (a - (p + signLen neg)) (by omega)).2
    rwa [show p + signLen neg + (a - (p + signLen neg)) = a by omega] at this
  have hstop : p + signLen neg + n = endp ∨
      isDigit (byteAt mem (p + signLen neg + n)) = false := by
    rcases hstopk with h1 | h1
    · exact Or.inl (by omega)
    · exact Or.inr h1
  have hnz : byteAt mem p ≠ 0 := by
    cases hn : neg
    · rw [hn] at hd0
      exact isDigit_ne_zero _ (by simpa [signLen] using hd0)
    · rw [(hnu hn).2]; norm_num
  obtain ⟨o, ho1, ho2, ho3⟩ := defineBody_run w u pol mem result p endp (p + signLen neg + n) neg
    hneg (fun _ => by omega) (fun _ => hnz) (by rw [signLen_add]; omega) hEe
    (fun a h1 h2 => hdig a (by rw [signLen_add] at h1; exact h1) h2)
    (by
      rcases hstop with h1 | h1
      · exact Or.inl h1
      · exact Or.inr ⟨hci, h1⟩)
  rw [signLen_add] at ho1 ho3
  rw [show p + signLen neg + n - (p + signLen neg) = n by omega] at ho3
  have hs0 : (if u then result % 2 ^ w.bits else 0) = 0 := by
    cases hu : u
    · rfl
    · simp [hseed hu]
  rw [hs0, Nat.zero_mul, Nat.zero_add] at ho3
  rw [ho1] at h
  cases o with
  | none => exact Ret.noConfusion h
  | some r1 =>
    simp only [retOf] at h
    have he := finish_ok_end w u pol mem _ neg result _ r1 e v h
    subst he
    rw [show p + signLen neg + n - (p + signLen neg) = n by omega]
    obtain ⟨_, h2, h3, h4⟩ := ho3 r1 rfl
    refine ⟨by omega, hEe, hdig, hstop, ?_⟩
    cases hco : pol.check_overflow
    · rw [h3 hco, finish_wrap w u pol mem _ neg result _ _ hco (fun hn => (hnu hn).1)] at h
      simp only [Ret.ok.injEq, true_and] at h
      exact ⟨h.symm, fun hc => by simp at hc⟩
    · by_cases hr : typeMin w u ≤ signedVal neg (decVal mem (p + signLen neg) n) ∧
          signedVal neg (decVal mem (p + signLen neg) n) ≤ typeMax w u
      · have hmag := magnitude_lt w u neg _ (fun hn => (hnu hn).1) hr.1 hr.2
        have hr1 : r1 = decVal mem (p + signLen neg) n := by
          rcases h4 hco with h5 | h5
          · exact h5
          · omega
        have hfin := finish_in_range w u pol mem (p + signLen neg) (p + signLen neg + n) neg
          result (by omega) hco hdig (fun hn => (hnu hn).1)
        rw [show p + signLen neg + n - (p + signLen neg) = n by omega] at hfin
        rw [hr1, hfin hr.1 hr.2] at h
        simp only [Ret.ok.injEq, true_and] at h
        exact ⟨h.symm, fun _ => hr⟩
      · have hout : signedVal neg (decVal mem (p + signLen neg) n) < typeMin w u ∨
            typeMax w u < signedVal neg (decVal mem (p + signLen neg) n) := by
          by_contra hc
          apply hr
          constructor <;> omega
        have hfin := finish_out_of_range w u pol mem (p + signLen neg) (p + signLen neg + n) neg
          result r1 (by omega) hco hdig (fun hn => (hnu hn).1)
        rw [show p + signLen neg + n - (p + signLen neg) = n by omega] at hfin
        rw [hfin hout h2 (h4 hco)] at h
        exact Ret.noConfusion h

/-- A function generated by `_DEFINE` with input validation and overflow checking, called
with `*result = 0`: when it returns a pointer `e` and stores `v`, then `e` lies after the
optional sign and at most at `end`, every byte between the sign and `e` is a digit, and
`v` is the bit pattern of the signed value of these digits, which is in the range of the
type. A short size goes through `parse_nooverflow`, where the digits are too few to
leave the range. -/
theorem define_ok (w : Width) (u : Bool) (pol : Policy) (mem : Mem) (p endp e v : Nat)
    (neg : Bool) (hneg : neg = (!u && decide (byteAt mem p = 45)))
    (hci : pol.check_input = true) (hco : pol.check_overflow = true)
    (haddr : pol.has_size = false → p + 1 < endp)
    (hsz : pol.has_size = true → p ≤ endp)
    (h : define w u pol mem 0 p endp = Ret.ok e v) :
    p + signLen neg < e ∧ e ≤ endp ∧
      (∀ a, p + signLen neg ≤ a → a < e → isDigit (byteAt mem a) = true) ∧
      v = encode w (signedVal neg (decVal mem (p + signLen neg) (e - (p + signLen neg)))) ∧
      typeMin w u ≤ signedVal neg (decVal mem (p + signLen neg) (e - (p + signLen neg))) ∧
      signedVal neg (decVal mem (p + signLen neg) (e - (p + signLen neg))) ≤ typeMax w u := by
  by_cases hd : pol.has_size = true ∧ endp - p < _MAX_DIGITS w u
  · obtain ⟨hs, hshort⟩ := hd
    have hend : endp = p + (endp - p) := by have := hsz hs; omega
    rw [hend, define_short w u pol mem 0 p (endp - p) hco hs hshort, hci, if_pos rfl,
      ← hend] at h
    obtain ⟨h1, h2, h3, _, h5, _⟩ := defineBody_ok w u parseNooverflowPolicy mem 0 p endp e v
      neg hneg rfl (fun hc => by simp [parseNooverflowPolicy] at hc) (fun _ => by simp) h
    have hnu : neg = true → u = false := by
      intro hn
      rw [hn] at hneg
      have := hneg.symm
      simp only [Bool.and_eq_true, Bool.not_eq_true', decide_eq_true_eq] at this
      exact this.1
    have hD := decVal_lt mem (p + signLen neg) (e - (p + signLen neg))
      (fun i hi => h3 _ (by omega) (by omega))
    obtain ⟨r1, r2⟩ := short_in_range w u neg (e - (p + signLen neg)) _ hnu hD (by omega)
    exact ⟨h1, h2, h3, h5, r1, r2⟩
  · have hdef : define w u pol mem 0 p endp = defineBody w u pol mem 0 p endp := by
      cases hs : pol.has_size
      · exact define_unsized w u pol mem 0 p endp hs
      · exact define_long w u pol mem 0 p endp (by
          have := hsz hs
          have : ¬ (endp - p < _MAX_DIGITS w u) := fun hc => hd ⟨hs, hc⟩
          omega)
    rw [hdef] at h
    obtain ⟨h1, h2, h3, _, h5, h6⟩ := defineBody_ok w u pol mem 0 p endp e v neg hneg hci haddr
      (fun _ => by simp) h
    exact ⟨h1, h2, h3, h5, (h6 hco).1, (h6 hco).2⟩

/-- C21 (soundness of the checked variants): for every width, signedness, start address
(hence every alignment) and memory, whenever `parse`, `parse_all`, `parse_n` or
`parse_all_n` called with `*result = 0` returns a pointer `e` and stores `v`, then `e` lies
strictly after the start and after the optional sign (and at most at `p + size` for the
sized functions), every byte between the end of the optional sign and `e` is a decimal
digit, the signed value of these digits lies in the range of the type, and `v` is that
value, neither wrapped nor truncated. For the functions without a size the start lies
below the largest address. -/
theorem checked_sound (w : Width) (u : Bool) (mem : Mem) (p size e v : Nat) (neg : Bool)
    (hneg : neg = (!u && decide (byteAt mem p = 45))) :
    (∀ r, (r = parse w u mem 0 p ∨ r = parse_all w u mem 0 p) → p + 1 < ptrMax →
      r = Ret.ok e v →
      p + signLen neg < e ∧
      (∀ a, p + signLen neg ≤ a → a < e → isDigit (byteAt mem a) = true) ∧
      typeMin w u ≤ signedVal neg (decVal mem (p + signLen neg) (e - (p + signLen neg))) ∧
      signedVal neg (decVal mem (p + signLen neg) (e - (p + signLen neg))) ≤ typeMax w u ∧
      asValue w u v
        = signedVal neg (decVal mem (p + signLen neg) (e - (p + signLen neg)))) ∧
    (∀ r, (r = parse_n w u mem 0 p size ∨ r = parse_all_n w u mem 0 p size) →
      r = Ret.ok e v →
      p + signLen neg < e ∧ e ≤ p + size ∧
      (∀ a, p + signLen neg ≤ a → a < e → isDigit (byteAt mem a) = true) ∧
      typeMin w u ≤ signedVal neg (decVal mem (p + signLen neg) (e - (p + signLen neg))) ∧
      signedVal neg (decVal mem (p + signLen neg) (e - (p + signLen neg))) ≤ typeMax w u ∧
      asValue w u v
        = signedVal neg (decVal mem (p + signLen neg) (e - (p + signLen neg)))) := by
  constructor
  · intro r hr haddr h
    have key : ∀ pol, pol.check_input = true → pol.check_overflow = true →
        pol.has_size = false → define w u pol mem 0 p ptrMax = Ret.ok e v →
        p + signLen neg < e ∧
        (∀ a, p + signLen neg ≤ a → a < e → isDigit (byteAt mem a) = true) ∧
        typeMin w u ≤ signedVal neg (decVal mem (p + signLen neg) (e - (p + signLen neg))) ∧
        signedVal neg (decVal mem (p + signLen neg) (e - (p + signLen neg))) ≤ typeMax w u ∧
        asValue w u v
          = signedVal neg (decVal mem (p + signLen neg) (e - (p + signLen neg))) := by
      intro pol hci hco hs hd
      obtain ⟨h1, _, h3, h4, h5, h6⟩ := define_ok w u pol mem p ptrMax e v neg hneg hci hco
        (fun _ => haddr) (fun hc => by rw [hs] at hc; exact Bool.noConfusion hc) hd
      exact ⟨h1, h3, h5, h6, by rw [h4]; exact asValue_encode w u _ h5 h6⟩
    rcases hr with hr | hr
    · rw [hr] at h; exact key parsePolicy rfl rfl rfl h
    · rw [hr] at h; exact key parseAllPolicy rfl rfl rfl h
  · intro r hr h
    have key : ∀ pol, pol.check_input = true → pol.check_overflow = true →
        pol.has_size = true → define w u pol mem 0 p (p + size) = Ret.ok e v →
        p + signLen neg < e ∧ e ≤ p + size ∧
        (∀ a, p + signLen neg ≤ a → a < e → isDigit (byteAt mem a) = true) ∧
        typeMin w u ≤ signedVal neg (decVal mem (p + signLen neg) (e - (p + signLen neg))) ∧
        signedVal neg (decVal mem (p + signLen neg) (e - (p + signLen neg))) ≤ typeMax w u ∧
        asValue w u v
          = signedVal neg (decVal mem (p + signLen neg) (e - (p + signLen neg))) := by
      intro pol hci hco hs hd
      obtain ⟨h1, h2, h3, h4, h5, h6⟩ := define_ok w u pol mem p (p + size) e v neg hneg hci hco
        (fun hc => by rw [hs] at hc; exact Bool.noConfusion hc) (fun _ => by omega) hd
      exact ⟨h1, h2, h3, h5, h6, by rw [h4]; exact asValue_encode w u _ h5 h6⟩
    rcases hr with hr | hr
    · rw [hr] at h; exact key parseNPolicy rfl rfl rfl h
    · rw [hr] at h; exact key parseAllNPolicy rfl rfl rfl h

/-- The signed 32 bit `parse` on "-123x" at an unaligned address and `parse_all_n` on
"2147483647" with size 10. -/
theorem checked_sound_witness :
    (parse Width.w32 false (memOf 17 (bytesOf "-123x") 49) 0 17 = Ret.ok 21 4294967173 ∧
      asValue Width.w32 false 4294967173
        = signedVal true (decVal (memOf 17 (bytesOf "-123x") 49) (17 + signLen true)
            (21 - (17 + signLen true)))) ∧
    (parse_all_n Width.w32 false (memOf 16 (bytesOf "2147483647") 49) 0 16 10
        = Ret.ok 26 2147483647 ∧
      asValue Width.w32 false 2147483647
        = signedVal false (decVal (memOf 16 (bytesOf "2147483647") 49) (16 + signLen false)
            (26 - (16 + signLen false)))) :=
  have h1 : parse Width.w32 false (memOf 17 (bytesOf "-123x") 49) 0 17
      = Ret.ok 21 4294967173 := by decide
  have h2 : parse_all_n Width.w32 false (memOf 16 (bytesOf "2147483647") 49) 0 16 10
      = Ret.ok 26 2147483647 := by decide
  ⟨⟨h1, ((checked_sound Width.w32 false (memOf 17 (bytesOf "-123x") 49) 17 0 21 4294967173
      true (by decide)).1 _ (Or.inl rfl) (by decide) h1).2.2.2.2⟩,
    ⟨h2, ((checked_sound Width.w32 false (memOf 16 (bytesOf "2147483647") 49) 16 10 26
      2147483647 false (by decide)).2 _ (Or.inr rfl) h2).2.2.2.2.2⟩⟩

/-! ## Wraparound without the overflow check -/

/-- The body of a function without the overflow check, called with `*result = 0`, on an
optional minus sign and `n ≥ 1` digits up to the stop position: when the exactness
requirement of the policy is met it returns the stop position and stores the bit pattern
of the signed value of the digits, that is the value reduced modulo `2 ^ w`. -/
theorem defineBody_wrap (w : Width) (u : Bool) (pol : Policy) (mem : Mem)
    (p n endp : Nat) (neg : Bool) (hco : pol.check_overflow = false)
    (hsign : neg = true → u = false ∧ byteAt mem p = 45)
    (hn : 1 ≤ n)
    (hdig : ∀ i, i < n → isDigit (byteAt mem (p + signLen neg + i)) = true)
    (hEe : p + signLen neg + n ≤ endp)
    (hstop : p + signLen neg + n = endp ∨
      (pol.check_input = true ∧ isDigit (byteAt mem (p + signLen neg + n)) = false))
    (hok : ExactOK pol mem (p + signLen neg + n) endp) :
    defineBody w u pol mem 0 p endp
      = Ret.ok (p + signLen neg + n)
          (encode w (signedVal neg (decVal mem (p + signLen neg) n))) := by
  have hfirst : neg = false → byteAt mem p ≠ 45 := by
    intro h
    have := hdig 0 hn
    rw [h] at this
    exact isDigit_ne_minus _ (by simpa [signLen] using this)
  have hnegeq := negative_eq u mem p neg hsign hfirst
  have hnz : byteAt mem p ≠ 0 := by
    cases hneg : neg
    · have := hdig 0 hn
      rw [hneg] at this
      exact isDigit_ne_zero _ (by simpa [signLen] using this)
    · rw [(hsign hneg).2]; norm_num
  have hdig' : ∀ a, p + signLen neg ≤ a → a < p + signLen neg + n →
      isDigit (byteAt mem a) = true := by
    intro a h1 h2
    have := hdig (a - (p + signLen neg)) (by omega)
    rwa [show p + signLen neg + (a - (p + signLen neg)) = a by omega] at this
  obtain ⟨o, ho1, ho2, ho3⟩ := defineBody_run w u pol mem 0 p endp (p + signLen neg + n) neg
    hnegeq (fun _ => by omega) (fun _ => hnz) (by rw [signLen_add]; omega) hEe
    (fun a h1 h2 => hdig' a (by rw [signLen_add] at h1; exact h1) h2) hstop
  rw [signLen_add] at ho1 ho3
  rw [show p + signLen neg + n - (p + signLen neg) = n by omega] at ho3
  have hs0 : (if u then 0 % 2 ^ w.bits else 0) = 0 := by cases u <;> simp
  rw [hs0, Nat.zero_mul, Nat.zero_add] at ho3
  rw [ho1]
  cases o with
  | none =>
    rcases ho2 rfl with h | ⟨h, _⟩
    · exact absurd hok h
    · rw [hco] at h; exact Bool.noConfusion h
  | some r1 =>
    obtain ⟨_, _, h3, _⟩ := ho3 r1 rfl
    simp only [retOf]
    rw [h3 hco]
    exact finish_wrap w u pol mem _ neg 0 _ _ hco (fun hn => (hsign hn).1)

/-- C22 (wraparound of the overflow-unchecked variants), with the input on which the code
departs from it. For every width and signedness and every input made of an optional '-'
(signed types only) and `n ≥ 1` digits, `parse_overflow` (a non-digit follows the digits)
called with `*result = 0` returns the address after the last digit and stores the bit
pattern of the signed value of the digits, which is congruent to that value modulo
`2 ^ w`. So does `parse_nooverflow` with the size of the input when the byte after the
input is not a digit, or when the aligned chunk of the last digit holds only digits after
it. Otherwise it may fail: the unsigned 64 bit `parse_nooverflow` with size 2 returns
`NULL` on "123" stored at an aligned address, where a digit and then the null byte follow
the two digits in their chunk. -/
theorem unchecked_wraps (w : Width) (u : Bool) (mem : Mem) (p n : Nat) (neg : Bool)
    (hsign : neg = true → u = false ∧ byteAt mem p = 45)
    (hn : 1 ≤ n)
    (hdig : ∀ i, i < n → isDigit (byteAt mem (p + signLen neg + i)) = true)
    (haddr : p + signLen neg + n < 2 ^ 64) :
    (isDigit (byteAt mem (p + signLen neg + n)) = false →
      parse_overflow w u mem 0 p
        = Ret.ok (p + signLen neg + n)
            (encode w (signedVal neg (decVal mem (p + signLen neg) n)))) ∧
    ((isDigit (byteAt mem (p + signLen neg + n)) = false ∨
        ∀ a, p + signLen neg + n ≤ a → a < 4 * ((p + signLen neg + n + 3) / 4) →
          isDigit (byteAt mem a) = true) →
      parse_nooverflow w u mem 0 p (signLen neg + n)
        = Ret.ok (p + signLen neg + n)
            (encode w (signedVal neg (decVal mem (p + signLen neg) n)))) ∧
    ((encode w (signedVal neg (decVal mem (p + signLen neg) n)) : Int)
      = signedVal neg (decVal mem (p + signLen neg) n) % 2 ^ w.bits) ∧
    parse_nooverflow Width.w64 true (memOf 16 (bytesOf "123") 49) 0 16 2 = Ret.null 0 := by
  refine ⟨fun h => ?_, fun h => ?_, ?_, by decide⟩
  · rw [parse_overflow, define_unsized _ _ _ _ _ _ _ rfl]
    exact defineBody_wrap w u parseOverflowPolicy mem p n ptrMax neg rfl hsign hn hdig
      (by simp only [ptrMax]; omega) (Or.inr ⟨rfl, h⟩)
      (fun he => by simp [parseOverflowPolicy] at he)
  · rw [parse_nooverflow, show p + (signLen neg + n) = p + signLen neg + n by omega]
    exact defineBody_wrap w u parseNooverflowPolicy mem p n _ neg rfl hsign hn hdig
      (le_refl _) (Or.inl rfl)
      (fun _ _ => ⟨fun _ => ⟨rfl, h⟩, fun hnt => by simp [parseNooverflowPolicy] at hnt⟩)
  · simp only [encode]
    have hpos : (0 : Int) < 2 ^ w.bits := by positivity
    exact Int.toNat_of_nonneg (Int.emod_nonneg _ (by omega))

/-- The unsigned 32 bit `parse_overflow` on "4294967297" stores 1, and the signed 32 bit
`parse_nooverflow` on "-4294967297" with size 11 stores -1. -/
theorem unchecked_wraps_witness :
    parse_overflow Width.w32 true (memOf 16 (bytesOf "4294967297") 49) 0 16
      = Ret.ok 26 (encode Width.w32 4294967297) ∧
    parse_nooverflow Width.w32 false (memOf 17 (bytesOf "-4294967297") 49) 0 17 11
      = Ret.ok 28 (encode Width.w32 (-4294967297)) ∧
    encode Width.w32 4294967297 = 1 ∧
    asValue Width.w32 false (encode Width.w32 (-4294967297)) = -1 :=
  ⟨(unchecked_wraps Width.w32 true (memOf 16 (bytesOf "4294967297") 49) 16 10 false
      (by decide) (by decide) (by decide) (by decide)).1 (by decide),
    (unchecked_wraps Width.w32 false (memOf 17 (bytesOf "-4294967297") 49) 17 10 true
      (by decide) (by decide) (by decide) (by decide)).2.1 (Or.inl (by decide)),
    by decide, by decide⟩

/-! ## Short sizes -/

/-- A run of fewer than `_MAX_DIGITS` characters, sign included, has a value strictly
inside the range of the type. -/
theorem short_strictly_in_range (w : Width) (u neg : Bool) (n D : Nat)
    (hneg : neg = true → u = false) (hD : D < 10 ^ n)
    (hshort : signLen neg + n < _MAX_DIGITS w u) :
    (D : Int) < typeMax w u ∧ (neg = true → typeMin w u < -(D : Int)) := by
  have h1 : (10 : Int) ^ (_MAX_DIGITS w u - 1) ≤ typeMax w u := by
    cases w <;> cases u <;> decide
  have h2 : 10 ^ n ≤ 10 ^ (_MAX_DIGITS w u - 1) :=
    Nat.pow_le_pow_right (by norm_num) (by omega)
  have h3 : (D : Int) < (10 : Int) ^ (_MAX_DIGITS w u - 1) := by
    exact_mod_cast lt_of_lt_of_le hD h2
  refine ⟨by omega, fun hn => ?_⟩
  have hu := hneg hn
  subst hu
  have h4 : typeMin w false = -(typeMax w false) - 1 := by
    simp only [typeMin, typeMax, Bool.false_eq_true, if_false]; ring
  omega

/-- The record of the accumulator on an optional minus sign and `n` digits whose value
is below `2 ^ w`, with `*result = 0`: under every policy each recorded accumulator is
exactly the value of the digits before its cursor. -/
theorem defineTrace_exact (w : Width) (u : Bool) (pol : Policy) (mem : Mem) (p n : Nat)
    (neg : Bool) (hsign : neg = true → u = false ∧ byteAt mem p = 45)
    (hn : 1 ≤ n)
    (hdig : ∀ i, i < n → isDigit (byteAt mem (p + signLen neg + i)) = true)
    (hD : decVal mem (p + signLen neg) n < 2 ^ w.bits) :
    ∀ c r, (c, r) ∈ defineTrace w u pol mem 0 p (p + signLen neg + n) →
      p + signLen neg ≤ c ∧ c ≤ p + signLen neg + n ∧
      r = decVal mem (p + signLen neg) (c - (p + signLen neg)) := by
  intro c r hmem
  have hfirst : neg = false → byteAt mem p ≠ 45 := by
    intro h
    have := hdig 0 hn
    rw [h] at this
    exact isDigit_ne_minus _ (by simpa [signLen] using this)
  have hnegeq := negative_eq u mem p neg hsign hfirst
  have hnz : byteAt mem p ≠ 0 := by
    cases hneg : neg
    · have := hdig 0 hn
      rw [hneg] at this
      exact isDigit_ne_zero _ (by simpa [signLen] using this)
    · rw [(hsign hneg).2]; norm_num
  have hdig' : ∀ a, p + signLen neg ≤ a → a < p + signLen neg + n →
      isDigit (byteAt mem a) = true := by
    intro a h1 h2
    have := hdig (a - (p + signLen neg)) (by omega)
    rwa [show p + signLen neg + (a - (p + signLen neg)) = a by omega] at this
  obtain ⟨ht, _⟩ := defineTrace_run w u pol mem 0 p (p + signLen neg + n)
    (p + signLen neg + n) neg hnegeq (fun _ => by omega) (fun _ => hnz) (by omega)
    (le_refl _) hdig'
  rw [ht] at hmem
  have hs0 : (if u then 0 % 2 ^ w.bits else 0) = 0 := by cases u <;> simp
  rw [hs0] at hmem
  have hM : 0 < 2 ^ w.bits := Nat.pow_pos (by norm_num)
  have e5 : p + signLen neg - (p + signLen neg) % 4 + (p + signLen neg) % 4
      = p + signLen neg := by omega
  have key := foldTrace_spec w pol mem (p + signLen neg + n)
    ((p + signLen neg + n - ((p + signLen neg) - (p + signLen neg) % 4)) / 4 + 1)
    ((p + signLen neg) - (p + signLen neg) % 4) ((p + signLen neg) % 4)
    (p + signLen neg + n) 0 0
    (by omega) (by omega) (by omega) (le_refl _) (by omega)
    (fun a h1 h2 => hdig' a (by omega) h2) (Or.inl rfl) hM rfl (fun _ _ => rfl) c r hmem
  rw [e5] at key
  obtain ⟨k1, k2, k3, k4, _⟩ := key
  rw [Nat.zero_mul, Nat.zero_add] at k4
  have hsplit : decVal mem (p + signLen neg) n
      = decVal mem (p + signLen neg) (c - (p + signLen neg)) * 10 ^ (p + signLen neg + n - c)
        + decVal mem (p + signLen neg + (c - (p + signLen neg))) (p + signLen neg + n - c) := by
    rw [← decVal_add]
    congr 1
    omega
  have hpos : 1 ≤ 10 ^ (p + signLen neg + n - c) := Nat.one_le_pow _ _ (by norm_num)
  have hle := Nat.le_mul_of_pos_right
    (decVal mem (p + signLen neg) (c - (p + signLen neg))) hpos
  refine ⟨k1, k2, ?_⟩
  rw [Nat.mod_eq_of_lt k3, Nat.mod_eq_of_lt (by omega)] at k4
  exact k4

/-- C25 (the short-input fast path is safe): for every width and signedness and every
sized input of fewer than `_MAX_DIGITS` characters made of an optional minus sign (signed
types only) and `n ≥ 1` digits, the magnitude of the digits is strictly below the maximum
of the type (and its negation strictly above the minimum); `parse_n` and `parse_all_n`
called with `*result = 0` are `parse_nooverflow`, and `parse_novalidate` is
`parse_nocheck`, on the same arguments; `parse_nocheck` returns the end of the input and
stores the exact value; whenever `parse_nooverflow` returns a pointer and stores a value,
the pointer is the end of the input and the value is exact; and in both functions the
accumulator after every fold is exactly the value of the digits before the cursor, so
that the arithmetic does not wrap. -/
theorem short_input_exact (w : Width) (u : Bool) (mem : Mem) (p n : Nat) (neg : Bool)
    (hsign : neg = true → u = false ∧ byteAt mem p = 45)
    (hn : 1 ≤ n)
    (hdig : ∀ i, i < n → isDigit (byteAt mem (p + signLen neg + i)) = true)
    (hshort : signLen neg + n < _MAX_DIGITS w u) :
    ((decVal mem (p + signLen neg) n : Int) < typeMax w u ∧
      (neg = true → typeMin w u < -(decVal mem (p + signLen neg) n : Int))) ∧
    (parse_n w u mem 0 p (signLen neg + n) = parse_nooverflow w u mem 0 p (signLen neg + n) ∧
      parse_all_n w u mem 0 p (signLen neg + n)
        = parse_nooverflow w u mem 0 p (signLen neg + n) ∧
      parse_novalidate w u mem 0 p (signLen neg + n)
        = parse_nocheck w u mem 0 p (signLen neg + n)) ∧
    (parse_nocheck w u mem 0 p (signLen neg + n)
        = Ret.ok (p + signLen neg + n)
            (encode w (signedVal neg (decVal mem (p + signLen neg) n))) ∧
      asValue w u (encode w (signedVal neg (decVal mem (p + signLen neg) n)))
        = signedVal neg (decVal mem (p + signLen neg) n)) ∧
    (∀ e v, parse_nooverflow w u mem 0 p (signLen neg + n) = Ret.ok e v →
      e = p + signLen neg + n ∧
      v = encode w (signedVal neg (decVal mem (p + signLen neg) n))) ∧
    (∀ c r,
      ((c, r) ∈ defineTrace w u parseNooverflowPolicy mem 0 p (p + (signLen neg + n)) ∨
        (c, r) ∈ defineTrace w u parseNocheckPolicy mem 0 p (p + (signLen neg + n))) →
      r = decVal mem (p + signLen neg) (c - (p + signLen neg)) ∧
        decVal mem (p + signLen neg) (c - (p + signLen neg)) < 2 ^ w.bits) := by
  have hD := decVal_lt mem (p + signLen neg) n hdig
  obtain ⟨r1, r2⟩ := short_in_range w u neg n _ (fun h => (hsign h).1) hD hshort
  have hfirst : neg = false → byteAt mem p ≠ 45 := by
    intro h
    have := hdig 0 hn
    rw [h] at this
    exact isDigit_ne_minus _ (by simpa [signLen] using this)
  have hnegeq := negative_eq u mem p neg hsign hfirst
  have hmagD := magnitude_lt w u neg _ (fun h => (hsign h).1) r1 r2
  refine ⟨short_strictly_in_range w u neg n _ (fun h => (hsign h).1) hD hshort, ⟨?_, ?_, ?_⟩,
    ⟨?_, asValue_encode w u _ r1 r2⟩, ?_, ?_⟩
  · rw [parse_n, define_short w u _ mem 0 p _ rfl rfl hshort,
      if_pos (show parseNPolicy.check_input = true from rfl), parse_nooverflow]
  · rw [parse_all_n, define_short w u _ mem 0 p _ rfl rfl hshort,
      if_pos (show parseAllNPolicy.check_input = true from rfl), parse_nooverflow]
  · rw [parse_novalidate, define_short w u _ mem 0 p _ rfl rfl hshort,
      if_neg (show ¬ parseNovalidatePolicy.check_input = true by decide), parse_nocheck]
  · rw [parse_nocheck, show p + (signLen neg + n) = p + signLen neg + n by omega]
    have hmag := magnitude_lt w u neg _ (fun h => (hsign h).1) r1 r2
    have := defineBody_digits w u parseNocheckPolicy mem 0 p n (p + signLen neg + n) neg
      hsign hn hdig (le_refl _) (fun _ => rfl) (fun h => by simp [parseNocheckPolicy] at h)
      (fun h => by simp [parseNocheckPolicy] at h)
      (fun h => by simp [parseNocheckPolicy] at h)
      (fun _ => by simpa using hmag)
      (fun hu => by rw [hu] at r1 r2; exact ⟨r1, r2⟩)
    rw [this]
    cases hu : u
    · simp
    · have hnf : neg = false := by
        cases hn' : neg
        · rfl
        · have := (hsign hn').1; rw [hu] at this; exact Bool.noConfusion this
      simp only [if_true, Nat.zero_mod, Nat.zero_mul, Nat.zero_add, hnf, signedVal,
        Bool.false_eq_true, if_false]
      rw [encode_nat w _ (by rw [hnf] at hmag; exact hmag)]
  · intro e v h
    rw [parse_nooverflow] at h
    obtain ⟨h1, h2, h3, h4, h5, _⟩ := defineBody_ok w u parseNooverflowPolicy mem 0
      p (p + (signLen neg + n)) e v neg hnegeq rfl
      (fun hc => by simp [parseNooverflowPolicy] at hc) (fun _ => by simp) h
    have he : e = p + signLen neg + n := by
      by_contra hne
      rcases h4 with h4 | h4
      · omega
      · have := hdig (e - (p + signLen neg)) (by omega)
        rw [show p + signLen neg + (e - (p + signLen neg)) = e by omega, h4] at this
        exact Bool.noConfusion this
    refine ⟨he, ?_⟩
    rw [h5, he, show p + signLen neg + n - (p + signLen neg) = n by omega]
  · intro c r hmem
    rw [show p + (signLen neg + n) = p + signLen neg + n by omega] at hmem
    have key : ∀ pol, (c, r) ∈ defineTrace w u pol mem 0 p (p + signLen neg + n) →
        r = decVal mem (p + signLen neg) (c - (p + signLen neg)) ∧
          decVal mem (p + signLen neg) (c - (p + signLen neg)) < 2 ^ w.bits := by
      intro pol hm
      obtain ⟨_, k2, k3⟩ := defineTrace_exact w u pol mem p n neg hsign hn hdig hmagD c r hm
      refine ⟨k3, ?_⟩
      have hM : 0 < 2 ^ w.bits := Nat.pow_pos (by norm_num)
      have hsplit : decVal mem (p + signLen neg) n
          = decVal mem (p + signLen neg) (c - (p + signLen neg))
              * 10 ^ (p + signLen neg + n - c)
            + decVal mem (p + signLen neg + (c - (p + signLen neg)))
                (p + signLen neg + n - c) := by
        rw [← decVal_add]
        congr 1
        omega
      have hpos : 1 ≤ 10 ^ (p + signLen neg + n - c) := Nat.one_le_pow _ _ (by norm_num)
      have hle := Nat.le_mul_of_pos_right
        (decVal mem (p + signLen neg) (c - (p + signLen neg))) hpos
      omega
    rcases hmem with hm | hm
    · exact key _ hm
    · exact key _ hm

/-- The signed 32 bit functions on "-12345678" with size 9, one less than `_MAX_DIGITS`. -/
theorem short_input_exact_witness :
    parse_nocheck Width.w32 false (memOf 18 (bytesOf "-12345678") 49) 0 18 9
      = Ret.ok 27 (encode Width.w32 (-12345678)) ∧
    parse_novalidate Width.w32 false (memOf 18 (bytesOf "-12345678") 49) 0 18 9
      = parse_nocheck Width.w32 false (memOf 18 (bytesOf "-12345678") 49) 0 18 9 ∧
    asValue Width.w32 false (encode Width.w32 (-12345678)) = -12345678 :=
  have h := short_input_exact Width.w32 false (memOf 18 (bytesOf "-12345678") 49) 18 8 true
    (by decide) (by decide) (by decide) (by decide)
  ⟨h.2.2.1.1, h.2.1.2.2, h.2.2.1.2⟩

/-! ## Termination and the number of chunk loads -/

theorem finish_ne_timeout (w : Width) (u : Bool) (pol : Policy) (mem : Mem) (ds : Nat)
    (neg : Bool) (result E r : Nat) : finish w u pol mem ds neg result E r ≠ Ret.timeout := by
  simp only [finish]
  repeat' split
  all_goals exact fun h => Ret.noConfusion h

/-- The scan of a chunk never moves `end` forward. -/
theorem scanChunk_le (pol : Policy) (mem : Mem) (p endp bytes endp1 : Nat)
    (h : scanChunk pol mem p endp bytes = some endp1) : endp1 ≤ endp := by
  simp only [scanChunk] at h
  repeat' split at h
  all_goals first
    | (simp only [Option.some.injEq] at h; omega)
    | simp at h

/-- The loop returns within `fuel` iterations when `end` lies less than `fuel` chunks
after the cursor. -/
theorem parseLoop_ne_timeout (w : Width) (u : Bool) (pol : Policy) (mem : Mem) (ds : Nat)
    (neg : Bool) (result : Nat) :
    ∀ fuel c endp bytes r d, 1 ≤ fuel → endp < c + 4 * fuel →
      parseLoop w u pol mem ds neg result fuel c endp bytes r d ≠ Ret.timeout := by
  intro fuel
  induction fuel with
  | zero => intro c endp bytes r d h; omega
  | succ fuel ih =>
    intro c endp bytes r d _ hlt
    cases hs : scanChunk pol mem (c + 4) endp bytes with
    | none =>
      rw [parseLoop_step_null w u pol mem ds neg result fuel c endp bytes r d hs]
      exact fun h => Ret.noConfusion h
    | some e1 =>
      have hle1 := scanChunk_le pol mem (c + 4) endp bytes e1 hs
      by_cases hle : e1 ≤ c + 4
      · rw [parseLoop_step_last w u pol mem ds neg result fuel c endp e1 bytes r d hs hle]
        split
        · exact fun h => Ret.noConfusion h
        · exact finish_ne_timeout _ _ _ _ _ _ _ _ _
      · rw [parseLoop_step_continue w u pol mem ds neg result fuel c endp e1 bytes r d hs
          (by omega)]
        split
        · exact fun h => Ret.noConfusion h
        · exact ih _ _ _ _ _ (by omega) (by omega)

/-- The body of `_DEFINE` always returns: the iterations it allows the loop are enough. -/
theorem defineBody_ne_timeout (w : Width) (u : Bool) (pol : Policy) (mem : Mem)
    (result p endp : Nat) : defineBody w u pol mem result p endp ≠ Ret.timeout := by
  simp only [defineBody]
  repeat' split
  all_goals first
    | exact fun h => Ret.noConfusion h
    | (apply parseLoop_ne_timeout
       · exact Nat.le_add_left 1 _
       · simp only [_CHUNK_SIZE]; omega)

/-- Allowing the loop more iterations than it needs does not change what it returns. -/
theorem parseLoop_fuel_add (w : Width) (u : Bool) (pol : Policy) (mem : Mem) (ds : Nat)
    (neg : Bool) (result k : Nat) :
    ∀ fuel c endp bytes r d,
      parseLoop w u pol mem ds neg result fuel c endp bytes r d ≠ Ret.timeout →
      parseLoop w u pol mem ds neg result (fuel + k) c endp bytes r d
        = parseLoop w u pol mem ds neg result fuel c endp bytes r d := by
  intro fuel
  induction fuel with
  | zero => intro c endp bytes r d h; simp [parseLoop] at h
  | succ fuel ih =>
    intro c endp bytes r d h
    rw [show fuel + 1 + k = (fuel + k) + 1 by omega]
    cases hs : scanChunk pol mem (c + 4) endp bytes with
    | none =>
      rw [parseLoop_step_null w u pol mem ds neg result _ c endp bytes r d hs,
        parseLoop_step_null w u pol mem ds neg result _ c endp bytes r d hs]
    | some e1 =>
      by_cases hle : e1 ≤ c + 4
      · rw [parseLoop_step_last w u pol mem ds neg result _ c endp e1 bytes r d hs hle,
          parseLoop_step_last w u pol mem ds neg result _ c endp e1 bytes r d hs hle]
      · rw [parseLoop_step_continue w u pol mem ds neg result fuel c endp e1 bytes r d hs
          (by omega)] at h
        rw [parseLoop_step_continue w u pol mem ds neg result _ c endp e1 bytes r d hs
          (by omega),
          parseLoop_step_continue w u pol mem ds neg result fuel c endp e1 bytes r d hs
          (by omega)]
        cases ha : accumulate w pol r d bytes with
        | none => rfl
        | some r1 =>
          simp only [ha] at h ⊢
          exact ih _ _ _ _ _ h

theorem loadTrace_step_null (w : Width) (pol : Policy) (mem : Mem)
    (fuel p endp bytes r d : Nat)
    (hs : scanChunk pol mem (p + 4) endp bytes = none) :
    loadTrace w pol mem (fuel + 1) p endp bytes r d = [] := by
  simp [loadTrace, _CHUNK_SIZE, hs]

theorem loadTrace_step_continue (w : Width) (pol : Policy) (mem : Mem)
    (fuel p endp endp1 bytes r d : Nat)
    (hs : scanChunk pol mem (p + 4) endp bytes = some endp1) (hlt : p + 4 < endp1) :
    loadTrace w pol mem (fuel + 1) p endp bytes r d =
      match accumulate w pol r d bytes with
      | none => []
      | some r1 => (p + 4) ::
          loadTrace w pol mem fuel (p + 4) endp1 (_LOAD_FROM mem (p + 4)) r1 4 := by
  have h1 : ¬ (p + 4 ≥ endp1) := by omega
  simp only [loadTrace, _CHUNK_SIZE, hs, h1, if_false]

theorem loadTrace_step_last (w : Width) (pol : Policy) (mem : Mem)
    (fuel p endp endp1 bytes r d : Nat)
    (hs : scanChunk pol mem (p + 4) endp bytes = some endp1) (hge : endp1 ≤ p + 4) :
    loadTrace w pol mem (fuel + 1) p endp bytes r d = [] := by
  have h1 : p + 4 ≥ endp1 := hge
  have h3 : p + 4 - (p + 4 - endp1) = endp1 := by omega
  simp only [loadTrace, _CHUNK_SIZE, hs, h1, h3, if_true, ge_iff_le, le_refl]
  split <;> rfl

/-- The loop loads a further chunk only when it starts before `end`. -/
theorem loadTrace_le_end (w : Width) (pol : Policy) (mem : Mem) :
    ∀ fuel c endp bytes r d,
      (loadTrace w pol mem fuel c endp bytes r d).length ≤ (endp - 1 - c) / 4 := by
  intro fuel
  induction fuel with
  | zero => intro c endp bytes r d; simp [loadTrace]
  | succ fuel ih =>
    intro c endp bytes r d
    cases hs : scanChunk pol mem (c + 4) endp bytes with
    | none => rw [loadTrace_step_null w pol mem fuel c endp bytes r d hs]; simp
    | some e1 =>
      have hle1 := scanChunk_le pol mem (c + 4) endp bytes e1 hs
      by_cases hle : e1 ≤ c + 4
      · rw [loadTrace_step_last w pol mem fuel c endp e1 bytes r d hs hle]; simp
      · rw [loadTrace_step_continue w pol mem fuel c endp e1 bytes r d hs (by omega)]
        cases ha : accumulate w pol r d bytes with
        | none => simp
        | some r1 =>
          simp only [List.length_cons]
          have := ih (c + 4) e1 (_LOAD_FROM mem (c + 4)) r1 4
          omega

/-- A scan that looks at the input and finds a non-digit ends the loop in this chunk. -/
theorem scanChunk_nondigit (pol : Policy) (mem : Mem) (c endp bytes e1 : Nat)
    (hci : pol.check_input = true)
    (hmap : _MAP_HAS_NON_DIGITS (_MAP_OF_NON_DIGITS bytes) = true)
    (h : scanChunk pol mem (c + 4) endp bytes = some e1) :
    e1 ≤ c + _DIGITS_IN_MAP (_MAP_OF_NON_DIGITS bytes) := by
  simp only [scanChunk, hci, hmap, Bool.and_self, if_true, _CHUNK_SIZE,
    Nat.add_sub_cancel] at h
  repeat' split at h
  all_goals first
    | (simp only [Option.some.injEq] at h; omega)
    | simp at h

/-- The loop of an input-validating function loads no chunk beyond the one that holds a
non-digit. -/
theorem loadTrace_le_nondigit (w : Width) (pol : Policy) (mem : Mem) (F : Nat)
    (hci : pol.check_input = true) (hF : isDigit (byteAt mem F) = false) :
    ∀ fuel c ig endp r, ig < 4 → c + ig ≤ F →
      (loadTrace w pol mem fuel c endp (_ZERO_FIRST_N_BYTES (_LOAD_FROM mem c) ig) r
        (4 - ig)).length ≤ (F - c) / 4 := by
  intro fuel
  induction fuel with
  | zero => intro c ig endp r _ _; simp [loadTrace]
  | succ fuel ih =>
    intro c ig endp r hig hcF
    cases hs : scanChunk pol mem (c + 4) endp (_ZERO_FIRST_N_BYTES (_LOAD_FROM mem c) ig) with
    | none => rw [loadTrace_step_null w pol mem fuel c endp _ r _ hs]; simp
    | some e1 =>
      by_cases hle : e1 ≤ c + 4
      · rw [loadTrace_step_last w pol mem fuel c endp e1 _ r _ hs hle]; simp
      · rw [loadTrace_step_continue w pol mem fuel c endp e1 _ r _ hs (by omega)]
        -- the non-digit is not in this chunk
        have hF4 : c + 4 ≤ F := by
          by_contra hc
          have hnot : ¬ ∀ i, ig ≤ i → i < 4 → isDigit (byteAt mem (c + i)) = true := by
            intro hall
            have := hall (F - c) (by omega) (by omega)
            rw [show c + (F - c) = F by omega, hF] at this
            exact Bool.noConfusion this
          obtain ⟨k, hk1, hk2, hk3, hk4⟩ := first_non_digit _ ig hnot
          obtain ⟨m1, m2⟩ := chunk_map_first mem c ig k hk2 hk1 hk4 (by simpa using hk3)
          have := scanChunk_nondigit pol mem c endp _ e1 hci m1 hs
          omega
        cases ha : accumulate w pol r (4 - ig) (_ZERO_FIRST_N_BYTES (_LOAD_FROM mem c) ig) with
        | none => simp
        | some r1 =>
          simp only [List.length_cons]
          have := ih (c + 4) 0 e1 r1 (by norm_num) (by omega)
          rw [← chunk_zero mem (c + 4)] at this
          simp only [Nat.sub_zero] at this
          omega

/-- The number of chunk loads of a call with a size: at most the number of aligned chunks
from the one of the start to the one of the last byte of the sized span. -/
theorem defineLoads_le_size (w : Width) (u : Bool) (pol : Policy) (mem : Mem)
    (result p endp : Nat) (hsz : pol.has_size = true) :
    (defineLoads w u pol mem result p endp).length ≤ (endp - 1) / 4 + 1 - p / 4 := by
  simp only [defineLoads]
  by_cases g1 : (pol.has_size && decide (endp ≤ p)) = true
  · rw [if_pos g1]; simp
  · rw [if_neg g1]
    by_cases g2 : (pol.is_null_terminated && decide (byteAt mem p = 0)) = true
    · rw [if_pos g2]; simp
    · rw [if_neg g2]
      generalize (!u && decide (byteAt mem p = 45)) = neg
      by_cases g3 : (neg && pol.has_size && decide (endp ≤ (if neg then p + 1 else p))) = true
      · rw [if_pos g3]; simp
      · rw [if_neg g3]
        by_cases g4 : (pol.check_input && !(isDigit (byteAt mem (if neg then p + 1 else p))))
            = true
        · rw [if_pos g4]; simp
        · rw [if_neg g4]
          simp only [hsz, Bool.true_and, decide_eq_true_eq, not_le] at g1
          have hlt : (if neg then p + 1 else p) < endp ∧ p ≤ (if neg then p + 1 else p) := by
            cases hn : neg
            · simp; omega
            · simp [hsz, hn] at g3
              simp; omega
          generalize (if neg then p + 1 else p) = p1 at hlt ⊢
          rw [and_three]
          simp only [List.length_cons]
          have := loadTrace_le_end w pol mem ((endp - (p1 - p1 % 4)) / _CHUNK_SIZE + 1)
            (p1 - p1 % 4) endp (_ZERO_FIRST_N_BYTES (_LOAD_FROM mem (p1 - p1 % 4)) (p1 % 4))
            (if u then result % 2 ^ w.bits else 0) (_CHUNK_SIZE - p1 % 4)
          omega

/-- The number of chunk loads of an input-validating call: at most the number of aligned
chunks from the one of the start to the one of a non-digit after the optional sign. -/
theorem defineLoads_le_nondigit (w : Width) (u : Bool) (pol : Policy) (mem : Mem)
    (result p endp F : Nat) (hci : pol.check_input = true)
    (hpF : p + signLen (!u && decide (byteAt mem p = 45)) ≤ F)
    (hF : isDigit (byteAt mem F) = false) :
    (defineLoads w u pol mem result p endp).length ≤ F / 4 + 1 - p / 4 := by
  simp only [defineLoads]
  by_cases g1 : (pol.has_size && decide (endp ≤ p)) = true
  · rw [if_pos g1]; simp
  · rw [if_neg g1]
    by_cases g2 : (pol.is_null_terminated && decide (byteAt mem p = 0)) = true
    · rw [if_pos g2]; simp
    · rw [if_neg g2]
      rw [← signLen_add] at hpF
      generalize (!u && decide (byteAt mem p = 45)) = neg at hpF ⊢
      by_cases g3 : (neg && pol.has_size && decide (endp ≤ (if neg then p + 1 else p))) = true
      · rw [if_pos g3]; simp
      · rw [if_neg g3]
        by_cases g4 : (pol.check_input && !(isDigit (byteAt mem (if neg then p + 1 else p))))
            = true
        · rw [if_pos g4]; simp
        · rw [if_neg g4]
          have hlt : p ≤ (if neg then p + 1 else p) := by split <;> omega
          generalize (if neg then p + 1 else p) = p1 at hlt hpF ⊢
          rw [and_three]
          simp only [List.length_cons, _CHUNK_SIZE]
          have := loadTrace_le_nondigit w pol mem F hci hF
            ((endp - (p1 - p1 % 4)) / 4 + 1) (p1 - p1 % 4) (p1 % 4) endp
            (if u then result % 2 ^ w.bits else 0) (by omega) (by omega)
          omega

/-- C24 (termination). Every function generated by `_DEFINE`, and the body it runs after
the dispatch on short sizes, returns for every policy, memory, start and `end`: the loop
never runs out of the iterations allowed to it, which are the chunks between the start of
the digits and `end`, and allowing it more iterations does not change what it returns. The
number of chunk loads of a call with a size is at most the number of aligned chunks from
the one that holds the start to the one that holds the last byte of the sized span; the
number of chunk loads of an input-validating call is at most the number of aligned chunks
from the one that holds the start to the one that holds any non-digit `F` located after
the optional sign, in particular the first one, where the call stops. -/
theorem loop_terminates (w : Width) (u : Bool) (pol : Policy) (mem : Mem)
    (result p endp : Nat) :
    define w u pol mem result p endp ≠ Ret.timeout ∧
    defineBody w u pol mem result p endp ≠ Ret.timeout ∧
    (∀ ds neg fuel k c e bytes r d,
      parseLoop w u pol mem ds neg result fuel c e bytes r d ≠ Ret.timeout →
      parseLoop w u pol mem ds neg result (fuel + k) c e bytes r d
        = parseLoop w u pol mem ds neg result fuel c e bytes r d) ∧
    (pol.has_size = true →
      (defineLoads w u pol mem result p endp).length ≤ (endp - 1) / 4 + 1 - p / 4) ∧
    (pol.check_input = true → ∀ F, p + signLen (!u && decide (byteAt mem p = 45)) ≤ F →
      isDigit (byteAt mem F) = false →
      (defineLoads w u pol mem result p endp).length ≤ F / 4 + 1 - p / 4) := by
  refine ⟨?_, defineBody_ne_timeout w u pol mem result p endp, ?_, ?_, ?_⟩
  · simp only [define, parse_nooverflow, parse_nocheck]
    repeat' split
    all_goals exact defineBody_ne_timeout _ _ _ _ _ _ _
  · intro ds neg fuel k c e bytes r d h
    exact parseLoop_fuel_add w u pol mem ds neg result k fuel c e bytes r d h
  · exact defineLoads_le_size w u pol mem result p endp
  · intro hci F hpF hF
    exact defineLoads_le_nondigit w u pol mem result p endp F hci hpF hF

/-- The unsigned 32 bit `parse` on "1234567" at address 17 loads the three chunks at 16, 20
and 24, the last of which holds the null byte; with the flags of `parse_n` and size 7 the
body loads the two chunks of the sized span. -/
theorem loop_terminates_witness :
    (defineLoads Width.w32 true parsePolicy (memOf 17 (bytesOf "1234567") 49) 0 17 ptrMax
        = [16, 20, 24] ∧
      (defineLoads Width.w32 true parsePolicy (memOf 17 (bytesOf "1234567") 49) 0 17
        ptrMax).length ≤ 24 / 4 + 1 - 17 / 4) ∧
    (defineLoads Width.w32 true parseNPolicy (memOf 17 (bytesOf "1234567") 49) 0 17 24
        = [16, 20] ∧
      (defineLoads Width.w32 true parseNPolicy (memOf 17 (bytesOf "1234567") 49) 0 17
        24).length ≤ (24 - 1) / 4 + 1 - 17 / 4) :=
  ⟨⟨by decide,
      (loop_terminates Width.w32 true parsePolicy (memOf 17 (bytesOf "1234567") 49) 0 17
        ptrMax).2.2.2.2 rfl 24 (by decide) (by decide)⟩,
    ⟨by decide,
      (loop_terminates Width.w32 true parseNPolicy (memOf 17 (bytesOf "1234567") 49) 0 17
        24).2.2.2.1 rfl⟩⟩

/-! ## Two memories that agree on the sized span -/

/-- The lanes of a chunk that are neither ignored nor chopped off are all that the
shifted chunk depends on. -/
theorem chunk_shift_agree (mem1 mem2 : Mem) (x1 x2 ig chop : Nat) (hig : ig < 4)
    (hchop : chop < 4)
    (h : ∀ i, ig ≤ i → i + chop < 4 → byteAt mem1 (x1 + i) = byteAt mem2 (x2 + i)) :
    _SHIFT_LEFT_N_BYTES (_ZERO_FIRST_N_BYTES (_LOAD_FROM mem1 x1) ig) chop
      = _SHIFT_LEFT_N_BYTES (_ZERO_FIRST_N_BYTES (_LOAD_FROM mem2 x2) ig) chop := by
  have hx : ∀ i, i + chop < 4 → xlane mem1 x1 ig i = xlane mem2 x2 ig i := by
    intro i hi
    simp only [xlane]
    split
    · rfl
    · rw [h i (by omega) hi]
  rw [chunk_eq mem1 x1 ig hig, chunk_eq mem2 x2 ig hig,
    SHIFT_LEFT_N_BYTES_eq _ _ _ _ _ (xlane_lt _ _ _ _) (xlane_lt _ _ _ _) (xlane_lt _ _ _ _)
      (xlane_lt _ _ _ _) hchop,
    SHIFT_LEFT_N_BYTES_eq _ _ _ _ _ (xlane_lt _ _ _ _) (xlane_lt _ _ _ _) (xlane_lt _ _ _ _)
      (xlane_lt _ _ _ _) hchop]
  interval_cases chop
  · simp [hx 0 (by omega), hx 1 (by omega), hx 2 (by omega), hx 3 (by omega)]
  · simp [hx 0 (by omega), hx 1 (by omega), hx 2 (by omega)]
  · simp [hx 0 (by omega), hx 1 (by omega)]
  · simp [hx 0 (by omega)]

/-- A chunk depends only on its lanes that are not ignored. -/
theorem chunk_agree (mem1 mem2 : Mem) (x1 x2 ig : Nat) (hig : ig < 4)
    (h : ∀ i, ig ≤ i → i < 4 → byteAt mem1 (x1 + i) = byteAt mem2 (x2 + i)) :
    _ZERO_FIRST_N_BYTES (_LOAD_FROM mem1 x1) ig = _ZERO_FIRST_N_BYTES (_LOAD_FROM mem2 x2) ig := by
  have hx : ∀ i, i < 4 → xlane mem1 x1 ig i = xlane mem2 x2 ig i := by
    intro i hi
    simp only [xlane]
    split
    · rfl
    · rw [h i (by omega) hi]
  rw [chunk_eq mem1 x1 ig hig, chunk_eq mem2 x2 ig hig, hx 0 (by omega), hx 1 (by omega),
    hx 2 (by omega), hx 3 (by omega)]

/-- The scan for leading zeros at the end of `_DEFINE` on two runs of equal bytes skips
the same number of bytes. -/
theorem skipZeros_shift (mem1 mem2 : Mem) (n : Nat) :
    ∀ x1 x2, (∀ i, i < n → byteAt mem1 (x1 + i) = byteAt mem2 (x2 + i)) →
      ∃ k, skipZeros mem1 n x1 = x1 + k ∧ skipZeros mem2 n x2 = x2 + k := by
  induction n with
  | zero => intro x1 x2 _; exact ⟨0, rfl, rfl⟩
  | succ n ih =>
    intro x1 x2 h
    have h0 := h 0 (by omega)
    simp only [Nat.add_zero] at h0
    by_cases hz : byteAt mem1 x1 = 48
    · obtain ⟨k, k1, k2⟩ := ih (x1 + 1) (x2 + 1) (fun i hi => by
        have := h (i + 1) (by omega)
        rwa [show x1 + (i + 1) = x1 + 1 + i by omega,
          show x2 + (i + 1) = x2 + 1 + i by omega] at this)
      refine ⟨k + 1, ?_, ?_⟩
      · simp only [skipZeros, hz, ne_eq, not_true_eq_false, if_false]; omega
      · simp only [skipZeros, ← h0, hz, ne_eq, not_true_eq_false, if_false]; omega
    · refine ⟨0, ?_, ?_⟩
      · simp [skipZeros, hz]
      · simp [skipZeros, ← h0, hz]

/-- The end of the function on two memories that hold the same bytes between the start
of the digits and `end`, at addresses shifted by `d1` and by `d2`: both calls fail, or both
return their `end` and store the same value. -/
theorem finish_shift (w : Width) (u : Bool) (pol : Policy) (mem1 mem2 : Mem)
    (d1 d2 ds endp : Nat) (neg : Bool) (result r : Nat) (hle : ds ≤ endp)
    (hmem : ∀ a, ds ≤ a → a < endp → byteAt mem1 (a + d1) = byteAt mem2 (a + d2)) :
    ∃ o, finish w u pol mem1 (ds + d1) neg result (endp + d1) r = retAt result (endp + d1) o ∧
      finish w u pol mem2 (ds + d2) neg result (endp + d2) r = retAt result (endp + d2) o := by
  obtain ⟨k, k1, k2⟩ := skipZeros_shift mem1 mem2 (endp - ds) (ds + d1) (ds + d2)
    (fun i hi => by
      have := hmem (ds + i) (by omega) (by omega)
      rwa [show ds + i + d1 = ds + d1 + i by omega,
        show ds + i + d2 = ds + d2 + i by omega] at this)
  have e1 : endp + d1 - (ds + d1) = endp - ds := by omega
  have e2 : endp + d2 - (ds + d2) = endp - ds := by omega
  have i1 : ((endp + d1 : Nat) : Int) - ((ds + d1 : Nat) : Int) = (endp : Int) - ds := by
    push_cast; ring
  have i2 : ((endp + d2 : Nat) : Int) - ((ds + d2 : Nat) : Int) = (endp : Int) - ds := by
    push_cast; ring
  have j1 : ((endp + d1 : Nat) : Int) - ((ds + d1 + k : Nat) : Int) = (endp : Int) - ds - k := by
    push_cast; ring
  have j2 : ((endp + d2 : Nat) : Int) - ((ds + d2 + k : Nat) : Int) = (endp : Int) - ds - k := by
    push_cast; ring
  simp only [finish, e1, e2, k1, k2, i1, i2, j1, j2]
  repeat' split
  all_goals first
    | exact ⟨none, rfl, rfl⟩
    | exact ⟨some _, rfl, rfl⟩

/-- The loop of a function that does not look at the input, on two memories that hold
the same bytes between the start of the digits and `end`, at addresses shifted by `d1`
and by `d2`, from chunks that agree on their lanes inside that span: both calls fail, or
both return their `end` and store the same value. -/
theorem parseLoop_shift (w : Width) (u : Bool) (pol : Policy) (mem1 mem2 : Mem)
    (d1 d2 ds endp : Nat) (neg : Bool) (result : Nat) (hci : pol.check_input = false)
    (hle : ds ≤ endp)
    (hmem : ∀ a, ds ≤ a → a < endp → byteAt mem1 (a + d1) = byteAt mem2 (a + d2)) :
    ∀ fuel c b1 b2 r d, 1 ≤ fuel → endp < c + 4 * fuel → c < endp → ds ≤ c + 4 →
      (endp ≤ c + 4 →
        _SHIFT_LEFT_N_BYTES b1 (c + 4 - endp) = _SHIFT_LEFT_N_BYTES b2 (c + 4 - endp)) →
      (c + 4 < endp → b1 = b2) →
      ∃ o, parseLoop w u pol mem1 (ds + d1) neg result fuel (c + d1) (endp + d1) b1 r d
            = retAt result (endp + d1) o ∧
          parseLoop w u pol mem2 (ds + d2) neg result fuel (c + d2) (endp + d2) b2 r d
            = retAt result (endp + d2) o := by
  intro fuel
  induction fuel with
  | zero => intro c b1 b2 r d h; omega
  | succ fuel ih =>
    intro c b1 b2 r d _ hfuel hc hds hv1 hv2
    have hs1 : scanChunk pol mem1 (c + d1 + 4) (endp + d1) b1 = some (endp + d1) := by
      simp [scanChunk, hci]
    have hs2 : scanChunk pol mem2 (c + d2 + 4) (endp + d2) b2 = some (endp + d2) := by
      simp [scanChunk, hci]
    by_cases hlast : endp ≤ c + 4
    · rw [parseLoop_step_last w u pol mem1 _ neg result fuel _ _ _ b1 r d hs1 (by omega),
        parseLoop_step_last w u pol mem2 _ neg result fuel _ _ _ b2 r d hs2 (by omega),
        show c + d1 + 4 - (endp + d1) = c + 4 - endp by omega,
        show c + d2 + 4 - (endp + d2) = c + 4 - endp by omega, hv1 hlast]
      cases accumulate w pol r ((d + 2 ^ wordBits - (c + 4 - endp)) % 2 ^ wordBits)
          (_SHIFT_LEFT_N_BYTES b2 (c + 4 - endp)) with
      | none => exact ⟨none, rfl, rfl⟩
      | some r1 => exact finish_shift w u pol mem1 mem2 d1 d2 ds endp neg result r1 hle hmem
    · rw [parseLoop_step_continue w u pol mem1 _ neg result fuel _ _ _ b1 r d hs1 (by omega),
        parseLoop_step_continue w u pol mem2 _ neg result fuel _ _ _ b2 r d hs2 (by omega),
        hv2 (by omega)]
      cases accumulate w pol r d b2 with
      | none => exact ⟨none, rfl, rfl⟩
      | some r1 =>
        have hlanes : ∀ i, i + (c + 4 + 4 - endp) < 4 →
            byteAt mem1 (c + 4 + d1 + i) = byteAt mem2 (c + 4 + d2 + i) := by
          intro i hi
          have := hmem (c + 4 + i) (by omega) (by omega)
          rwa [show c + 4 + i + d1 = c + 4 + d1 + i by omega,
            show c + 4 + i + d2 = c + 4 + d2 + i by omega] at this
        have := ih (c + 4) (_LOAD_FROM mem1 (c + 4 + d1)) (_LOAD_FROM mem2 (c + 4 + d2)) r1 4
          (by omega) (by omega) (by omega) (by omega)
          (fun h => by
            rw [chunk_zero mem1, chunk_zero mem2]
            exact chunk_shift_agree mem1 mem2 _ _ 0 _ (by norm_num) (by omega)
              (fun i _ hi => hlanes i hi))
          (fun h => by
            rw [chunk_zero mem1, chunk_zero mem2]
            exact chunk_agree mem1 mem2 _ _ 0 (by norm_num)
              (fun i _ hi => hlanes i (by omega)))
        rw [show c + 4 + d1 = c + d1 + 4 by omega, show c + 4 + d2 = c + d2 + 4 by omega] at this
        exact this

/-- The body of a function with a size that does not look at the input, on two memories
that hold the same `n` bytes from two starts with the same offset in their chunks: both
calls fail, or both return the end of their span and store the same value. -/
theorem defineBody_shift (w : Width) (u : Bool) (pol : Policy) (mem1 mem2 : Mem)
    (result q d1 d2 n : Nat) (hci : pol.check_input = false) (hsz : pol.has_size = true)
    (hd1 : d1 % 4 = 0) (hd2 : d2 % 4 = 0)
    (hsame : ∀ i, i < n → byteAt mem1 (q + d1 + i) = byteAt mem2 (q + d2 + i)) :
    ∃ o, defineBody w u pol mem1 result (q + d1) (q + n + d1) = retAt result (q + n + d1) o ∧
      defineBody w u pol mem2 result (q + d2) (q + n + d2) = retAt result (q + n + d2) o := by
  by_cases hn : n = 0
  · rw [defineBody_empty w u pol mem1 result _ _ hsz (by omega),
      defineBody_empty w u pol mem2 result _ _ hsz (by omega)]
    exact ⟨none, rfl, rfl⟩
  · have h0 := hsame 0 (by omega)
    simp only [Nat.add_zero] at h0
    have e1 : (pol.has_size && decide (q + n + d1 ≤ q + d1)) = false := by
      simp; intro _; omega
    have e2 : (pol.has_size && decide (q + n + d2 ≤ q + d2)) = false := by
      simp; intro _; omega
    simp only [defineBody]
    rw [← h0, e1, e2]
    simp only [Bool.false_eq_true, if_false]
    by_cases g2 : (pol.is_null_terminated && decide (byteAt mem1 (q + d1) = 0)) = true
    · rw [if_pos g2, if_pos g2]
      exact ⟨none, rfl, rfl⟩
    · rw [if_neg g2, if_neg g2]
      generalize (!u && decide (byteAt mem1 (q + d1) = 45)) = neg
      have hp1 : (if neg then q + d1 + 1 else q + d1) = q + signLen neg + d1 := by
        cases neg
        · simp [signLen]
        · simp [signLen]; omega
      have hp2 : (if neg then q + d2 + 1 else q + d2) = q + signLen neg + d2 := by
        cases neg
        · simp [signLen]
        · simp [signLen]; omega
      rw [hp1, hp2]
      by_cases g3 : n ≤ signLen neg
      · have hnt : neg = true := by
          cases hn' : neg
          · rw [hn'] at g3; simp [signLen] at g3; omega
          · rfl
        subst hnt
        have e3a : (true && pol.has_size && decide (q + n + d1 ≤ q + signLen true + d1))
            = true := by simp [hsz]; omega
        have e3b : (true && pol.has_size && decide (q + n + d2 ≤ q + signLen true + d2))
            = true := by simp [hsz]; omega
        rw [e3a, e3b]
        exact ⟨none, rfl, rfl⟩
      · have e3a : (neg && pol.has_size && decide (q + n + d1 ≤ q + signLen neg + d1))
            = false := by simp; intro _ _; omega
        have e3b : (neg && pol.has_size && decide (q + n + d2 ≤ q + signLen neg + d2))
            = false := by simp; intro _ _; omega
        rw [e3a, e3b]
        simp only [hci, Bool.false_and, Bool.false_eq_true, if_false]
        rw [and_three, and_three]
        have hsl : signLen neg ≤ 1 := by cases neg <;> simp [signLen]
        have m1 : (q + signLen neg + d1) % 4 = (q + signLen neg) % 4 := by omega
        have m2 : (q + signLen neg + d2) % 4 = (q + signLen neg) % 4 := by omega
        rw [m1, m2]
        have hqds : q ≤ q + signLen neg := Nat.le_add_right _ _
        have hdsn : q + signLen neg < q + n := by omega
        generalize q + signLen neg = ds at hqds hdsn ⊢
        have hmem : ∀ a, ds ≤ a → a < q + n → byteAt mem1 (a + d1) = byteAt mem2 (a + d2) := by
          intro a ha1 ha2
          have := hsame (a - q) (by omega)
          rwa [show q + d1 + (a - q) = a + d1 by omega,
            show q + d2 + (a - q) = a + d2 by omega] at this
        have c1 : ds + d1 - ds % 4 = (ds - ds % 4) + d1 := by omega
        have c2 : ds + d2 - ds % 4 = (ds - ds % 4) + d2 := by omega
        have f1 : (q + n + d1 - ((ds - ds % 4) + d1)) / _CHUNK_SIZE + 1
            = (q + n - (ds - ds % 4)) / 4 + 1 := by
          simp only [_CHUNK_SIZE]; omega
        have f2 : (q + n + d2 - ((ds - ds % 4) + d2)) / _CHUNK_SIZE + 1
            = (q + n - (ds - ds % 4)) / 4 + 1 := by
          simp only [_CHUNK_SIZE]; omega
        rw [c1, c2, f1, f2]
        have hlanes : ∀ i, ds % 4 ≤ i → ds - ds % 4 + i < q + n →
            byteAt mem1 (ds - ds % 4 + d1 + i) = byteAt mem2 (ds - ds % 4 + d2 + i) := by
          intro i hi1 hi2
          have := hmem (ds - ds % 4 + i) (by omega) hi2
          rwa [show ds - ds % 4 + i + d1 = ds - ds % 4 + d1 + i by omega,
            show ds - ds % 4 + i + d2 = ds - ds % 4 + d2 + i by omega] at this
        exact parseLoop_shift w u pol mem1 mem2 d1 d2 ds (q + n) neg result hci (by omega) hmem
          ((q + n - (ds - ds % 4)) / 4 + 1) (ds - ds % 4) _ _ _ _
          (by omega) (by omega) (by omega) (by omega)
          (fun h => chunk_shift_agree mem1 mem2 _ _ (ds % 4) _ (by omega) (by omega)
            (fun i h1 h2 => hlanes i h1 (by omega)))
          (fun h => chunk_agree mem1 mem2 _ _ (ds % 4) (by omega)
            (fun i h1 h2 => hlanes i h1 (by omega)))

/-- A function with a size that does not look at the input, on two memories that hold
the same `n` bytes from two starts with the same offset in their chunks. -/
theorem define_shift (w : Width) (u : Bool) (pol : Policy) (mem1 mem2 : Mem)
    (result p1 p2 n : Nat) (hci : pol.check_input = false) (hsz : pol.has_size = true)
    (hoff : p1 % 4 = p2 % 4)
    (hsame : ∀ i, i < n → byteAt mem1 (p1 + i) = byteAt mem2 (p2 + i)) :
    (define w u pol mem1 result p1 (p1 + n) = Ret.null result ∧
      define w u pol mem2 result p2 (p2 + n) = Ret.null result) ∨
    ∃ v, define w u pol mem1 result p1 (p1 + n) = Ret.ok (p1 + n) v ∧
      define w u pol mem2 result p2 (p2 + n) = Ret.ok (p2 + n) v := by
  have key : ∀ pol' : Policy, pol'.check_input = false → pol'.has_size = true →
      ((defineBody w u pol' mem1 result p1 (p1 + n) = Ret.null result ∧
        defineBody w u pol' mem2 result p2 (p2 + n) = Ret.null result) ∨
      ∃ v, defineBody w u pol' mem1 result p1 (p1 + n) = Ret.ok (p1 + n) v ∧
        defineBody w u pol' mem2 result p2 (p2 + n) = Ret.ok (p2 + n) v) := by
    intro pol' h1 h2
    have e1 : p1 = p1 % 4 + (p1 - p1 % 4) := by omega
    have e2 : p2 = p1 % 4 + (p2 - p2 % 4) := by omega
    have hs : ∀ i, i < n → byteAt mem1 (p1 % 4 + (p1 - p1 % 4) + i)
        = byteAt mem2 (p1 % 4 + (p2 - p2 % 4) + i) := by
      intro i hi
      rw [← e1, ← e2]
      exact hsame i hi
    obtain ⟨o, o1, o2⟩ := defineBody_shift w u pol' mem1 mem2 result (p1 % 4) (p1 - p1 % 4)
      (p2 - p2 % 4) n h1 h2 (by omega) (by omega) hs
    rw [show p1 % 4 + n + (p1 - p1 % 4) = p1 + n by omega, ← e1] at o1
    rw [show p1 % 4 + n + (p2 - p2 % 4) = p2 + n by omega, ← e2] at o2
    cases o with
    | none => exact Or.inl ⟨o1, o2⟩
    | some v => exact Or.inr ⟨v, o1, o2⟩
  by_cases hd : pol.check_overflow = true ∧ n < _MAX_DIGITS w u
  · rw [define_short w u pol mem1 result p1 n hd.1 hsz hd.2,
      define_short w u pol mem2 result p2 n hd.1 hsz hd.2, hci]
    simp only [Bool.false_eq_true, if_false]
    exact key parseNocheckPolicy rfl rfl
  · have hdef : ∀ mem p, define w u pol mem result p (p + n)
        = defineBody w u pol mem result p (p + n) := by
      intro mem p
      cases hco : pol.check_overflow
      · simp [define, hco]
      · exact define_long w u pol mem result p (p + n) (by
          have : ¬ n < _MAX_DIGITS w u := fun hc => hd ⟨hco, hc⟩
          omega)
    rw [hdef, hdef]
    exact key pol hci hsz

/-! ## The sized span is all that the non-validating functions read -/

/-- C23 (span non-interference of the non-validating variants): for `parse_nocheck` and
`parse_novalidate` of every width and signedness, two calls with the same size `n`, two
starts with the same offset within a chunk, the same initial `*result` and memories that
agree on the `n` bytes from the start either both return `NULL`, or both return the end of
their span and store the same value, whatever the bytes before the start and at or after
the end of the span are. -/
theorem span_noninterference (w : Width) (u : Bool) (mem1 mem2 : Mem)
    (result p1 p2 n : Nat) (hoff : p1 % 4 = p2 % 4)
    (hsame : ∀ i, i < n → byteAt mem1 (p1 + i) = byteAt mem2 (p2 + i)) :
    ((parse_nocheck w u mem1 result p1 n = Ret.null result ∧
        parse_nocheck w u mem2 result p2 n = Ret.null result) ∨
      ∃ v, parse_nocheck w u mem1 result p1 n = Ret.ok (p1 + n) v ∧
        parse_nocheck w u mem2 result p2 n = Ret.ok (p2 + n) v) ∧
    ((parse_novalidate w u mem1 result p1 n = Ret.null result ∧
        parse_novalidate w u mem2 result p2 n = Ret.null result) ∨
      ∃ v, parse_novalidate w u mem1 result p1 n = Ret.ok (p1 + n) v ∧
        parse_novalidate w u mem2 result p2 n = Ret.ok (p2 + n) v) := by
  constructor
  · have h := define_shift w u parseNocheckPolicy mem1 mem2 result p1 p2 n rfl rfl hoff hsame
    have hdef : ∀ mem p, define w u parseNocheckPolicy mem result p (p + n)
        = parse_nocheck w u mem result p n := by
      intro mem p
      simp [define, parse_nocheck, parseNocheckPolicy]
    rw [hdef, hdef] at h
    exact h
  · exact define_shift w u parseNovalidatePolicy mem1 mem2 result p1 p2 n rfl rfl hoff hsame

/-- The three bytes "12x" with size 3 at offset 1 of a chunk, once after the byte "7" and
before "9", once after "-" and before a null byte: `parse_nocheck` stores 192 in both
calls and returns the end of the span. -/
theorem span_noninterference_witness :
    (parse_nocheck Width.w32 true (memOf 17 (bytesOf "12x9") 55) 0 17 3 = Ret.ok 20 192 ∧
      parse_nocheck Width.w32 true (memOf 33 (bytesOf "12x") 45) 0 33 3 = Ret.ok 36 192) ∧
    ((parse_nocheck Width.w32 true (memOf 17 (bytesOf "12x9") 55) 0 17 3 = Ret.null 0 ∧
        parse_nocheck Width.w32 true (memOf 33 (bytesOf "12x") 45) 0 33 3 = Ret.null 0) ∨
      ∃ v, parse_nocheck Width.w32 true (memOf 17 (bytesOf "12x9") 55) 0 17 3
          = Ret.ok (17 + 3) v ∧
        parse_nocheck Width.w32 true (memOf 33 (bytesOf "12x") 45) 0 33 3
          = Ret.ok (33 + 3) v) :=
  ⟨by decide, (span_noninterference Width.w32 true (memOf 17 (bytesOf "12x9") 55)
    (memOf 33 (bytesOf "12x") 45) 0 17 33 3 (by decide) (by decide)).1⟩

end ParseInt
